import Mathlib

/-!
# Verification of the JSON decomposition / recombination engine

A shallow embedding of the Python sources of `llm-assisted-json-updater`:
`string_builder.py` (PathBuilder), `json_operations.py` (TreeIndexer =
`json_traverse`, PathWriter = `update_value`, ResultAssembler = `json_recover`,
Formatter = `to_json_object_formatted` / `to_json_string`) and
`prepare_batch.py` (UnitPlanner = `create_input_list`).

JSON values are modelled by the inductive type `Json` (numbers as `Int`;
mappings as ordered association lists, mirroring Python's insertion-ordered
`dict`).  The externally injected token counter (`tiktoken`) appears as an
abstract size function `numTokens : String → Nat`, and the configured constants
(maximum token budget, dummy placeholder, `/` delimiter) as parameters.
Python's `json.dumps` / `json.loads` are embedded as an executable serializer
and a fuel-based recursive-descent parser over character lists.
-/

namespace JsonUpdater

/-- A JSON value: numbers are modelled as integers, mappings as ordered
association lists (Python `dict` preserves insertion order). -/
inductive Json where
  | null
  | bool (b : Bool)
  | num (n : Int)
  | str (s : String)
  | arr (elems : List Json)
  | obj (fields : List (String × Json))

mutual

/-- Structural equality test on JSON values. -/
def jsonBeq : Json → Json → Bool
  | .null, .null => true
  | .bool a, .bool b => a == b
  | .num a, .num b => a == b
  | .str a, .str b => a == b
  | .arr a, .arr b => arrBeq a b
  | .obj a, .obj b => objBeq a b
  | _, _ => false

/-- Elementwise equality test on JSON arrays. -/
def arrBeq : List Json → List Json → Bool
  | [], [] => true
  | a :: as, b :: bs => jsonBeq a b && arrBeq as bs
  | _, _ => false

/-- Entrywise equality test on JSON objects. -/
def objBeq : List (String × Json) → List (String × Json) → Bool
  | [], [] => true
  | (k, v) :: as, (k', v') :: bs => k == k' && jsonBeq v v' && objBeq as bs
  | _, _ => false

end

mutual

theorem jsonBeq_iff : ∀ a b : Json, jsonBeq a b = true ↔ a = b
  | .null, b => by cases b <;> simp [jsonBeq]
  | .bool a, b => by cases b <;> simp [jsonBeq]
  | .num a, b => by cases b <;> simp [jsonBeq]
  | .str a, b => by cases b <;> simp [jsonBeq]
  | .arr a, b => by cases b <;> simp [jsonBeq, arrBeq_iff a]
  | .obj a, b => by cases b <;> simp [jsonBeq, objBeq_iff a]

theorem arrBeq_iff : ∀ a b : List Json, arrBeq a b = true ↔ a = b
  | [], b => by cases b <;> simp [arrBeq]
  | x :: xs, b => by
      cases b <;> simp [arrBeq, jsonBeq_iff x, arrBeq_iff xs]

theorem objBeq_iff : ∀ a b : List (String × Json), objBeq a b = true ↔ a = b
  | [], b => by cases b <;> simp [objBeq]
  | (k, v) :: xs, b => by
      cases b with
      | nil => simp [objBeq]
      | cons y ys =>
        obtain ⟨k', v'⟩ := y
        simp [objBeq, jsonBeq_iff v, objBeq_iff xs, and_assoc]

end

instance : DecidableEq Json := fun a b => decidable_of_iff _ (jsonBeq_iff a b)

/-- Python `d[k]` read on a dict: the value at key `k` (keys are unique in a
Python dict, so first match). -/
def objLookup (k : String) : List (String × Json) → Option Json
  | [] => none
  | (k', v) :: rest => if k' = k then some v else objLookup k rest

/-- Python `d[k] = v` on a dict: overwrite in place if the key exists
(preserving its position), otherwise append at the end. -/
def objInsert (k : String) (v : Json) : List (String × Json) → List (String × Json)
  | [] => [(k, v)]
  | (k', v') :: rest => if k' = k then (k, v) :: rest else (k', v') :: objInsert k v rest

/-- The keys of a mapping, in insertion order. -/
def objKeys (fs : List (String × Json)) : List String := fs.map Prod.fst

/-- Python `sep.join(parts)` (used by `StringBuilder.get`): the empty string
on an empty container, otherwise the parts interleaved with the delimiter. -/
def pyJoinD (d : String) : List String → String
  | [] => ""
  | [s] => s
  | s :: rest => s ++ d ++ pyJoinD d rest

/-- Method `StringBuilder.get` from `string_builder.py`: joins the container's
strings with the configured delimiter. -/
def stringBuilderGet (delimiter : String) (container : List String) : String :=
  pyJoinD delimiter container

/-- Python `s.split('/')` on a character list: always at least one piece;
splitting the empty string yields `[""]`. -/
def pySplitSlashCh : List Char → List (List Char)
  | [] => [[]]
  | c :: cs =>
    if c = '/' then [] :: pySplitSlashCh cs
    else
      match pySplitSlashCh cs with
      | t :: ts => (c :: t) :: ts
      | [] => [[c]]

/-- Python `key_chain.split('/')` as used by `JsonOperations.update_value`. -/
def pySplitSlash (s : String) : List String :=
  (pySplitSlashCh s.data).map String.mk

/-! ## The serializer: Python `json.dumps` (`JsonOperations.to_json_string`) -/

/-- The character for a decimal digit. -/
def digitChar (d : Nat) : Char := Char.ofNat (48 + d)

/-- Lowercase hexadecimal digit character, as produced by Python's `\uXXXX`
escapes. -/
def hexDigitChar (d : Nat) : Char :=
  if d < 10 then digitChar d else Char.ofNat (87 + d)

/-- Decimal digits of `n`, most significant first (empty for `0`); the first
argument is recursion fuel, sufficient whenever it is at least `n`. -/
def natDigitsF : Nat → Nat → List Char
  | 0, _ => []
  | fuel + 1, n => if n = 0 then [] else natDigitsF fuel (n / 10) ++ [digitChar (n % 10)]

/-- Python `str` of a natural number. -/
def natRepr (n : Nat) : List Char := if n = 0 then ['0'] else natDigitsF n n

/-- Python `str` of an integer (as emitted by `json.dumps` for `int`). -/
def intRepr : Int → List Char
  | .ofNat n => natRepr n
  | .negSucc m => '-' :: natRepr (m + 1)

/-- Escaping of one character by `json.dumps(..., ensure_ascii=False)`:
quote, backslash and control characters are escaped, everything else is
emitted verbatim. -/
def escapeChar (c : Char) : List Char :=
  if c = '"' then ['\\', '"']
  else if c = '\\' then ['\\', '\\']
  else if c = '\n' then ['\\', 'n']
  else if c = '\r' then ['\\', 'r']
  else if c = '\t' then ['\\', 't']
  else if c.toNat = 8 then ['\\', 'b']
  else if c.toNat = 12 then ['\\', 'f']
  else if c.toNat < 32 then ['\\', 'u', '0', '0', hexDigitChar (c.toNat / 16), hexDigitChar (c.toNat % 16)]
  else [c]

/-- A JSON string literal: quote, escaped content, quote. -/
def renderStr (s : String) : List Char := '"' :: (s.data.flatMap escapeChar ++ ['"'])

mutual

/-- Python `json.dumps(v, ensure_ascii=False)` with default separators
`(', ', ': ')`, as a character list. -/
def dumpsCh : Json → List Char
  | .null => ['n', ('u' : Char), 'l', 'l']
  | .bool true => ['t', 'r', ('u' : Char), 'e']
  | .bool false => ['f', 'a', ('l' : Char), 's', 'e']
  | .num n => intRepr n
  | .str s => renderStr s
  | .arr [] => ['[', ']']
  | .arr (x :: xs) => '[' :: (dumpsCh x ++ dumpsElems xs ++ [']'])
  | .obj [] => ['{', '}']
  | .obj ((k, v) :: fs) =>
      '{' :: (renderStr k ++ ':' :: ' ' :: dumpsCh v ++ dumpsFields fs ++ ['}'])

/-- Remaining array elements, each preceded by the `', '` separator. -/
def dumpsElems : List Json → List Char
  | [] => []
  | x :: xs => ',' :: ' ' :: (dumpsCh x ++ dumpsElems xs)

/-- Remaining object entries, each preceded by the `', '` separator. -/
def dumpsFields : List (String × Json) → List Char
  | [] => []
  | (k, v) :: fs => ',' :: ' ' :: (renderStr k ++ ':' :: ' ' :: dumpsCh v ++ dumpsFields fs)

end

/-- Newline followed by the indentation of nesting level `lvl` at width `w`
(as emitted by `json.dumps(..., indent=w)`). -/
def nlIndent (w lvl : Nat) : List Char := '\n' :: List.replicate (w * lvl) ' '

mutual

/-- Python `json.dumps(v, indent=w, ensure_ascii=False)` at nesting level `lvl`:
item separator `','` + newline + indent, key separator `': '`; empty
containers stay on one line. -/
def dumpsInd (w : Nat) : Nat → Json → List Char
  | _, .null => ['n', 'u', 'l', 'l']
  | _, .bool true => ['t', 'r', 'u', 'e']
  | _, .bool false => ['f', 'a', 'l', 's', 'e']
  | _, .num n => intRepr n
  | _, .str s => renderStr s
  | _, .arr [] => ['[', ']']
  | lvl, .arr (x :: xs) =>
      '[' :: (nlIndent w (lvl + 1) ++ dumpsInd w (lvl + 1) x ++
        dumpsIndElems w (lvl + 1) xs ++ nlIndent w lvl ++ [']'])
  | _, .obj [] => ['{', '}']
  | lvl, .obj ((k, v) :: fs) =>
      '{' :: (nlIndent w (lvl + 1) ++ renderStr k ++ ':' :: ' ' :: dumpsInd w (lvl + 1) v ++
        dumpsIndFields w (lvl + 1) fs ++ nlIndent w lvl ++ ['}'])

/-- Remaining indented array elements. -/
def dumpsIndElems (w : Nat) : Nat → List Json → List Char
  | _, [] => []
  | lvl, x :: xs => ',' :: (nlIndent w lvl ++ dumpsInd w lvl x ++ dumpsIndElems w lvl xs)

/-- Remaining indented object entries. -/
def dumpsIndFields (w : Nat) : Nat → List (String × Json) → List Char
  | _, [] => []
  | lvl, (k, v) :: fs =>
      ',' :: (nlIndent w lvl ++ renderStr k ++ ':' :: ' ' :: dumpsInd w lvl v ++
        dumpsIndFields w lvl fs)

end

/-- Method `JsonOperations.to_json_string(input_dict, indent)` from
`json_operations.py`: `json.dumps(input_dict, indent=indent,
ensure_ascii=False)`; `indent` defaults to `4` and the recovery path passes
`None`. -/
def toJsonString : Option Nat → Json → String
  | none, v => String.mk (dumpsCh v)
  | some w, v => String.mk (dumpsInd w 0 v)

/-! ## The parser: Python `json.loads`

A recursive-descent parser over character lists, structural on a fuel
counter.  It covers the fragment of JSON the `Json` type models (numbers are
integers; floats are outside the embedding).  Whitespace between tokens is
skipped as in `json.loads`, strings reject raw control characters (strict
mode), and duplicate object keys resolve as in a Python dict (position of the
first occurrence, value of the last). -/

/-- The whitespace characters `json.loads` skips between tokens. -/
def isJsonWs (c : Char) : Bool := c = ' ' || c = '\t' || c = '\n' || c = '\r'

/-- Drop leading JSON whitespace. -/
def skipWs : List Char → List Char
  | [] => []
  | c :: cs => if isJsonWs c then skipWs cs else c :: cs

/-- Decimal digit test. -/
def isDigitCh (c : Char) : Bool := '0' ≤ c && c ≤ '9'

/-- Split off the longest leading run of decimal digits. -/
def takeDigits : List Char → List Char × List Char
  | [] => ([], [])
  | c :: cs =>
    if isDigitCh c then
      let (ds, r) := takeDigits cs
      (c :: ds, r)
    else ([], c :: cs)

/-- Numeric value of a digit string. -/
def digitsVal (ds : List Char) : Nat :=
  ds.foldl (fun acc c => acc * 10 + (c.toNat - 48)) 0

/-- Parse a JSON integer (optional sign, no leading zeros except `0`
itself). -/
def parseNum (cs : List Char) : Option (Int × List Char) :=
  let neg : Bool := decide (cs.head? = some '-')
  let cs1 := if neg then cs.tail else cs
  let (ds, cs2) := takeDigits cs1
  match ds with
  | [] => none
  | d :: rest =>
    if d = '0' ∧ rest ≠ [] then none
    else
      let v : Int := digitsVal ds
      some (if neg then -v else v, cs2)

/-- Hexadecimal value of a character, if any. -/
def hexVal (c : Char) : Option Nat :=
  if '0' ≤ c ∧ c ≤ '9' then some (c.toNat - 48)
  else if 'a' ≤ c ∧ c ≤ 'f' then some (c.toNat - 87)
  else if 'A' ≤ c ∧ c ≤ 'F' then some (c.toNat - 55)
  else none

/-- Resolution of a single-character escape sequence. -/
def unescapeChar : Char → Option Char
  | '"' => some '"'
  | '\\' => some '\\'
  | '/' => some '/'
  | 'b' => some (Char.ofNat 8)
  | 'f' => some (Char.ofNat 12)
  | 'n' => some '\n'
  | 'r' => some '\r'
  | 't' => some '\t'
  | _ => none

/-- Parse the body of a string literal after the opening quote; raw control
characters are rejected as in strict `json.loads`. -/
def parseStringBody (acc : List Char) : List Char → Option (String × List Char)
  | [] => none
  | '"' :: rest => some (String.mk acc.reverse, rest)
  | '\\' :: 'u' :: a :: b :: c :: d :: rest =>
      match hexVal a, hexVal b, hexVal c, hexVal d with
      | some va, some vb, some vc, some vd =>
          parseStringBody (Char.ofNat (((va * 16 + vb) * 16 + vc) * 16 + vd) :: acc) rest
      | _, _, _, _ => none
  | '\\' :: e :: rest =>
      match unescapeChar e with
      | some ch => parseStringBody (ch :: acc) rest
      | none => none
  | c :: rest =>
      if c.toNat < 32 then none else parseStringBody (c :: acc) rest

/-- Python-dict construction from parsed object entries: first occurrence
fixes the position, last occurrence fixes the value. -/
def buildObj (pairs : List (String × Json)) : List (String × Json) :=
  pairs.foldl (fun acc kv => objInsert kv.1 kv.2 acc) []

mutual

/-- Parse one JSON value after skipping leading whitespace (fuel-structural). -/
def parseVal : Nat → List Char → Option (Json × List Char)
  | 0, _ => none
  | fuel + 1, cs =>
    match skipWs cs with
    | 'n' :: 'u' :: 'l' :: 'l' :: r => some (.null, r)
    | 't' :: 'r' :: 'u' :: 'e' :: r => some (.bool true, r)
    | 'f' :: 'a' :: 'l' :: 's' :: 'e' :: r => some (.bool false, r)
    | '"' :: r =>
        match parseStringBody [] r with
        | some (s, r') => some (.str s, r')
        | none => none
    | '[' :: r =>
        match skipWs r with
        | ']' :: r' => some (.arr [], r')
        | r' =>
            match parseElems fuel r' with
            | some (es, r'') => some (.arr es, r'')
            | none => none
    | '{' :: r =>
        match skipWs r with
        | '}' :: r' => some (.obj [], r')
        | r' =>
            match parseFields fuel r' with
            | some (ps, r'') => some (.obj (buildObj ps), r'')
            | none => none
    | c :: rest =>
        if c = '-' ∨ isDigitCh c then
          match parseNum (c :: rest) with
          | some (n, r') => some (.num n, r')
          | none => none
        else none
    | [] => none

/-- Parse one or more comma-separated array elements up to `']'`. -/
def parseElems : Nat → List Char → Option (List Json × List Char)
  | 0, _ => none
  | fuel + 1, cs =>
    match parseVal fuel cs with
    | none => none
    | some (v, r) =>
        match skipWs r with
        | ',' :: r' =>
            match parseElems fuel r' with
            | some (vs, r'') => some (v :: vs, r'')
            | none => none
        | ']' :: r' => some ([v], r')
        | _ => none

/-- Parse one or more comma-separated `"key": value` entries up to `'}'`. -/
def parseFields : Nat → List Char → Option (List (String × Json) × List Char)
  | 0, _ => none
  | fuel + 1, cs =>
    match skipWs cs with
    | '"' :: r =>
        match parseStringBody [] r with
        | none => none
        | some (k, r1) =>
            match skipWs r1 with
            | ':' :: r2 =>
                match parseVal fuel r2 with
                | none => none
                | some (v, r3) =>
                    match skipWs r3 with
                    | ',' :: r4 =>
                        match parseFields fuel r4 with
                        | some (ps, r5) => some ((k, v) :: ps, r5)
                        | none => none
                    | '}' :: r4 => some ([(k, v)], r4)
                    | _ => none
            | _ => none
    | _ => none

end

/-- Python `json.loads` on a character list: parse one value, then require
only whitespace to remain. -/
def loadsCh (cs : List Char) : Option Json :=
  match parseVal (cs.length + 1) cs with
  | some (v, rest) => if skipWs rest = [] then some v else none
  | none => none

/-- Python `json.loads`. -/
def loads (s : String) : Option Json := loadsCh s.data

/-! ## PathWriter: `JsonOperations.update_value` -/

/-- The walk of `update_value` after splitting the key chain, in
`json_operations.py`:

    d = base
    for key in keys[:-1]:
        d = d.get(key, {})
    d[keys[-1]] = new_value

`none` models a raised exception (`.get` on a non-dict, or item assignment
on a non-dict).  When an intermediate key is missing, `.get` produces a
fresh `{}` not linked into `base`, so the terminal write is silently lost
and `base` is returned unchanged. -/
def updateValueGo : List String → Json → Json → Option Json
  | [], _, _ => none
  | [k], v, .obj fs => some (.obj (objInsert k v fs))
  | [_], _, _ => none
  | k :: k2 :: rest, v, .obj fs =>
      match objLookup k fs with
      | none => some (.obj fs)
      | some w =>
          match updateValueGo (k2 :: rest) v w with
          | some w' => some (.obj (objInsert k w' fs))
          | none => none
  | _ :: _ :: _, _, _ => none

/-- Method `JsonOperations.update_value(key_chain, new_value, base)`:
split on `'/'`, then walk-and-assign. -/
def updateValue (keyChain : String) (newValue : Json) (base : Json) : Option Json :=
  updateValueGo (pySplitSlash keyChain) newValue base

/-- Python `base[key_chain] = v`: plain dict item assignment with the whole
chain string as the key (TypeError on a non-dict, modelled as `none`).  This
is the first of the two writes `json_recover` performs per chain. -/
def pyAssign (keyChain : String) (v : Json) : Json → Option Json
  | .obj fs => some (.obj (objInsert keyChain v fs))
  | _ => none

/-! ## TreeIndexer: `JsonOperations.json_traverse`

The traversal recurses on the node it visits (`json_obj`) while the
placeholder writes go through `update_value` against the root document
(`self.data`), so the embedding threads the root and the extraction map
(`self.json_list_dict`) as explicit state.  `numTokens` stands for the
injected `Utility.num_tokens_from_string`, `maxToken` for the configured
budget and `ph` for the configured dummy placeholder string. -/

mutual

/-- One traversal step of `json_traverse`: dict nodes recurse per entry in
insertion order with the key pushed on the path stack `chain`; list nodes
are serialized, and when over budget are recorded in the extraction map and
overwritten with the placeholder in the root document; scalars are no-ops. -/
def jsonTraverse (numTokens : String → Nat) (maxToken : Nat) (ph : String) :
    List String → Json → Json → List (String × Json) → Option (Json × List (String × Json))
  | chain, .obj fs, root, m => jsonTraverseFields numTokens maxToken ph chain fs root m
  | chain, .arr xs, root, m =>
      if maxToken < numTokens (toJsonString none (.arr xs)) then
        let keyChain := stringBuilderGet "/" chain
        let m' := objInsert keyChain (.arr xs) m
        match updateValue keyChain (.str ph) root with
        | some root' => some (root', m')
        | none => none
      else some (root, m)
  | _, _, root, m => some (root, m)

/-- The `for key, value in json_obj.items()` loop of `json_traverse`. -/
def jsonTraverseFields (numTokens : String → Nat) (maxToken : Nat) (ph : String) :
    List String → List (String × Json) → Json → List (String × Json) →
      Option (Json × List (String × Json))
  | _, [], root, m => some (root, m)
  | chain, (k, v) :: rest, root, m =>
      match jsonTraverse numTokens maxToken ph (chain ++ [k]) v root m with
      | some (r1, m1) => jsonTraverseFields numTokens maxToken ph chain rest r1 m1
      | none => none

end

/-- The `JsonOperations.__init__` wrapping: a dict is kept as-is, anything
else (`JsonType.LIST`) is wrapped in a dict under the dummy placeholder
key. -/
def jsonOpsInit (ph : String) : Json → Json
  | .obj fs => .obj fs
  | j => .obj [(ph, j)]

/-! ## Formatter: the cleanup pipeline of `to_json_object_formatted` -/

/-- Python `str.replace(pat, repl)` for a two-character pattern `a, b`:
non-overlapping replacement, scanning left to right. -/
def replace2 (a b : Char) (repl : List Char) : List Char → List Char
  | [] => []
  | [c] => [c]
  | c :: d :: rest =>
      if c = a ∧ d = b then repl ++ replace2 a b repl rest
      else c :: replace2 a b repl (d :: rest)

/-- Python `str.replace(pat, repl)` for a three-character pattern. -/
def replace3 (a b c : Char) (repl : List Char) : List Char → List Char
  | [] => []
  | [x] => [x]
  | [x, y] => [x, y]
  | x :: y :: z :: rest =>
      if x = a ∧ y = b ∧ z = c then repl ++ replace3 a b c repl rest
      else x :: replace3 a b c repl (y :: z :: rest)

/-- The characters matched by the regex class `\s` (ASCII range). -/
def isPySpace (c : Char) : Bool :=
  c = ' ' || c = '\t' || c = '\n' || c = '\r' || c.toNat = 11 || c.toNat = 12

/-- Python `re.sub(r'\s+', ' ', s)`: each maximal whitespace run becomes a single
space; the flag records whether the previous character was whitespace. -/
def collapseWsGo : Bool → List Char → List Char
  | _, [] => []
  | prev, c :: cs =>
      if isPySpace c then
        if prev then collapseWsGo true cs else ' ' :: collapseWsGo true cs
      else c :: collapseWsGo false cs

/-- Python `re.sub(r'\s+', ' ', s)`. -/
def collapseWs (l : List Char) : List Char := collapseWsGo false l

/-- Python `str.strip()`: drop leading and trailing whitespace. -/
def pyStrip (l : List Char) : List Char :=
  ((l.dropWhile isPySpace).reverse.dropWhile isPySpace).reverse

/-- Find the earliest `'}'` immediately followed by `'"'`; returns the part
before the `'}'` and the part after the `'"'`.  The scan stops at a newline,
since `.` in the regex `"{(.*?)}"` does not match `'\n'`. -/
def findCloseQuote : List Char → Option (List Char × List Char)
  | [] => none
  | '\n' :: _ => none
  | '}' :: '"' :: rest => some ([], rest)
  | c :: cs =>
      match findCloseQuote cs with
      | some (a, b) => some (c :: a, b)
      | none => none

/-- Python `re.sub(r'"{(.*?)}"', r'{\1}', s)`: each quoted brace-span loses its
quotes, scanning left to right, shortest match first (fuel-structural; the
input's length is always enough fuel).  A match starts at `'"'` immediately
followed by `'{'`; when no closing `'}"'` follows, the scan moves on by one
character, exactly as the regex engine does. -/
def braceFixF : Nat → List Char → List Char
  | 0, l => l
  | _ + 1, [] => []
  | fuel + 1, c :: cs =>
      if c = '"' ∧ cs.head? = some '{' then
        match findCloseQuote cs.tail with
        | some (a, b) => '{' :: (a ++ '}' :: braceFixF fuel b)
        | none => c :: braceFixF fuel cs
      else c :: braceFixF fuel cs

/-- Python `re.sub(r'"{(.*?)}"', r'{\1}', s)`. -/
def braceFix (l : List Char) : List Char := braceFixF l.length l

/-- The Python errors the recovery path can raise. -/
inductive PyError where
  | keyError
  | typeError
  | jsonDecodeError
deriving DecidableEq

/-- Substring test on character lists (Python `pat in s` for strings). -/
def chContains (pat : List Char) : List Char → Bool
  | [] => decide (pat = [])
  | c :: cs => pat.isPrefixOf (c :: cs) || chContains pat cs

/-- Python `ph in j`: key membership for a dict, element membership for a
list, substring test for a string; `in` on other values raises `TypeError`
(`none`). -/
def pyContains (ph : String) : Json → Option Bool
  | .obj fs => some ((objKeys fs).contains ph)
  | .arr xs => some (xs.contains (.str ph))
  | .str s => some (chContains ph.data s.data)
  | _ => none

/-- Python `j[ph]` with a string subscript: dict lookup (KeyError when
absent); every other receiver raises `TypeError` (`none`). -/
def pyIndexStr (ph : String) : Json → Option Json
  | .obj fs => objLookup ph fs
  | _ => none

/-- Method `JsonOperations.to_json_object_formatted(input_dict)`: serialize with
`indent=None`, strip artifact escape sequences, collapse whitespace, strip,
un-quote brace spans, re-parse, then unwrap the dummy-placeholder key if it
is present at top level. -/
def toJsonObjectFormatted (ph : String) (b : Json) : Except PyError Json :=
  let s0 := dumpsCh b
  let s1 := replace2 '\\' 'n' [] s0
  let s2 := replace2 '\\' '"' ['"'] s1
  let s3 := replace3 'â' '€' '”' ['â', '€', '“'] s2
  let s4 := pyStrip (collapseWs s3)
  let s5 := braceFix s4
  match loadsCh s5 with
  | none => .error .jsonDecodeError
  | some j =>
      match pyContains ph j with
      | none => .error .typeError
      | some false => .ok j
      | some true =>
          match pyIndexStr ph j with
          | some v => .ok v
          | none => .error .typeError

/-! ## ResultAssembler: `JsonOperations.json_recover`

The result map `data` is a dict from key chain to a dict from index to
result text.  `json_recover` mutates its argument (`data.pop("/")`), so the
embedding returns both the result (`Except` models raised exceptions) and
the final state of the caller's map. -/

/-- The per-index result texts of one unit, as stored (insertion-ordered
`index → text` dict). -/
abbrev IndexMap := List (Nat × String)

/-- The result map: key chain → per-index results. -/
abbrev ResultMap := List (String × IndexMap)

/-- Dict read on the result map. -/
def rmapLookup (k : String) : ResultMap → Option IndexMap
  | [] => none
  | (k', v) :: rest => if k' = k then some v else rmapLookup k rest

/-- Python `dict.pop(k)`: the map without key `k`. -/
def rmapErase (k : String) : ResultMap → ResultMap
  | [] => []
  | (k', v) :: rest => if k' = k then rest else (k', v) :: rmapErase k rest

/-- Dict read on an index map (`data[key_chain][index]`). -/
def ilookup (i : Nat) : IndexMap → Option String
  | [] => none
  | (i', v) :: rest => if i' = i then some v else ilookup i rest

/-- The `updated_list` construction of `json_recover`: look up indices
`0 .. n-1` where `n = len(data[key_chain])`; a missing index raises
`KeyError` (`none`). -/
def buildUpdatedList (inner : IndexMap) : Option (List String) :=
  (List.range inner.length).mapM (fun i => ilookup i inner)

/-- The `for key_chain in data.keys()` loop of `json_recover`: per chain,
build the updated list, then write it twice — `base[key_chain] =
updated_list` and `update_value(key_chain, updated_list, base)`. -/
def recoverLoop : List (String × IndexMap) → Json → Except PyError Json
  | [], base => .ok base
  | (chain, inner) :: rest, base =>
      match buildUpdatedList inner with
      | none => .error .keyError
      | some texts =>
          let ul : Json := .arr (texts.map .str)
          match pyAssign chain ul base with
          | none => .error .typeError
          | some base1 =>
              match updateValue chain ul base1 with
              | none => .error .typeError
              | some base2 => recoverLoop rest base2

/-- Method `JsonOperations.json_recover(data)`, with the mutation of the caller's
map made explicit: the returned `ResultMap` is the state of `data` when the
call returns or raises.  `data.pop("/")` runs only after
`json.loads(data["/"][0])` has succeeded. -/
def jsonRecoverRun (ph : String) (data : ResultMap) : Except PyError Json × ResultMap :=
  match rmapLookup "/" data with
  | none => (.error .keyError, data)
  | some inner =>
      match ilookup 0 inner with
      | none => (.error .keyError, data)
      | some rootText =>
          match loads rootText with
          | none => (.error .jsonDecodeError, data)
          | some base =>
              let rest := rmapErase "/" data
              match recoverLoop rest base with
              | .error e => (.error e, rest)
              | .ok base' => (toJsonObjectFormatted ph base', rest)

/-- The value `json_recover` returns (or the exception it raises). -/
def jsonRecover (ph : String) (data : ResultMap) : Except PyError Json :=
  (jsonRecoverRun ph data).1

/-! ## UnitPlanner: `PrepareBatch.create_input_list` -/

/-- A work-unit tuple `(full_key_sequence, index, system_content,
num_tokens*3)` as built by `prepare_tuple_for_input_list`. -/
abbrev InputTuple := String × Nat × String × Nat

/-- Method `PrepareBatch.prepare_tuple_for_input_list(data, full_key_sequence,
index)`: the payload serialized with the default `indent=4`, and a token
budget of three times its token count. -/
def prepareTuple (numTokens : String → Nat) (j : Json) (chain : String) (index : Nat) :
    InputTuple :=
  let content := toJsonString (some 4) j
  (chain, index, content, numTokens content * 3)

/-- Python `enumerate(list_data)` over an extraction-map value; the map only
ever stores arrays (`json_traverse` records `json_obj` from its list
branch). -/
def pyEnumElems : Json → List Json
  | .arr xs => xs
  | _ => []

/-- Method `PrepareBatch.create_input_list()`: traverse the (wrapped) document,
then emit the root tuple at address `("/", 0)` followed by one tuple per
extracted-array element, chains in extraction-map insertion order, indices
in element order. -/
def createInputList (numTokens : String → Nat) (maxToken : Nat) (ph : String)
    (data0 : Json) : Option (List InputTuple) :=
  let d := jsonOpsInit ph data0
  match jsonTraverse numTokens maxToken ph [] d d [] with
  | none => none
  | some (d', m) =>
      some (prepareTuple numTokens d' "/" 0 ::
        m.flatMap (fun kv =>
          (pyEnumElems kv.2).enum.map (fun p => prepareTuple numTokens p.2 kv.1 p.1)))

deriving instance DecidableEq for Except

/-! ## Path access and well-formedness -/

/-- Follow a chain of mapping keys down a document. -/
def pathLookup : Json → List String → Option Json
  | j, [] => some j
  | .obj fs, k :: ks =>
      match objLookup k fs with
      | some v => pathLookup v ks
      | none => none
  | _, _ :: _ => none

/-- Functional path update: replace the node at an existing chain of mapping
keys (requires every key on the chain, including the last, to be present). -/
def setAt : Json → List String → Json → Option Json
  | _, [], x => some x
  | .obj fs, k :: ks, x =>
      match objLookup k fs with
      | some v =>
          match setAt v ks x with
          | some v' => some (.obj (objInsert k v' fs))
          | none => none
      | none => none
  | _, _ :: _, _ => none

/-- A key that does not contain the path delimiter. -/
def noSlashStr (s : String) : Bool := !(s.data.contains '/')

/-- No duplicates in a key list. -/
def nodupKeysB : List String → Bool
  | [] => true
  | k :: ks => !(ks.contains k) && nodupKeysB ks

mutual

/-- Well-formed document: every mapping has pairwise-distinct keys and no
key contains the `/` delimiter (the spec's KeyChain invariant). -/
def wfB : Json → Bool
  | .obj fs => wfFieldsB fs && nodupKeysB (fs.map Prod.fst)
  | .arr xs => wfElemsB xs
  | _ => true

/-- Well-formedness of array elements. -/
def wfElemsB : List Json → Bool
  | [] => true
  | x :: xs => wfB x && wfElemsB xs

/-- Well-formedness of mapping entries. -/
def wfFieldsB : List (String × Json) → Bool
  | [] => true
  | (k, v) :: fs => noSlashStr k && wfB v && wfFieldsB fs

end

/-! ## A pure description of the traversal

`idx` computes, without state threading, the document rewrite and the
extraction entries that one `json_traverse` pass produces; the bridge
theorem below proves `jsonTraverse` equal to it on well-formed documents. -/

mutual

/-- The pure rewrite of one indexing pass at path `p`: over-budget arrays
become the placeholder string and are emitted as extraction entries keyed by
their joined chain; mappings recurse entrywise; everything else is kept. -/
def idx (numTokens : String → Nat) (maxToken : Nat) (ph : String) :
    List String → Json → Json × List (String × Json)
  | p, .obj fs =>
      let r := idxFields numTokens maxToken ph p fs
      (.obj r.1, r.2)
  | p, .arr xs =>
      if maxToken < numTokens (toJsonString none (.arr xs)) then
        (.str ph, [(stringBuilderGet "/" p, .arr xs)])
      else (.arr xs, [])
  | _, j => (j, [])

/-- Entrywise pure rewrite of a mapping's fields. -/
def idxFields (numTokens : String → Nat) (maxToken : Nat) (ph : String) :
    List String → List (String × Json) → List (String × Json) × List (String × Json)
  | _, [] => ([], [])
  | p, (k, v) :: rest =>
      let a := idx numTokens maxToken ph (p ++ [k]) v
      let b := idxFields numTokens maxToken ph p rest
      ((k, a.1) :: b.1, a.2 ++ b.2)

end

/-- Sequential dict insertion of a list of entries (the effect of the
`json_list_dict[key_chain] = json_obj` statements of one pass). -/
def insertAll (m : List (String × Json)) (es : List (String × Json)) : List (String × Json) :=
  es.foldl (fun acc e => objInsert e.1 e.2 acc) m

/-! ## Clean documents

The cleanup pipeline of `to_json_object_formatted` rewrites serialized text
(escape stripping, whitespace collapsing, brace un-quoting), so the
round-trip of C1 can only hold on documents whose serialization the
pipeline leaves alone.  `cleanJson` captures that fragment: string scalars
and keys of printable ASCII without quotes, backslashes, consecutive
spaces, or a leading `'{'`. -/

/-- Printable ASCII, no quote, no backslash. -/
def cleanChar (c : Char) : Bool :=
  decide (32 ≤ c.toNat) && decide (c.toNat ≤ 126) && !(c = '"') && !(c = '\\')

/-- No two adjacent spaces. -/
def noTwoSpaces : List Char → Bool
  | [] => true
  | [_] => true
  | a :: b :: rest => !(a = ' ' && b = ' ') && noTwoSpaces (b :: rest)

/-- A string scalar or key the cleanup pipeline cannot damage. -/
def cleanStr (s : String) : Bool :=
  s.data.all cleanChar && noTwoSpaces s.data && !(s.data.head? = some '{')

mutual

/-- Every string scalar and key in the document is clean. -/
def cleanJson : Json → Bool
  | .null => true
  | .bool _ => true
  | .num _ => true
  | .str s => cleanStr s
  | .arr xs => cleanElems xs
  | .obj fs => cleanFields fs

/-- Cleanliness of array elements. -/
def cleanElems : List Json → Bool
  | [] => true
  | x :: xs => cleanJson x && cleanElems xs

/-- Cleanliness of mapping entries. -/
def cleanFields : List (String × Json) → Bool
  | [] => true
  | (k, v) :: fs => cleanStr k && cleanJson v && cleanFields fs

end

mutual

/-- Every array in the document (at any depth, arrays inside arrays
included) serializes to at most `mt` tokens. -/
def arrsLeB (nt : String → Nat) (mt : Nat) : Json → Bool
  | .arr xs => decide (nt (toJsonString none (.arr xs)) ≤ mt) && arrsLeElems nt mt xs
  | .obj fs => arrsLeFields nt mt fs
  | _ => true

/-- Budget bound over array elements. -/
def arrsLeElems (nt : String → Nat) (mt : Nat) : List Json → Bool
  | [] => true
  | x :: xs => arrsLeB nt mt x && arrsLeElems nt mt xs

/-- Budget bound over mapping entries. -/
def arrsLeFields (nt : String → Nat) (mt : Nat) : List (String × Json) → Bool
  | [] => true
  | (_, v) :: fs => arrsLeB nt mt v && arrsLeFields nt mt fs

end

/-- The document's top level does not mention the placeholder (as a key for
a mapping root, as an element for a sequence root), so the final unwrap
check of `to_json_object_formatted` leaves it alone; scalar roots are
excluded (Python `in` raises `TypeError` on them). -/
def noPhTopB (ph : String) : Json → Bool
  | .obj fs => !(objKeys fs).contains ph
  | .arr xs => !xs.contains (.str ph)
  | _ => false

mutual

/-- Structure size of a JSON value, a fuel bound for the parser. -/
def jsize : Json → Nat
  | .arr xs => 1 + esize xs
  | .obj fs => 1 + fsize fs
  | _ => 1

/-- Structure size of array elements. -/
def esize : List Json → Nat
  | [] => 0
  | x :: xs => 1 + jsize x + esize xs

/-- Structure size of mapping entries. -/
def fsize : List (String × Json) → Nat
  | [] => 0
  | (_, v) :: fs => 1 + jsize v + fsize fs

end

/-- Character-level sanity of a serialized clean document: no backslash, no
`'â'`, every whitespace character is a plain space. -/
def goodChar (c : Char) : Bool :=
  !(c = '\\') && !(c = 'â') && (!(isPySpace c) || c = ' ')

/-- Adjacency sanity of a serialized clean document: no two adjacent
spaces, no `'"'` immediately followed by `'{'`. -/
def goodPairs : List Char → Bool
  | [] => true
  | [_] => true
  | a :: b :: rest => !(a = ' ' && b = ' ') && !(a = '"' && b = '{') && goodPairs (b :: rest)

/-- The remainder after a parsed number must not begin with a digit. -/
def nonDigitHead : List Char → Bool
  | [] => true
  | c :: _ => !isDigitCh c

/-! ## General lemmas -/

theorem pySplitSlashCh_no_slash : ∀ l : List Char, '/' ∉ l → pySplitSlashCh l = [l]
  | [], _ => rfl
  | c :: cs, h => by
      have hc : ¬c = '/' := fun hc => h (hc ▸ List.mem_cons_self c cs)
      have ih := pySplitSlashCh_no_slash cs (fun hm => h (List.mem_cons_of_mem c hm))
      simp [pySplitSlashCh, hc, ih]

theorem pySplitSlash_no_slash (s : String) (h : '/' ∉ s.data) : pySplitSlash s = [s] := by
  unfold pySplitSlash
  rw [pySplitSlashCh_no_slash s.data h]
  rfl

theorem intercalate_go_eq (d : String) :
    ∀ (as : List String) (acc : String), String.intercalate.go acc d as = pyJoinD d (acc :: as)
  | [], acc => rfl
  | x :: xs, acc => by
      have ih := intercalate_go_eq d xs (acc ++ d ++ x)
      rw [String.intercalate.go, ih]
      cases xs with
      | nil => rfl
      | cons y ys => simp [pyJoinD, String.append_assoc]

theorem pyJoinD_eq_intercalate (d : String) : ∀ l, pyJoinD d l = String.intercalate d l
  | [] => rfl
  | a :: as => by rw [String.intercalate, intercalate_go_eq d as a]

theorem contains_true_iff {α : Type _} [BEq α] [LawfulBEq α] (l : List α) (a : α) :
    l.contains a = true ↔ a ∈ l := List.elem_iff

theorem pySplitSlashCh_append {l : List Char} (h : '/' ∉ l) (t : List Char) :
    pySplitSlashCh (l ++ '/' :: t) = l :: pySplitSlashCh t := by
  induction l with
  | nil => simp [pySplitSlashCh]
  | cons c cs ih =>
      have hc : ¬c = '/' := fun hc => h (hc ▸ List.mem_cons_self c cs)
      have ih' := ih (fun hm => h (List.mem_cons_of_mem c hm))
      show (if c = '/' then [] :: pySplitSlashCh (cs ++ '/' :: t)
        else match pySplitSlashCh (cs ++ '/' :: t) with
          | t :: ts => (c :: t) :: ts
          | [] => [[c]]) = (c :: cs) :: pySplitSlashCh t
      rw [if_neg hc, ih']

theorem pySplitSlash_join : ∀ p : List String, p ≠ [] → (∀ s ∈ p, noSlashStr s = true) →
    pySplitSlash (stringBuilderGet "/" p) = p
  | [], h, _ => absurd rfl h
  | [s], _, hs => by
      have : '/' ∉ s.data := by
        have := hs s (List.mem_singleton_self s)
        simpa [noSlashStr, contains_true_iff] using this
      exact pySplitSlash_no_slash s this
  | s :: s2 :: rest, _, hs => by
      have hns : '/' ∉ s.data := by
        have := hs s (List.mem_cons_self s (s2 :: rest))
        simpa [noSlashStr, contains_true_iff] using this
      have ih : (pySplitSlashCh (pyJoinD "/" (s2 :: rest)).data).map String.mk
          = s2 :: rest :=
        pySplitSlash_join (s2 :: rest) (by simp)
          (fun x hx => hs x (List.mem_cons_of_mem s hx))
      have hdata : (pyJoinD "/" (s :: s2 :: rest)).data =
          s.data ++ '/' :: (pyJoinD "/" (s2 :: rest)).data := by
        show (s ++ "/" ++ pyJoinD "/" (s2 :: rest)).data = _
        simp [String.data_append]
      show (pySplitSlashCh (pyJoinD "/" (s :: s2 :: rest)).data).map String.mk
        = s :: s2 :: rest
      rw [hdata, pySplitSlashCh_append hns, List.map_cons, ih]

/-! ### Dict operation lemmas -/

theorem objLookup_objInsert_self (k : String) (v : Json) :
    ∀ fs, objLookup k (objInsert k v fs) = some v
  | [] => by simp [objInsert, objLookup]
  | (k', v') :: rest => by
      by_cases h : k' = k
      · simp [objInsert, objLookup, h]
      · simp [objInsert, objLookup, h, objLookup_objInsert_self k v rest]

theorem objLookup_objInsert_ne (k k' : String) (v : Json) (h : k' ≠ k) :
    ∀ fs, objLookup k' (objInsert k v fs) = objLookup k' fs
  | [] => by simp [objInsert, objLookup, Ne.symm h]
  | (k0, v0) :: rest => by
      by_cases h0 : k0 = k
      · subst h0
        simp [objInsert, objLookup, Ne.symm h]
      · by_cases h1 : k0 = k'
        · simp [objInsert, objLookup, h0, h1, h]
        · simp [objInsert, objLookup, h0, h1, objLookup_objInsert_ne k k' v h rest]

theorem objKeys_objInsert_of_mem (k : String) (v : Json) :
    ∀ fs w, objLookup k fs = some w → (objInsert k v fs).map Prod.fst = fs.map Prod.fst
  | [], w, h => by simp [objLookup] at h
  | (k', v') :: rest, w, h => by
      by_cases hk : k' = k
      · simp [objInsert, hk]
      · have h' : objLookup k rest = some w := by
          by_cases hk' : k' = k
          · exact absurd hk' hk
          · unfold objLookup at h
            rwa [if_neg (fun hh => hk (hh : k' = k))] at h
        simp [objInsert, hk, objKeys_objInsert_of_mem k v rest w h']

theorem objInsert_fresh (k : String) (v : Json) :
    ∀ fs, k ∉ fs.map Prod.fst → objInsert k v fs = fs ++ [(k, v)]
  | [], _ => rfl
  | (k', v') :: rest, h => by
      have hk : ¬k' = k := by
        intro hk
        exact h (by simp [hk])
      have hr : k ∉ rest.map Prod.fst := by
        intro hc
        exact h (by simp [hc])
      simp [objInsert, hk, objInsert_fresh k v rest hr]

theorem objInsert_objInsert_same (k : String) (x y : Json) :
    ∀ fs, objInsert k y (objInsert k x fs) = objInsert k y fs
  | [] => by simp [objInsert]
  | (k', v') :: rest => by
      by_cases h : k' = k
      · simp [objInsert, h]
      · simp [objInsert, h, objInsert_objInsert_same k x y rest]

theorem objLookup_append_of_not_mem_left (k : String) :
    ∀ (done fs : List (String × Json)), k ∉ done.map Prod.fst →
      objLookup k (done ++ fs) = objLookup k fs
  | [], fs, _ => rfl
  | (k', v') :: rest, fs, h => by
      have hk : ¬k' = k := by
        intro hk
        exact h (by simp [hk])
      have hr : k ∉ rest.map Prod.fst := by
        intro hc
        exact h (by simp [hc])
      simp [objLookup, hk, objLookup_append_of_not_mem_left k rest fs hr]

theorem objInsert_append_first (k : String) (v : Json)
    (done : List (String × Json)) (hk : k ∉ done.map Prod.fst)
    (w : Json) (rest : List (String × Json)) :
    objInsert k v (done ++ (k, w) :: rest) = done ++ (k, v) :: rest := by
  induction done with
  | nil => simp [objInsert]
  | cons e tail ih =>
      obtain ⟨k', v'⟩ := e
      have hk' : ¬k' = k := by
        intro hh
        exact hk (by simp [hh])
      have ht : k ∉ tail.map Prod.fst := by
        intro hc
        exact hk (by simp [hc])
      simp only [List.cons_append, objInsert, hk', if_false]
      exact congrArg (List.cons (k', v')) (ih ht)

/-! ### Path lemmas -/

theorem pathLookup_obj_cons (fs : List (String × Json)) (k : String) (ks : List String) :
    pathLookup (.obj fs) (k :: ks) =
      match objLookup k fs with
      | some v => pathLookup v ks
      | none => none := rfl

theorem setAt_obj_cons (fs : List (String × Json)) (k : String) (ks : List String) (x : Json) :
    setAt (.obj fs) (k :: ks) x =
      match objLookup k fs with
      | some v =>
          match setAt v ks x with
          | some v' => some (.obj (objInsert k v' fs))
          | none => none
      | none => none := rfl

theorem pathLookup_append : ∀ (p q : List String) (root : Json),
    pathLookup root (p ++ q) = (pathLookup root p).bind (fun j => pathLookup j q)
  | [], q, root => by simp [pathLookup]
  | k :: p', q, root => by
      cases root with
      | obj fs =>
          show pathLookup (.obj fs) (k :: (p' ++ q)) = _
          rw [pathLookup_obj_cons, pathLookup_obj_cons]
          cases objLookup k fs with
          | none => rfl
          | some v => exact pathLookup_append p' q v
      | null => rfl
      | bool b => rfl
      | num n => rfl
      | str s => rfl
      | arr xs => rfl

theorem pathLookup_nil (j : Json) : pathLookup j [] = some j := by cases j <;> rfl

theorem setAt_nil (j x : Json) : setAt j [] x = some x := by cases j <;> rfl

theorem setAt_obj_found {k : String} {fs : List (String × Json)} {u : Json}
    (h : objLookup k fs = some u) (ks : List String) (x : Json) :
    setAt (.obj fs) (k :: ks) x =
      match setAt u ks x with
      | some v' => some (.obj (objInsert k v' fs))
      | none => none := by
  rw [setAt_obj_cons, h]

theorem updateValueGo_eq_setAt : ∀ (ks : List String) (root w v : Json),
    pathLookup root ks = some w → ks ≠ [] → updateValueGo ks v root = setAt root ks v
  | [], _, _, _, _, h => absurd rfl h
  | [k], root, w, v, hp, _ => by
      cases root with
      | obj fs =>
          rw [pathLookup_obj_cons] at hp
          cases h : objLookup k fs with
          | none => rw [h] at hp; exact Option.noConfusion hp
          | some u =>
              rw [setAt_obj_found h [] v, setAt_nil]
              rfl
      | null => exact Option.noConfusion hp
      | bool b => exact Option.noConfusion hp
      | num n => exact Option.noConfusion hp
      | str s => exact Option.noConfusion hp
      | arr xs => exact Option.noConfusion hp
  | k :: k2 :: rest, root, w, v, hp, _ => by
      cases root with
      | obj fs =>
          rw [pathLookup_obj_cons] at hp
          cases h : objLookup k fs with
          | none => rw [h] at hp; exact Option.noConfusion hp
          | some u =>
              rw [h] at hp
              dsimp only at hp
              have ih := updateValueGo_eq_setAt (k2 :: rest) u w v hp (by simp)
              rw [setAt_obj_found h (k2 :: rest) v]
              show (match objLookup k fs with
                | none => some (Json.obj fs)
                | some w =>
                    match updateValueGo (k2 :: rest) v w with
                    | some w' => some (Json.obj (objInsert k w' fs))
                    | none => none) = _
              rw [h]
              dsimp only
              rw [ih]
      | null => exact Option.noConfusion hp
      | bool b => exact Option.noConfusion hp
      | num n => exact Option.noConfusion hp
      | str s => exact Option.noConfusion hp
      | arr xs => exact Option.noConfusion hp

theorem setAt_isSome : ∀ (ks : List String) (root w x : Json),
    pathLookup root ks = some w → ∃ r', setAt root ks x = some r'
  | [], root, w, x, _ => ⟨x, setAt_nil root x⟩
  | k :: ks', root, w, x, hp => by
      cases root with
      | obj fs =>
          rw [pathLookup_obj_cons] at hp
          cases h : objLookup k fs with
          | none => rw [h] at hp; exact Option.noConfusion hp
          | some u =>
              rw [h] at hp
              dsimp only at hp
              obtain ⟨r', hr⟩ := setAt_isSome ks' u w x hp
              refine ⟨.obj (objInsert k r' fs), ?_⟩
              rw [setAt_obj_found h ks' x, hr]
      | null => exact Option.noConfusion hp
      | bool b => exact Option.noConfusion hp
      | num n => exact Option.noConfusion hp
      | str s => exact Option.noConfusion hp
      | arr xs => exact Option.noConfusion hp

theorem pathLookup_setAt_self : ∀ (p : List String) (root x root' : Json),
    setAt root p x = some root' → pathLookup root' p = some x
  | [], root, x, root', h => by
      rw [setAt_nil] at h
      cases h
      exact pathLookup_nil x
  | k :: ks, root, x, root', h => by
      cases root with
      | obj fs =>
          cases hl : objLookup k fs with
          | none => rw [setAt_obj_cons, hl] at h; exact Option.noConfusion h
          | some v =>
              rw [setAt_obj_found hl ks x] at h
              cases hs : setAt v ks x with
              | none => rw [hs] at h; exact Option.noConfusion h
              | some v' =>
                  rw [hs] at h
                  dsimp only at h
                  cases h
                  have ih := pathLookup_setAt_self ks v x v' hs
                  rw [pathLookup_obj_cons, objLookup_objInsert_self]
                  exact ih
      | null => rw [show setAt Json.null (k :: ks) x = none from rfl] at h
                exact Option.noConfusion h
      | bool b => rw [show setAt (Json.bool b) (k :: ks) x = none from rfl] at h
                  exact Option.noConfusion h
      | num n => rw [show setAt (Json.num n) (k :: ks) x = none from rfl] at h
                 exact Option.noConfusion h
      | str s => rw [show setAt (Json.str s) (k :: ks) x = none from rfl] at h
                 exact Option.noConfusion h
      | arr xs => rw [show setAt (Json.arr xs) (k :: ks) x = none from rfl] at h
                  exact Option.noConfusion h

theorem setAt_setAt : ∀ (p : List String) (root x r1 y : Json),
    setAt root p x = some r1 → setAt r1 p y = setAt root p y
  | [], root, x, r1, y, h => by rw [setAt_nil, setAt_nil]
  | k :: ks, root, x, r1, y, h => by
      cases root with
      | obj fs =>
          cases hl : objLookup k fs with
          | none => rw [setAt_obj_cons, hl] at h; exact Option.noConfusion h
          | some v =>
              rw [setAt_obj_found hl ks x] at h
              cases hs : setAt v ks x with
              | none => rw [hs] at h; exact Option.noConfusion h
              | some v' =>
                  rw [hs] at h
                  dsimp only at h
                  cases h
                  have ih := setAt_setAt ks v x v' y hs
                  rw [setAt_obj_found (objLookup_objInsert_self k v' fs) ks y,
                    setAt_obj_found hl ks y, ih]
                  cases setAt v ks y with
                  | none => rfl
                  | some u => dsimp only; rw [objInsert_objInsert_same]
      | null => exact Option.noConfusion h
      | bool b => exact Option.noConfusion h
      | num n => exact Option.noConfusion h
      | str s => exact Option.noConfusion h
      | arr xs => exact Option.noConfusion h

theorem setAt_inside_obj : ∀ (p : List String) (root : Json) (fs : List (String × Json))
    (k : String) (v x : Json), pathLookup root p = some (.obj fs) → objLookup k fs = some v →
    setAt root (p ++ [k]) x = setAt root p (.obj (objInsert k x fs))
  | [], root, fs, k, v, x, hp, hl => by
      rw [pathLookup_nil] at hp
      cases hp
      rw [setAt_nil]
      simp only [List.nil_append]
      rw [setAt_obj_found hl [] x, setAt_nil]
  | k0 :: p', root, fs, k, v, x, hp, hl => by
      cases root with
      | obj fs0 =>
          rw [pathLookup_obj_cons] at hp
          cases h0 : objLookup k0 fs0 with
          | none => rw [h0] at hp; exact Option.noConfusion hp
          | some u =>
              rw [h0] at hp
              dsimp only at hp
              have ih := setAt_inside_obj p' u fs k v x hp hl
              show setAt (.obj fs0) (k0 :: (p' ++ [k])) x = _
              rw [setAt_obj_found h0 (p' ++ [k]) x, setAt_obj_found h0 p' (.obj (objInsert k x fs)), ih]
      | null => exact Option.noConfusion hp
      | bool b => exact Option.noConfusion hp
      | num n => exact Option.noConfusion hp
      | str s => exact Option.noConfusion hp
      | arr xs => exact Option.noConfusion hp

/-! ### Well-formedness lemmas -/

theorem objLookup_cons_self (k : String) (v : Json) (rest : List (String × Json)) :
    objLookup k ((k, v) :: rest) = some v := by simp [objLookup]

theorem objInsert_self_of_lookup (k : String) (v : Json) :
    ∀ fs, objLookup k fs = some v → objInsert k v fs = fs
  | [], h => by simp [objLookup] at h
  | (k', v') :: rest, h => by
      by_cases hk : k' = k
      · subst hk
        rw [objLookup_cons_self] at h
        cases h
        simp [objInsert]
      · have h' : objLookup k rest = some v := by
          unfold objLookup at h
          rwa [if_neg hk] at h
        simp [objInsert, hk, objInsert_self_of_lookup k v rest h']

theorem setAt_self : ∀ (p : List String) (root j : Json),
    pathLookup root p = some j → setAt root p j = some root
  | [], root, j, h => by
      rw [pathLookup_nil] at h
      cases h
      exact setAt_nil root root
  | k :: ks, root, j, h => by
      cases root with
      | obj fs =>
          rw [pathLookup_obj_cons] at h
          cases hl : objLookup k fs with
          | none => rw [hl] at h; exact Option.noConfusion h
          | some v =>
              rw [hl] at h
              dsimp only at h
              rw [setAt_obj_found hl ks j, setAt_self ks v j h]
              dsimp only
              rw [objInsert_self_of_lookup k v fs hl]
      | null => exact Option.noConfusion h
      | bool b => exact Option.noConfusion h
      | num n => exact Option.noConfusion h
      | str s => exact Option.noConfusion h
      | arr xs => exact Option.noConfusion h

theorem nodupKeysB_iff : ∀ l : List String, nodupKeysB l = true ↔ l.Nodup
  | [] => by simp [nodupKeysB]
  | k :: ks => by
      simp [nodupKeysB, contains_true_iff, nodupKeysB_iff ks, List.nodup_cons]

theorem wfB_obj (fs : List (String × Json)) :
    wfB (.obj fs) = (wfFieldsB fs && nodupKeysB (fs.map Prod.fst)) := rfl

theorem wfFieldsB_cons (k : String) (v : Json) (fs : List (String × Json)) :
    wfFieldsB ((k, v) :: fs) = (noSlashStr k && wfB v && wfFieldsB fs) := rfl

theorem wfFieldsB_lookup {k : String} {v : Json} :
    ∀ fs, wfFieldsB fs = true → objLookup k fs = some v →
      noSlashStr k = true ∧ wfB v = true
  | [], _, h => by simp [objLookup] at h
  | (k', v') :: rest, hwf, h => by
      rw [wfFieldsB_cons, Bool.and_eq_true, Bool.and_eq_true] at hwf
      by_cases hk : k' = k
      · subst hk
        rw [objLookup_cons_self] at h
        cases h
        exact ⟨hwf.1.1, hwf.1.2⟩
      · have h' : objLookup k rest = some v := by
          unfold objLookup at h
          rwa [if_neg hk] at h
        exact wfFieldsB_lookup rest hwf.2 h'

theorem wfB_pathLookup : ∀ (p : List String) (root j : Json),
    wfB root = true → pathLookup root p = some j → wfB j = true
  | [], root, j, hwf, h => by
      rw [pathLookup_nil] at h
      cases h
      exact hwf
  | k :: ks, root, j, hwf, h => by
      cases root with
      | obj fs =>
          rw [pathLookup_obj_cons] at h
          cases hl : objLookup k fs with
          | none => rw [hl] at h; exact Option.noConfusion h
          | some v =>
              rw [hl] at h
              dsimp only at h
              rw [wfB_obj, Bool.and_eq_true] at hwf
              exact wfB_pathLookup ks v j (wfFieldsB_lookup fs hwf.1 hl).2 h
      | null => exact Option.noConfusion h
      | bool b => exact Option.noConfusion h
      | num n => exact Option.noConfusion h
      | str s => exact Option.noConfusion h
      | arr xs => exact Option.noConfusion h

theorem path_segments_noSlash : ∀ (p : List String) (root j : Json),
    wfB root = true → pathLookup root p = some j → ∀ s ∈ p, noSlashStr s = true
  | [], _, _, _, _, s, hs => absurd hs (List.not_mem_nil s)
  | k :: ks, root, j, hwf, h, s, hs => by
      cases root with
      | obj fs =>
          rw [pathLookup_obj_cons] at h
          cases hl : objLookup k fs with
          | none => rw [hl] at h; exact Option.noConfusion h
          | some v =>
              rw [hl] at h
              dsimp only at h
              rw [wfB_obj, Bool.and_eq_true] at hwf
              rcases List.mem_cons.mp hs with hs | hs
              · subst hs
                exact (wfFieldsB_lookup fs hwf.1 hl).1
              · exact path_segments_noSlash ks v j
                  (wfFieldsB_lookup fs hwf.1 hl).2 h s hs
      | null => exact Option.noConfusion h
      | bool b => exact Option.noConfusion h
      | num n => exact Option.noConfusion h
      | str s' => exact Option.noConfusion h
      | arr xs => exact Option.noConfusion h

theorem wfFieldsB_objInsert {k : String} {v' : Json} :
    ∀ fs w, wfFieldsB fs = true → objLookup k fs = some w → wfB v' = true →
      wfFieldsB (objInsert k v' fs) = true
  | [], w, _, h, _ => by simp [objLookup] at h
  | (k0, v0) :: rest, w, hwf, h, hv => by
      rw [wfFieldsB_cons, Bool.and_eq_true, Bool.and_eq_true] at hwf
      by_cases hk : k0 = k
      · subst hk
        show wfFieldsB ((if k0 = k0 then (k0, v') :: rest else _)) = true
        rw [if_pos rfl, wfFieldsB_cons]
        simp [hwf.1.1, hv, hwf.2]
      · have h' : objLookup k rest = some w := by
          unfold objLookup at h
          rwa [if_neg hk] at h
        show wfFieldsB ((if k0 = k then _ else (k0, v0) :: objInsert k v' rest)) = true
        rw [if_neg hk, wfFieldsB_cons]
        simp [hwf.1.1, hwf.1.2, wfFieldsB_objInsert rest w hwf.2 h' hv]

theorem wfB_setAt : ∀ (p : List String) (root x root' : Json),
    wfB root = true → wfB x = true → setAt root p x = some root' → wfB root' = true
  | [], root, x, root', _, hx, h => by
      rw [setAt_nil] at h
      cases h
      exact hx
  | k :: ks, root, x, root', hwf, hx, h => by
      cases root with
      | obj fs =>
          cases hl : objLookup k fs with
          | none => rw [setAt_obj_cons, hl] at h; exact Option.noConfusion h
          | some v =>
              rw [setAt_obj_found hl ks x] at h
              cases hs : setAt v ks x with
              | none => rw [hs] at h; exact Option.noConfusion h
              | some v' =>
                  rw [hs] at h
                  dsimp only at h
                  cases h
                  rw [wfB_obj, Bool.and_eq_true] at hwf
                  have hv := (wfFieldsB_lookup fs hwf.1 hl).2
                  have hv' := wfB_setAt ks v x v' hv hx hs
                  rw [wfB_obj, Bool.and_eq_true]
                  refine ⟨wfFieldsB_objInsert fs v hwf.1 hl hv', ?_⟩
                  rw [objKeys_objInsert_of_mem k v' fs v hl]
                  exact hwf.2
      | null => exact Option.noConfusion h
      | bool b => exact Option.noConfusion h
      | num n => exact Option.noConfusion h
      | str s => exact Option.noConfusion h
      | arr xs => exact Option.noConfusion h

/-! ### Unfolding equations for the traversal and its pure description -/

theorem idx_obj (nt : String → Nat) (mt : Nat) (ph : String) (p : List String)
    (fs : List (String × Json)) :
    idx nt mt ph p (.obj fs) =
      (.obj (idxFields nt mt ph p fs).1, (idxFields nt mt ph p fs).2) := rfl

theorem idx_arr (nt : String → Nat) (mt : Nat) (ph : String) (p : List String)
    (xs : List Json) :
    idx nt mt ph p (.arr xs) =
      if mt < nt (toJsonString none (.arr xs)) then
        (.str ph, [(stringBuilderGet "/" p, .arr xs)])
      else (.arr xs, []) := rfl

theorem idxFields_nil (nt : String → Nat) (mt : Nat) (ph : String) (p : List String) :
    idxFields nt mt ph p [] = ([], []) := rfl

theorem idxFields_cons (nt : String → Nat) (mt : Nat) (ph : String) (p : List String)
    (k : String) (v : Json) (rest : List (String × Json)) :
    idxFields nt mt ph p ((k, v) :: rest) =
      ((k, (idx nt mt ph (p ++ [k]) v).1) :: (idxFields nt mt ph p rest).1,
        (idx nt mt ph (p ++ [k]) v).2 ++ (idxFields nt mt ph p rest).2) := rfl

theorem jsonTraverse_obj (nt : String → Nat) (mt : Nat) (ph : String) (p : List String)
    (fs : List (String × Json)) (root : Json) (m : List (String × Json)) :
    jsonTraverse nt mt ph p (.obj fs) root m =
      jsonTraverseFields nt mt ph p fs root m := rfl

theorem jsonTraverse_arr (nt : String → Nat) (mt : Nat) (ph : String) (p : List String)
    (xs : List Json) (root : Json) (m : List (String × Json)) :
    jsonTraverse nt mt ph p (.arr xs) root m =
      if mt < nt (toJsonString none (.arr xs)) then
        match updateValue (stringBuilderGet "/" p) (.str ph) root with
        | some root' => some (root', objInsert (stringBuilderGet "/" p) (.arr xs) m)
        | none => none
      else some (root, m) := rfl

theorem jsonTraverseFields_nil (nt : String → Nat) (mt : Nat) (ph : String)
    (p : List String) (root : Json) (m : List (String × Json)) :
    jsonTraverseFields nt mt ph p [] root m = some (root, m) := rfl

theorem jsonTraverseFields_cons (nt : String → Nat) (mt : Nat) (ph : String)
    (p : List String) (k : String) (v : Json) (rest : List (String × Json))
    (root : Json) (m : List (String × Json)) :
    jsonTraverseFields nt mt ph p ((k, v) :: rest) root m =
      match jsonTraverse nt mt ph (p ++ [k]) v root m with
      | some (r1, m1) => jsonTraverseFields nt mt ph p rest r1 m1
      | none => none := rfl

theorem insertAll_nil (m : List (String × Json)) : insertAll m [] = m := rfl

theorem insertAll_single (m : List (String × Json)) (e : String × Json) :
    insertAll m [e] = objInsert e.1 e.2 m := rfl

theorem insertAll_append (m : List (String × Json)) (a b : List (String × Json)) :
    insertAll m (a ++ b) = insertAll (insertAll m a) b := List.foldl_append _ _ _ _

/-! ### Well-formedness is preserved by the pure indexing pass -/

mutual

theorem idx_wf (nt : String → Nat) (mt : Nat) (ph : String) :
    ∀ (j : Json) (p : List String), wfB j = true → wfB (idx nt mt ph p j).1 = true
  | .obj fs, p => fun h => by
      rw [wfB_obj, Bool.and_eq_true] at h
      rw [idx_obj]
      show wfB (.obj (idxFields nt mt ph p fs).1) = true
      rw [wfB_obj, Bool.and_eq_true]
      obtain ⟨hf, hkeys⟩ := idxFields_wf nt mt ph fs p h.1
      exact ⟨hf, by rw [hkeys]; exact h.2⟩
  | .arr xs, p => fun h => by
      rw [idx_arr]
      by_cases hb : mt < nt (toJsonString none (.arr xs))
      · rw [if_pos hb]
        rfl
      · rw [if_neg hb]
        exact h
  | .null, _ => fun h => h
  | .bool b, _ => fun h => h
  | .num n, _ => fun h => h
  | .str s, _ => fun h => h

theorem idxFields_wf (nt : String → Nat) (mt : Nat) (ph : String) :
    ∀ (fs : List (String × Json)) (p : List String), wfFieldsB fs = true →
      wfFieldsB (idxFields nt mt ph p fs).1 = true ∧
        (idxFields nt mt ph p fs).1.map Prod.fst = fs.map Prod.fst
  | [], _ => fun _ => ⟨rfl, rfl⟩
  | (k, v) :: rest, p => fun h => by
      rw [wfFieldsB_cons, Bool.and_eq_true, Bool.and_eq_true] at h
      rw [idxFields_cons]
      obtain ⟨hf, hkeys⟩ := idxFields_wf nt mt ph rest p h.2
      constructor
      · show wfFieldsB ((k, (idx nt mt ph (p ++ [k]) v).1) :: (idxFields nt mt ph p rest).1) = true
        rw [wfFieldsB_cons]
        simp [h.1.1, idx_wf nt mt ph v (p ++ [k]) h.1.2, hf]
      · show ((k, (idx nt mt ph (p ++ [k]) v).1) :: (idxFields nt mt ph p rest).1).map Prod.fst
          = ((k, v) :: rest).map Prod.fst
        simp [hkeys]

end

/-! ### The bridge: `json_traverse` realizes the pure indexing pass

On a well-formed root, `json_traverse` visiting the subtree at path `p`
succeeds, mutates the root exactly by replacing that subtree with its pure
rewrite, and extends the extraction map with exactly the pure entries. -/

mutual

theorem bridge_val (nt : String → Nat) (mt : Nat) (ph : String) :
    ∀ (j : Json) (p : List String) (root : Json) (m : List (String × Json)),
      wfB root = true → pathLookup root p = some j → (p = [] → ∃ fs, j = .obj fs) →
      ∃ root', setAt root p (idx nt mt ph p j).1 = some root' ∧
        jsonTraverse nt mt ph p j root m = some (root', insertAll m (idx nt mt ph p j).2)
  | .obj fs, p, root, m => fun hwf hp _ => by
      obtain ⟨root', h1, h2⟩ := bridge_fields nt mt ph fs p root m [] hwf (by simpa using hp)
      rw [idx_obj, jsonTraverse_obj]
      exact ⟨root', by simpa using h1, h2⟩
  | .arr xs, p, root, m => fun hwf hp hptop => by
      have hpne : p ≠ [] := by
        intro he
        subst he
        obtain ⟨fs, hfs⟩ := hptop rfl
        exact Json.noConfusion hfs
      rw [jsonTraverse_arr, idx_arr]
      by_cases hb : mt < nt (toJsonString none (.arr xs))
      · rw [if_pos hb, if_pos hb]
        have hsegs := path_segments_noSlash p root _ hwf hp
        have huv : updateValue (stringBuilderGet "/" p) (.str ph) root
            = setAt root p (.str ph) := by
          unfold updateValue
          rw [pySplitSlash_join p hpne hsegs]
          exact updateValueGo_eq_setAt p root _ (.str ph) hp hpne
        obtain ⟨root', hr⟩ := setAt_isSome p root _ (.str ph) hp
        refine ⟨root', hr, ?_⟩
        rw [huv, hr]
        rfl
      · rw [if_neg hb, if_neg hb]
        exact ⟨root, setAt_self p root _ hp, rfl⟩
  | .null, p, root, m => fun hwf hp _ =>
      ⟨root, setAt_self p root _ hp, rfl⟩
  | .bool b, p, root, m => fun hwf hp _ =>
      ⟨root, setAt_self p root _ hp, rfl⟩
  | .num n, p, root, m => fun hwf hp _ =>
      ⟨root, setAt_self p root _ hp, rfl⟩
  | .str s, p, root, m => fun hwf hp _ =>
      ⟨root, setAt_self p root _ hp, rfl⟩

theorem bridge_fields (nt : String → Nat) (mt : Nat) (ph : String) :
    ∀ (fs : List (String × Json)) (p : List String) (root : Json)
      (m done : List (String × Json)),
      wfB root = true →
      pathLookup root p = some (.obj (done ++ fs)) →
      ∃ root', setAt root p (.obj (done ++ (idxFields nt mt ph p fs).1)) = some root' ∧
        jsonTraverseFields nt mt ph p fs root m =
          some (root', insertAll m (idxFields nt mt ph p fs).2)
  | [], p, root, m, done => fun hwf hp => by
      rw [List.append_nil] at hp
      refine ⟨root, ?_, ?_⟩
      · rw [idxFields_nil]
        show setAt root p (.obj (done ++ [])) = some root
        rw [List.append_nil]
        exact setAt_self p root _ hp
      · rw [idxFields_nil, jsonTraverseFields_nil]
        rfl
  | (k, v) :: rest, p, root, m, done => fun hwf hp => by
      have hsub : wfB (.obj (done ++ (k, v) :: rest)) = true := wfB_pathLookup p root _ hwf hp
      rw [wfB_obj, Bool.and_eq_true] at hsub
      have hnodup : ((done ++ (k, v) :: rest).map Prod.fst).Nodup := (nodupKeysB_iff _).mp hsub.2
      have hkdone : k ∉ done.map Prod.fst := by
        rw [List.map_append, List.map_cons, List.nodup_append] at hnodup
        intro hmem
        exact hnodup.2.2 hmem (List.mem_cons_self k _)
      have hlook : objLookup k (done ++ (k, v) :: rest) = some v := by
        rw [objLookup_append_of_not_mem_left k done _ hkdone, objLookup_cons_self]
      have hv : wfB v = true := (wfFieldsB_lookup _ hsub.1 hlook).2
      have hpv : pathLookup root (p ++ [k]) = some v := by
        rw [pathLookup_append, hp]
        show pathLookup (.obj (done ++ (k, v) :: rest)) [k] = some v
        rw [pathLookup_obj_cons, hlook]
        exact pathLookup_nil v
      obtain ⟨root1, hset1, htrav1⟩ :=
        bridge_val nt mt ph v (p ++ [k]) root m hwf hpv (by simp)
      have hset1' : setAt root p
          (.obj (done ++ (k, (idx nt mt ph (p ++ [k]) v).1) :: rest)) = some root1 := by
        rw [← objInsert_append_first k (idx nt mt ph (p ++ [k]) v).1 done hkdone v rest,
          ← setAt_inside_obj p root _ k v (idx nt mt ph (p ++ [k]) v).1 hp hlook]
        exact hset1
      have hwf1 : wfB root1 = true :=
        wfB_setAt (p ++ [k]) root _ root1 hwf (idx_wf nt mt ph v (p ++ [k]) hv) hset1
      have hp1 : pathLookup root1 p =
          some (.obj ((done ++ [(k, (idx nt mt ph (p ++ [k]) v).1)]) ++ rest)) := by
        have := pathLookup_setAt_self p root _ root1 hset1'
        rw [this]
        simp
      obtain ⟨root2, hset2, htrav2⟩ :=
        bridge_fields nt mt ph rest p root1 (insertAll m (idx nt mt ph (p ++ [k]) v).2)
          (done ++ [(k, (idx nt mt ph (p ++ [k]) v).1)]) hwf1 hp1
      refine ⟨root2, ?_, ?_⟩
      · rw [idxFields_cons]
        show setAt root p (.obj (done ++
          (k, (idx nt mt ph (p ++ [k]) v).1) :: (idxFields nt mt ph p rest).1)) = some root2
        rw [← setAt_setAt p root _ root1 _ hset1']
        rw [show done ++ (k, (idx nt mt ph (p ++ [k]) v).1) :: (idxFields nt mt ph p rest).1
          = (done ++ [(k, (idx nt mt ph (p ++ [k]) v).1)]) ++ (idxFields nt mt ph p rest).1
          by simp]
        exact hset2
      · rw [jsonTraverseFields_cons, htrav1]
        dsimp only
        rw [htrav2, idxFields_cons]
        show some (root2, _) = some (root2, insertAll m
          ((idx nt mt ph (p ++ [k]) v).2 ++ (idxFields nt mt ph p rest).2))
        rw [insertAll_append]

end

/-! ### Characterization of the pure indexing pass -/

theorem idxFields_lookup (nt : String → Nat) (mt : Nat) (ph : String) :
    ∀ (fs : List (String × Json)) (k : String) (v : Json) (p : List String),
      objLookup k fs = some v →
      objLookup k (idxFields nt mt ph p fs).1 = some (idx nt mt ph (p ++ [k]) v).1
  | [], k, v, p, h => by simp [objLookup] at h
  | (k0, v0) :: rest, k, v, p, h => by
      rw [idxFields_cons]
      by_cases hk : k0 = k
      · subst hk
        rw [objLookup_cons_self] at h
        cases h
        exact objLookup_cons_self k0 _ _
      · have h' : objLookup k rest = some v := by
          unfold objLookup at h
          rwa [if_neg hk] at h
        show objLookup k ((k0, _) :: (idxFields nt mt ph p rest).1) = _
        unfold objLookup
        rw [if_neg hk]
        exact idxFields_lookup nt mt ph rest k v p h'

theorem idxFields_entry_sub (nt : String → Nat) (mt : Nat) (ph : String) :
    ∀ (fs : List (String × Json)) (k : String) (v : Json) (p : List String)
      (e : String × Json), objLookup k fs = some v →
      e ∈ (idx nt mt ph (p ++ [k]) v).2 → e ∈ (idxFields nt mt ph p fs).2
  | [], k, v, p, e, h, _ => by simp [objLookup] at h
  | (k0, v0) :: rest, k, v, p, e, h, he => by
      rw [idxFields_cons]
      by_cases hk : k0 = k
      · subst hk
        rw [objLookup_cons_self] at h
        cases h
        exact List.mem_append_left _ he
      · have h' : objLookup k rest = some v := by
          unfold objLookup at h
          rwa [if_neg hk] at h
        exact List.mem_append_right _ (idxFields_entry_sub nt mt ph rest k v p e h' he)

theorem objLookup_mem_keys {k : String} {v : Json} :
    ∀ {fs : List (String × Json)}, objLookup k fs = some v → k ∈ fs.map Prod.fst
  | [], h => by simp [objLookup] at h
  | (k0, v0) :: rest, h => by
      by_cases hk : k0 = k
      · subst hk
        exact List.mem_cons_self _ _
      · have h' : objLookup k rest = some v := by
          unfold objLookup at h
          rwa [if_neg hk] at h
        exact List.mem_cons_of_mem _ (objLookup_mem_keys h')

theorem idx_complete (nt : String → Nat) (mt : Nat) (ph : String) :
    ∀ (q : List String) (j : Json) (p : List String) (arr : List Json),
      pathLookup j q = some (.arr arr) → mt < nt (toJsonString none (.arr arr)) →
      pathLookup (idx nt mt ph p j).1 q = some (.str ph) ∧
        (stringBuilderGet "/" (p ++ q), Json.arr arr) ∈ (idx nt mt ph p j).2
  | [], j, p, arr, hq, hb => by
      rw [pathLookup_nil] at hq
      cases hq
      rw [idx_arr, if_pos hb]
      refine ⟨pathLookup_nil _, ?_⟩
      rw [List.append_nil]
      exact List.mem_singleton_self _
  | k :: q', j, p, arr, hq, hb => by
      cases j with
      | obj fs =>
          rw [pathLookup_obj_cons] at hq
          cases hl : objLookup k fs with
          | none => rw [hl] at hq; exact Option.noConfusion hq
          | some v =>
              rw [hl] at hq
              dsimp only at hq
              have ih := idx_complete nt mt ph q' v (p ++ [k]) arr hq hb
              constructor
              · rw [idx_obj]
                show pathLookup (.obj (idxFields nt mt ph p fs).1) (k :: q') = some (.str ph)
                rw [pathLookup_obj_cons, idxFields_lookup nt mt ph fs k v p hl]
                exact ih.1
              · rw [idx_obj]
                have := idxFields_entry_sub nt mt ph fs k v p _ hl ih.2
                show _ ∈ (idxFields nt mt ph p fs).2
                rw [show p ++ k :: q' = (p ++ [k]) ++ q' by simp]
                exact this
      | null => exact Option.noConfusion hq
      | bool b => exact Option.noConfusion hq
      | num n => exact Option.noConfusion hq
      | str s => exact Option.noConfusion hq
      | arr xs => exact Option.noConfusion hq

mutual

theorem idx_sound (nt : String → Nat) (mt : Nat) (ph : String) :
    ∀ (j : Json) (p : List String), wfB j = true →
      ∀ e ∈ (idx nt mt ph p j).2,
        ∃ q arr, e = (stringBuilderGet "/" (p ++ q), Json.arr arr) ∧
          pathLookup j q = some (.arr arr) ∧
          mt < nt (toJsonString none (.arr arr))
  | .obj fs, p => fun hwf e he => by
      rw [wfB_obj, Bool.and_eq_true] at hwf
      rw [idx_obj] at he
      exact idxFields_sound nt mt ph fs p hwf.1 ((nodupKeysB_iff _).mp hwf.2) e he
  | .arr xs, p => fun hwf e he => by
      rw [idx_arr] at he
      by_cases hb : mt < nt (toJsonString none (.arr xs))
      · rw [if_pos hb] at he
        rcases List.mem_singleton.mp he with rfl
        exact ⟨[], xs, by rw [List.append_nil], pathLookup_nil _, hb⟩
      · rw [if_neg hb] at he
        exact absurd he (List.not_mem_nil e)
  | .null, p => fun _ e he => absurd he (List.not_mem_nil e)
  | .bool b, p => fun _ e he => absurd he (List.not_mem_nil e)
  | .num n, p => fun _ e he => absurd he (List.not_mem_nil e)
  | .str s, p => fun _ e he => absurd he (List.not_mem_nil e)

theorem idxFields_sound (nt : String → Nat) (mt : Nat) (ph : String) :
    ∀ (fs : List (String × Json)) (p : List String), wfFieldsB fs = true →
      (fs.map Prod.fst).Nodup →
      ∀ e ∈ (idxFields nt mt ph p fs).2,
        ∃ q arr, e = (stringBuilderGet "/" (p ++ q), Json.arr arr) ∧
          pathLookup (.obj fs) q = some (.arr arr) ∧
          mt < nt (toJsonString none (.arr arr))
  | [], p => fun _ _ e he => absurd he (List.not_mem_nil e)
  | (k0, v0) :: rest, p => fun hwf hnd e he => by
      rw [wfFieldsB_cons, Bool.and_eq_true, Bool.and_eq_true] at hwf
      rw [idxFields_cons] at he
      rcases List.mem_append.mp he with he | he
      · obtain ⟨q0, arr, heq, hq, hb⟩ := idx_sound nt mt ph v0 (p ++ [k0]) hwf.1.2 e he
        refine ⟨k0 :: q0, arr, ?_, ?_, hb⟩
        · rw [heq, show (p ++ [k0]) ++ q0 = p ++ k0 :: q0 by simp]
        · rw [pathLookup_obj_cons, objLookup_cons_self]
          exact hq
      · rw [List.map_cons, List.nodup_cons] at hnd
        obtain ⟨q, arr, heq, hq, hb⟩ :=
          idxFields_sound nt mt ph rest p hwf.2 hnd.2 e he
        cases q with
        | nil =>
            rw [pathLookup_nil] at hq
            exact Json.noConfusion (Option.some.inj hq)
        | cons k1 q1 =>
            rw [pathLookup_obj_cons] at hq
            cases hl : objLookup k1 rest with
            | none => rw [hl] at hq; exact Option.noConfusion hq
            | some v1 =>
                rw [hl] at hq
                dsimp only at hq
                have hk01 : ¬k0 = k1 := by
                  intro hh
                  subst hh
                  exact hnd.1 (objLookup_mem_keys hl)
                refine ⟨k1 :: q1, arr, heq, ?_, hb⟩
                rw [pathLookup_obj_cons]
                show (match objLookup k1 ((k0, v0) :: rest) with
                  | some v => pathLookup v q1
                  | none => none) = some (.arr arr)
                unfold objLookup
                rw [if_neg hk01, hl]
                exact hq

end

theorem stringBuilderGet_inj (p1 p2 : List String) (h1 : p1 ≠ []) (h2 : p2 ≠ [])
    (hs1 : ∀ s ∈ p1, noSlashStr s = true) (hs2 : ∀ s ∈ p2, noSlashStr s = true)
    (heq : stringBuilderGet "/" p1 = stringBuilderGet "/" p2) : p1 = p2 := by
  have e1 := pySplitSlash_join p1 h1 hs1
  have e2 := pySplitSlash_join p2 h2 hs2
  rw [← e1, ← e2, heq]

mutual

theorem idx_chains_nodup (nt : String → Nat) (mt : Nat) (ph : String) :
    ∀ (j : Json) (p : List String), wfB j = true → (∀ s ∈ p, noSlashStr s = true) →
      ((idx nt mt ph p j).2.map Prod.fst).Nodup
  | .obj fs, p => fun hwf hp => by
      rw [wfB_obj, Bool.and_eq_true] at hwf
      rw [idx_obj]
      exact idxFields_chains_nodup nt mt ph fs p hwf.1 ((nodupKeysB_iff _).mp hwf.2) hp
  | .arr xs, p => fun hwf hp => by
      rw [idx_arr]
      by_cases hb : mt < nt (toJsonString none (.arr xs))
      · rw [if_pos hb]
        simp
      · rw [if_neg hb]
        simp
  | .null, p => fun _ _ => by simp [idx]
  | .bool b, p => fun _ _ => by simp [idx]
  | .num n, p => fun _ _ => by simp [idx]
  | .str s, p => fun _ _ => by simp [idx]

theorem idxFields_chains_nodup (nt : String → Nat) (mt : Nat) (ph : String) :
    ∀ (fs : List (String × Json)) (p : List String), wfFieldsB fs = true →
      (fs.map Prod.fst).Nodup → (∀ s ∈ p, noSlashStr s = true) →
      ((idxFields nt mt ph p fs).2.map Prod.fst).Nodup
  | [], p => fun _ _ _ => by rw [idxFields_nil]; simp
  | (k0, v0) :: rest, p => fun hwf hnd hp => by
      rw [wfFieldsB_cons, Bool.and_eq_true, Bool.and_eq_true] at hwf
      rw [List.map_cons, List.nodup_cons] at hnd
      rw [idxFields_cons]
      show ((((idx nt mt ph (p ++ [k0]) v0).2 ++ (idxFields nt mt ph p rest).2)).map
        Prod.fst).Nodup
      rw [List.map_append, List.nodup_append]
      have hpk0 : ∀ s ∈ p ++ [k0], noSlashStr s = true := by
        intro s hs
        rcases List.mem_append.mp hs with hs | hs
        · exact hp s hs
        · rcases List.mem_singleton.mp hs with rfl
          exact hwf.1.1
      refine ⟨idx_chains_nodup nt mt ph v0 (p ++ [k0]) hwf.1.2 hpk0,
        idxFields_chains_nodup nt mt ph rest p hwf.2 hnd.2 hp, ?_⟩
      intro c hc1 hc2
      obtain ⟨e1, he1, hce1⟩ := List.mem_map.mp hc1
      obtain ⟨e2, he2, hce2⟩ := List.mem_map.mp hc2
      obtain ⟨q0, arr0, heq0, hq0, _⟩ := idx_sound nt mt ph v0 (p ++ [k0]) hwf.1.2 e1 he1
      obtain ⟨q2, arr2, heq2, hq2, _⟩ :=
        idxFields_sound nt mt ph rest p hwf.2 hnd.2 e2 he2
      cases q2 with
      | nil =>
          rw [pathLookup_nil] at hq2
          exact Json.noConfusion (Option.some.inj hq2)
      | cons k1 q1 =>
          rw [pathLookup_obj_cons] at hq2
          cases hl1 : objLookup k1 rest with
          | none => rw [hl1] at hq2; exact Option.noConfusion hq2
          | some v1 =>
              rw [hl1] at hq2
              dsimp only at hq2
              have hchain : stringBuilderGet "/" ((p ++ [k0]) ++ q0)
                  = stringBuilderGet "/" (p ++ k1 :: q1) := by
                have a1 : e1.1 = stringBuilderGet "/" ((p ++ [k0]) ++ q0) := by rw [heq0]
                have a2 : e2.1 = stringBuilderGet "/" (p ++ k1 :: q1) := by rw [heq2]
                rw [← a1, ← a2, hce1, hce2]
              have hsf1 : ∀ s ∈ (p ++ [k0]) ++ q0, noSlashStr s = true := by
                intro s hs
                rcases List.mem_append.mp hs with hs | hs
                · exact hpk0 s hs
                · exact path_segments_noSlash q0 v0 _ hwf.1.2 hq0 s hs
              have hk1wf := wfFieldsB_lookup rest hwf.2 hl1
              have hsf2 : ∀ s ∈ p ++ k1 :: q1, noSlashStr s = true := by
                intro s hs
                rcases List.mem_append.mp hs with hs | hs
                · exact hp s hs
                · rcases List.mem_cons.mp hs with rfl | hs
                  · exact hk1wf.1
                  · exact path_segments_noSlash q1 v1 _ hk1wf.2 hq2 s hs
              have hlist := stringBuilderGet_inj _ _ (by simp) (by simp) hsf1 hsf2 hchain
              rw [List.append_assoc] at hlist
              have hcons : [k0] ++ q0 = k1 :: q1 := List.append_cancel_left hlist
              have hk01 : k0 = k1 := by
                have := congrArg (fun l => l.head?) hcons
                simpa using this
              subst hk01
              exact hnd.1 (objLookup_mem_keys hl1)

end

theorem insertAll_fresh_append :
    ∀ (E m : List (String × Json)), (∀ c ∈ E.map Prod.fst, c ∉ m.map Prod.fst) →
      (E.map Prod.fst).Nodup → insertAll m E = m ++ E
  | [], m, _, _ => by rw [insertAll_nil, List.append_nil]
  | (c, e) :: rest, m, hf, hnd => by
      rw [List.map_cons, List.nodup_cons] at hnd
      show insertAll (objInsert c e m) rest = m ++ (c, e) :: rest
      rw [objInsert_fresh c e m (hf c (by simp))]
      have hf' : ∀ c' ∈ rest.map Prod.fst, c' ∉ (m ++ [(c, e)]).map Prod.fst := by
        intro c' hc' hmem
        rw [List.map_append] at hmem
        rcases List.mem_append.mp hmem with hmem | hmem
        · exact hf c' (by simp [hc']) hmem
        · simp only [List.map_cons, List.map_nil, List.mem_singleton] at hmem
          exact hnd.1 (hmem ▸ hc')
      rw [insertAll_fresh_append rest (m ++ [(c, e)]) hf' hnd.2]
      simp

theorem objLookup_mem {k : String} {v : Json} :
    ∀ {fs : List (String × Json)}, objLookup k fs = some v → (k, v) ∈ fs
  | [], h => by simp [objLookup] at h
  | (k0, v0) :: rest, h => by
      by_cases hk : k0 = k
      · subst hk
        rw [objLookup_cons_self] at h
        cases h
        exact List.mem_cons_self _ _
      · have h' : objLookup k rest = some v := by
          unfold objLookup at h
          rwa [if_neg hk] at h
        exact List.mem_cons_of_mem _ (objLookup_mem h')

theorem objLookup_of_mem_nodup {k : String} {v : Json} :
    ∀ {fs : List (String × Json)}, (fs.map Prod.fst).Nodup → (k, v) ∈ fs →
      objLookup k fs = some v
  | [], _, h => absurd h (List.not_mem_nil _)
  | (k0, v0) :: rest, hnd, h => by
      rw [List.map_cons, List.nodup_cons] at hnd
      rcases List.mem_cons.mp h with h | h
      · cases h
        exact objLookup_cons_self _ _ _
      · have hk : ¬k0 = k := by
          intro hk
          subst hk
          exact hnd.1 (by
            have : k0 ∈ rest.map Prod.fst := List.mem_map.mpr ⟨(k0, v), h, rfl⟩
            exact this)
        unfold objLookup
        rw [if_neg hk]
        exact objLookup_of_mem_nodup hnd.2 h

mutual

theorem idx_idem (nt : String → Nat) (mt : Nat) (ph : String) :
    ∀ (j : Json) (p : List String),
      idx nt mt ph p (idx nt mt ph p j).1 = ((idx nt mt ph p j).1, [])
  | .obj fs, p => by
      rw [idx_obj]
      show idx nt mt ph p (.obj (idxFields nt mt ph p fs).1) = _
      rw [idx_obj, idxFields_idem nt mt ph fs p]
  | .arr xs, p => by
      rw [idx_arr]
      by_cases hb : mt < nt (toJsonString none (.arr xs))
      · rw [if_pos hb]
        rfl
      · rw [if_neg hb]
        show idx nt mt ph p (.arr xs) = (Json.arr xs, [])
        rw [idx_arr, if_neg hb]
  | .null, p => rfl
  | .bool b, p => rfl
  | .num n, p => rfl
  | .str s, p => rfl

theorem idxFields_idem (nt : String → Nat) (mt : Nat) (ph : String) :
    ∀ (fs : List (String × Json)) (p : List String),
      idxFields nt mt ph p ((idxFields nt mt ph p fs).1) = ((idxFields nt mt ph p fs).1, [])
  | [], p => rfl
  | (k, v) :: rest, p => by
      rw [idxFields_cons]
      show idxFields nt mt ph p ((k, (idx nt mt ph (p ++ [k]) v).1)
        :: (idxFields nt mt ph p rest).1) = _
      rw [idxFields_cons, idx_idem nt mt ph v (p ++ [k]), idxFields_idem nt mt ph rest p]
      simp

end

/-! ### Result-map lemmas for index stability -/

theorem ilookup_mem {i : Nat} {v : String} :
    ∀ {l : IndexMap}, ilookup i l = some v → (i, v) ∈ l
  | [], h => by simp [ilookup] at h
  | (i0, v0) :: rest, h => by
      by_cases hi : i0 = i
      · subst hi
        have : some v0 = some v := by simpa [ilookup] using h
        cases this
        exact List.mem_cons_self _ _
      · have h' : ilookup i rest = some v := by
          unfold ilookup at h
          rwa [if_neg hi] at h
        exact List.mem_cons_of_mem _ (ilookup_mem h')

theorem ilookup_of_mem_nodup {i : Nat} {v : String} :
    ∀ {l : IndexMap}, (l.map Prod.fst).Nodup → (i, v) ∈ l → ilookup i l = some v
  | [], _, h => absurd h (List.not_mem_nil _)
  | (i0, v0) :: rest, hnd, h => by
      rw [List.map_cons, List.nodup_cons] at hnd
      rcases List.mem_cons.mp h with h | h
      · cases h
        simp [ilookup]
      · have hi : ¬i0 = i := by
          intro hi
          subst hi
          exact hnd.1 (List.mem_map.mpr ⟨(i0, v), h, rfl⟩)
        unfold ilookup
        rw [if_neg hi]
        exact ilookup_of_mem_nodup hnd.2 h

theorem ilookup_eq_none {i : Nat} :
    ∀ {l : IndexMap}, ilookup i l = none ↔ i ∉ l.map Prod.fst
  | [] => by simp [ilookup]
  | (i0, v0) :: rest => by
      by_cases hi : i0 = i
      · subst hi
        simp [ilookup]
      · simp only [ilookup, if_neg hi, List.map_cons, List.mem_cons]
        rw [ilookup_eq_none (l := rest)]
        constructor
        · intro h hmem
          rcases hmem with hmem | hmem
          · exact hi hmem.symm
          · exact h hmem
        · intro h hmem
          exact h (Or.inr hmem)

theorem ilookup_perm {l1 l2 : IndexMap} (hp : l1.Perm l2)
    (hnd : (l1.map Prod.fst).Nodup) (i : Nat) : ilookup i l1 = ilookup i l2 := by
  have hnd2 : (l2.map Prod.fst).Nodup := ((hp.map Prod.fst).nodup_iff).mp hnd
  cases h1 : ilookup i l1 with
  | some v =>
      have := ilookup_mem h1
      exact (ilookup_of_mem_nodup hnd2 (hp.mem_iff.mp this)).symm
  | none =>
      cases h2 : ilookup i l2 with
      | none => rfl
      | some v =>
          have := ilookup_mem h2
          have hmem := hp.mem_iff.mpr this
          rw [ilookup_of_mem_nodup hnd hmem] at h1
          exact Option.noConfusion h1

theorem buildUpdatedList_perm {l1 l2 : IndexMap} (hp : l1.Perm l2)
    (hnd : (l1.map Prod.fst).Nodup) : buildUpdatedList l1 = buildUpdatedList l2 := by
  unfold buildUpdatedList
  rw [hp.length_eq]
  have : (fun i => ilookup i l1) = fun i => ilookup i l2 :=
    funext (fun i => ilookup_perm hp hnd i)
  rw [this]

theorem mapM_get? {α β : Type _} (f : α → Option β) :
    ∀ (xs : List α) (l : List β), xs.mapM f = some l →
      l.length = xs.length ∧ ∀ i, (xs.get? i).bind f = l.get? i
  | [], l, h => by
      rw [List.mapM_nil] at h
      cases h
      exact ⟨rfl, fun i => by simp⟩
  | x :: xs, l, h => by
      rw [List.mapM_cons] at h
      cases hx : f x with
      | none => rw [hx] at h; exact Option.noConfusion h
      | some y =>
          rw [hx] at h
          cases hxs : xs.mapM f with
          | none => rw [hxs] at h; exact Option.noConfusion h
          | some ys =>
              rw [hxs] at h
              have : l = y :: ys := by
                have := h
                simp at this
                exact this.symm
              subst this
              obtain ⟨hlen, hidx⟩ := mapM_get? f xs ys hxs
              refine ⟨by simp [hlen], fun i => ?_⟩
              cases i with
              | zero => simpa using hx
              | succ j => simpa using hidx j

/-- The pointwise relation of two result maps populated in different
orders: same chains in the same outer order, and per chain the same
`index → text` pairs up to permutation, with duplicate-free indices. -/
def RMapEquiv (d1 d2 : ResultMap) : Prop :=
  List.Forall₂ (fun e1 e2 : String × IndexMap =>
    e1.1 = e2.1 ∧ e1.2.Perm e2.2 ∧ (e1.2.map Prod.fst).Nodup) d1 d2

theorem rmapLookup_equiv {d1 d2 : ResultMap} (h : RMapEquiv d1 d2) (k : String) :
    (rmapLookup k d1 = none ∧ rmapLookup k d2 = none) ∨
      ∃ i1 i2, rmapLookup k d1 = some i1 ∧ rmapLookup k d2 = some i2 ∧
        i1.Perm i2 ∧ (i1.map Prod.fst).Nodup := by
  induction h with
  | nil => exact Or.inl ⟨rfl, rfl⟩
  | @cons e1 e2 t1 t2 he ht ih =>
      obtain ⟨hk, hperm, hnd⟩ := he
      obtain ⟨k1, i1⟩ := e1
      obtain ⟨k2, i2⟩ := e2
      cases hk
      by_cases hkk : k1 = k
      · exact Or.inr ⟨i1, i2, by simp [rmapLookup, hkk], by simp [rmapLookup, hkk],
          hperm, hnd⟩
      · have e1' : rmapLookup k ((k1, i1) :: t1) = rmapLookup k t1 := by
          simp [rmapLookup, hkk]
        have e2' : rmapLookup k ((k1, i2) :: t2) = rmapLookup k t2 := by
          simp [rmapLookup, hkk]
        rw [e1', e2']
        exact ih

theorem rmapErase_equiv {d1 d2 : ResultMap} (h : RMapEquiv d1 d2) (k : String) :
    RMapEquiv (rmapErase k d1) (rmapErase k d2) := by
  induction h with
  | nil => exact List.Forall₂.nil
  | @cons e1 e2 t1 t2 he ht ih =>
      obtain ⟨hk, hperm, hnd⟩ := he
      obtain ⟨k1, i1⟩ := e1
      obtain ⟨k2, i2⟩ := e2
      cases hk
      by_cases hkk : k1 = k
      · simpa [rmapErase, hkk] using ht
      · show RMapEquiv (rmapErase k ((k1, i1) :: t1)) (rmapErase k ((k1, i2) :: t2))
        unfold rmapErase
        rw [if_neg hkk, if_neg hkk]
        exact List.Forall₂.cons ⟨rfl, hperm, hnd⟩ ih

theorem recoverLoop_equiv : ∀ {r1 r2 : List (String × IndexMap)}, RMapEquiv r1 r2 →
    ∀ base, recoverLoop r1 base = recoverLoop r2 base := by
  intro r1 r2 h
  induction h with
  | nil => intro base; rfl
  | @cons e1 e2 t1 t2 he ht ih =>
      obtain ⟨hk, hperm, hnd⟩ := he
      obtain ⟨k1, i1⟩ := e1
      obtain ⟨k2, i2⟩ := e2
      cases hk
      intro base
      show recoverLoop ((k1, i1) :: t1) base = recoverLoop ((k1, i2) :: t2) base
      unfold recoverLoop
      rw [buildUpdatedList_perm hperm hnd]
      cases buildUpdatedList i2 with
      | none => rfl
      | some texts =>
          dsimp only
          cases pyAssign k1 (.arr (texts.map .str)) base with
          | none => rfl
          | some base1 =>
              dsimp only
              cases updateValue k1 (.arr (texts.map .str)) base1 with
              | none => rfl
              | some base2 => exact ih base2

/-! ### Number serialization round-trip -/

theorem skipWs_not_ws {c : Char} (cs : List Char) (h : ¬isJsonWs c = true) :
    skipWs (c :: cs) = c :: cs := by
  unfold skipWs
  rw [if_neg h]

theorem isDigitCh_ne {c : Char} (h : isDigitCh c = true) {x : Char}
    (hx : isDigitCh x = false) : c ≠ x := by
  intro he
  rw [he, hx] at h
  exact Bool.noConfusion h

theorem isDigitCh_not_ws {c : Char} (h : isDigitCh c = true) : isJsonWs c = false := by
  cases hw : isJsonWs c with
  | false => rfl
  | true =>
      have : ((c = ' ' ∨ c = '\t') ∨ c = '\n') ∨ c = '\r' := by
        simpa [isJsonWs] using hw
      rcases this with ((rfl | rfl) | rfl) | rfl <;> exact Bool.noConfusion h

theorem isDigitCh_not_pySpace {c : Char} (h : isDigitCh c = true) :
    isPySpace c = false := by
  cases hw : isPySpace c with
  | false => rfl
  | true =>
      have : ((((c = ' ' ∨ c = '\t') ∨ c = '\n') ∨ c = '\r') ∨ c.toNat = 11) ∨ c.toNat = 12 := by
        simpa [isPySpace] using hw
      have hb : 48 ≤ c.toNat ∧ c.toNat ≤ 57 := by
        have h0 : ('0' ≤ c ∧ c ≤ '9') := by simpa [isDigitCh] using h
        exact ⟨h0.1, h0.2⟩
      rcases this with ((((rfl | rfl) | rfl) | rfl) | hc) | hc
      · exact Bool.noConfusion h
      · exact Bool.noConfusion h
      · exact Bool.noConfusion h
      · exact Bool.noConfusion h
      · omega
      · omega

theorem isDigitCh_goodChar {c : Char} (h : isDigitCh c = true) :
    goodChar c = true := by
  have h1 : c ≠ '\\' := isDigitCh_ne h (by decide)
  have h2 : c ≠ 'â' := isDigitCh_ne h (by decide)
  simp [goodChar, h1, h2, isDigitCh_not_pySpace h]

theorem digitChar_toNat {d : Nat} (h : d < 10) : (digitChar d).toNat = 48 + d := by
  unfold digitChar
  interval_cases d <;> decide

theorem digitChar_isDigit {d : Nat} (h : d < 10) : isDigitCh (digitChar d) = true := by
  unfold digitChar
  interval_cases d <;> decide

theorem digitChar_ne_zero {d : Nat} (h : d < 10) (h0 : 0 < d) : digitChar d ≠ '0' := by
  unfold digitChar
  interval_cases d <;> first | omega | decide

theorem natDigitsF_zero : ∀ fuel, natDigitsF fuel 0 = []
  | 0 => rfl
  | _ + 1 => rfl

theorem digitsVal_append_one (l : List Char) (c : Char) :
    digitsVal (l ++ [c]) = digitsVal l * 10 + (c.toNat - 48) := by
  unfold digitsVal
  rw [List.foldl_append]
  rfl

theorem natDigitsF_spec (n : Nat) : ∀ fuel, 0 < n → n ≤ fuel →
    natDigitsF fuel n ≠ [] ∧ (∀ c ∈ natDigitsF fuel n, isDigitCh c = true) ∧
    (∀ c, (natDigitsF fuel n).head? = some c → c ≠ '0') ∧
    digitsVal (natDigitsF fuel n) = n := by
  induction n using Nat.strong_induction_on with
  | _ n ih =>
      intro fuel hn hf
      cases fuel with
      | zero => omega
      | succ f =>
          have hne : ¬n = 0 := by omega
          have heq : natDigitsF (f + 1) n = natDigitsF f (n / 10) ++ [digitChar (n % 10)] := by
            show (if n = 0 then [] else natDigitsF f (n / 10) ++ [digitChar (n % 10)]) = _
            rw [if_neg hne]
          have hmod : n % 10 < 10 := Nat.mod_lt _ (by omega)
          by_cases hq : n / 10 = 0
          · have hn10 : n < 10 := by omega
            have hmn : n % 10 = n := Nat.mod_eq_of_lt hn10
            rw [heq, hq, natDigitsF_zero]
            refine ⟨by simp, ?_, ?_, ?_⟩
            · intro c hc
              rcases List.mem_singleton.mp (by simpa using hc) with rfl
              exact digitChar_isDigit hmod
            · intro c hc
              have hcc : digitChar (n % 10) = c := by simpa using hc
              subst hcc
              exact digitChar_ne_zero hmod (by omega)
            · rw [List.nil_append, show [digitChar (n % 10)] = [] ++ [digitChar (n % 10)] from rfl,
                digitsVal_append_one]
              rw [digitChar_toNat hmod]
              show 0 * 10 + (48 + n % 10 - 48) = n
              omega
          · have hlt : n / 10 < n := Nat.div_lt_self hn (by omega)
            have hfle : n / 10 ≤ f := by omega
            obtain ⟨ih1, ih2, ih3, ih4⟩ := ih (n / 10) hlt f (by omega) hfle
            rw [heq]
            obtain ⟨c0, t0, hct⟩ := List.exists_cons_of_ne_nil ih1
            refine ⟨by simp, ?_, ?_, ?_⟩
            · intro c hc
              rcases List.mem_append.mp hc with hc | hc
              · exact ih2 c hc
              · rcases List.mem_singleton.mp hc with rfl
                exact digitChar_isDigit hmod
            · intro c hc
              rw [hct] at hc
              have hcc : c0 = c := by simpa using hc
              subst hcc
              exact ih3 c0 (by rw [hct]; rfl)
            · rw [digitsVal_append_one, ih4, digitChar_toNat hmod]
              omega

theorem natRepr_spec (n : Nat) :
    natRepr n ≠ [] ∧ (∀ c ∈ natRepr n, isDigitCh c = true) ∧
    digitsVal (natRepr n) = n ∧
    (∀ c t, natRepr n = c :: t → (c = '0' → t = [])) := by
  unfold natRepr
  by_cases h0 : n = 0
  · rw [if_pos h0]
    refine ⟨by simp, ?_, by subst h0; rfl, ?_⟩
    · intro c hc
      rcases List.mem_singleton.mp hc with rfl
      decide
    · intro c t hct _
      cases hct
      rfl
  · rw [if_neg h0]
    obtain ⟨h1, h2, h3, h4⟩ := natDigitsF_spec n n (by omega) (le_refl n)
    refine ⟨h1, h2, h4, ?_⟩
    intro c t hct hc
    exact absurd hc (h3 c (by rw [hct]; rfl))

theorem takeDigits_spec : ∀ (ds rest : List Char), (∀ c ∈ ds, isDigitCh c = true) →
    nonDigitHead rest = true → takeDigits (ds ++ rest) = (ds, rest)
  | [], rest, _, hr => by
      cases rest with
      | nil => rfl
      | cons c t =>
          have : isDigitCh c = false := by simpa [nonDigitHead] using hr
          show takeDigits (c :: t) = ([], c :: t)
          unfold takeDigits
          rw [this]
          rfl
  | d :: ds, rest, hds, hr => by
      have hd : isDigitCh d = true := hds d (List.mem_cons_self _ _)
      have ih := takeDigits_spec ds rest (fun c hc => hds c (List.mem_cons_of_mem _ hc)) hr
      show takeDigits (d :: (ds ++ rest)) = (d :: ds, rest)
      unfold takeDigits
      rw [hd, ih]
      simp

theorem parseNum_natRepr (m : Nat) (rest : List Char) (hr : nonDigitHead rest = true) :
    parseNum (natRepr m ++ rest) = some ((m : Int), rest) := by
  obtain ⟨h1, h2, h3, h4⟩ := natRepr_spec m
  obtain ⟨c0, t0, hct⟩ := List.exists_cons_of_ne_nil h1
  have hc0 : isDigitCh c0 = true := h2 c0 (by rw [hct]; exact List.mem_cons_self _ _)
  have hneg : decide ((natRepr m ++ rest).head? = some '-') = false := by
    rw [hct]
    have : c0 ≠ '-' := isDigitCh_ne hc0 (by decide)
    simp [this]
  unfold parseNum
  rw [hneg]
  simp only [Bool.false_eq_true, if_false]
  rw [takeDigits_spec (natRepr m) rest h2 hr]
  dsimp only
  rw [hct]
  dsimp only
  have hlz : ¬(c0 = '0' ∧ t0 ≠ []) := by
    rintro ⟨rfl, ht⟩
    exact ht (h4 '0' t0 hct rfl)
  rw [if_neg hlz]
  rw [← hct, h3]

theorem parseNum_intRepr (n : Int) (rest : List Char) (hr : nonDigitHead rest = true) :
    parseNum (intRepr n ++ rest) = some (n, rest) := by
  cases n with
  | ofNat m => exact parseNum_natRepr m rest hr
  | negSucc m =>
      show parseNum ('-' :: (natRepr (m + 1) ++ rest)) = some (Int.negSucc m, rest)
      obtain ⟨h1, h2, h3, h4⟩ := natRepr_spec (m + 1)
      obtain ⟨c0, t0, hct⟩ := List.exists_cons_of_ne_nil h1
      have hneg : decide (('-' :: (natRepr (m + 1) ++ rest)).head? = some '-') = true := by
        simp
      unfold parseNum
      rw [hneg]
      simp only [if_true, List.tail_cons]
      rw [takeDigits_spec (natRepr (m + 1)) rest h2 hr]
      dsimp only
      rw [hct]
      dsimp only
      have hlz : ¬(c0 = '0' ∧ t0 ≠ []) := by
        rintro ⟨rfl, ht⟩
        exact ht (h4 '0' t0 hct rfl)
      rw [if_neg hlz]
      rw [← hct, h3]
      have hval : -((↑(m + 1) : Int)) = Int.negSucc m := by
        rw [Int.negSucc_eq]
        push_cast
        ring
      simp only [if_true, hval]

/-! ### String serialization round-trip -/

theorem cleanChar_props {c : Char} (h : cleanChar c = true) :
    32 ≤ c.toNat ∧ c.toNat ≤ 126 ∧ ¬(c = '"') ∧ ¬(c = '\\') := by
  simpa [cleanChar, and_assoc] using h

theorem cleanChar_toNat_ne {c : Char} (h : cleanChar c = true) {x : Char}
    (hx : x.toNat < 32) : c ≠ x := by
  intro he
  obtain ⟨h1, _, _, _⟩ := cleanChar_props h
  rw [he] at h1
  omega

theorem escapeChar_clean {c : Char} (h : cleanChar c = true) : escapeChar c = [c] := by
  obtain ⟨h1, h2, h3, h4⟩ := cleanChar_props h
  have hn : c ≠ '\n' := cleanChar_toNat_ne h (by decide)
  have hr : c ≠ '\r' := cleanChar_toNat_ne h (by decide)
  have ht : c ≠ '\t' := cleanChar_toNat_ne h (by decide)
  have h8 : ¬c.toNat = 8 := by omega
  have h12 : ¬c.toNat = 12 := by omega
  have h32 : ¬c.toNat < 32 := by omega
  unfold escapeChar
  rw [if_neg h3, if_neg h4, if_neg hn, if_neg hr, if_neg ht, if_neg h8, if_neg h12,
    if_neg h32]

theorem flatMap_escape_clean : ∀ l : List Char, (∀ c ∈ l, cleanChar c = true) →
    l.flatMap escapeChar = l
  | [], _ => rfl
  | c :: cs, h => by
      rw [List.flatMap_cons, escapeChar_clean (h c (List.mem_cons_self _ _)),
        flatMap_escape_clean cs (fun x hx => h x (List.mem_cons_of_mem _ hx))]
      rfl

theorem renderStr_clean {s : String} (h : (∀ c ∈ s.data, cleanChar c = true)) :
    renderStr s = '"' :: (s.data ++ ['"']) := by
  unfold renderStr
  rw [flatMap_escape_clean s.data h]

theorem parseStringBody_step (acc : List Char) (c : Char) (l : List Char)
    (h1 : ¬(c = '"')) (h2 : ¬(c = '\\')) (h3 : ¬c.toNat < 32) :
    parseStringBody acc (c :: l) = parseStringBody (c :: acc) l := by
  rw [parseStringBody.eq_def]
  split
  · rename_i heq
    exact List.noConfusion heq
  · rename_i heq
    injection heq with ha _
    exact absurd ha h1
  · rename_i heq
    injection heq with ha _
    exact absurd ha h2
  · rename_i heq
    injection heq with ha _
    exact absurd ha h2
  · rename_i heq
    injection heq with ha hb
    subst ha
    subst hb
    rw [if_neg h3]

theorem parseStringBody_clean : ∀ (content : List Char) (acc rest : List Char),
    (∀ c ∈ content, cleanChar c = true) →
    parseStringBody acc (content ++ '"' :: rest) =
      some (String.mk (acc.reverse ++ content), rest)
  | [], acc, rest, _ => by simp [parseStringBody]
  | c :: content', acc, rest, h => by
      have hc := cleanChar_props (h c (List.mem_cons_self _ _))
      have h32 : ¬c.toNat < 32 := by omega
      rw [List.cons_append, parseStringBody_step acc c _ hc.2.2.1 hc.2.2.2 h32,
        parseStringBody_clean content' (c :: acc) rest
          (fun x hx => h x (List.mem_cons_of_mem _ hx))]
      simp

theorem natRepr_head : ∀ n : Nat, ∃ c t, natRepr n = c :: t ∧ isDigitCh c = true := by
  intro n
  obtain ⟨h1, h2, _, _⟩ := natRepr_spec n
  obtain ⟨c, t, hct⟩ := List.exists_cons_of_ne_nil h1
  exact ⟨c, t, hct, h2 c (by rw [hct]; exact List.mem_cons_self _ _)⟩

theorem dumpsCh_head : ∀ v : Json, ∃ c t, dumpsCh v = c :: t ∧ isJsonWs c = false ∧
    ¬(c = ']') ∧ ¬(c = '}') ∧ ¬(c = ',')
  | .null => ⟨'n', _, rfl, by decide, by decide, by decide, by decide⟩
  | .bool true => ⟨'t', _, rfl, by decide, by decide, by decide, by decide⟩
  | .bool false => ⟨'f', _, rfl, by decide, by decide, by decide, by decide⟩
  | .str s => ⟨'"', _, rfl, by decide, by decide, by decide, by decide⟩
  | .arr [] => ⟨'[', _, rfl, by decide, by decide, by decide, by decide⟩
  | .arr (x :: xs) => ⟨'[', _, rfl, by decide, by decide, by decide, by decide⟩
  | .obj [] => ⟨'{', _, rfl, by decide, by decide, by decide, by decide⟩
  | .obj (f :: fs) => by
      obtain ⟨k, v⟩ := f
      exact ⟨'{', _, rfl, by decide, by decide, by decide, by decide⟩
  | .num n => by
      cases n with
      | ofNat m =>
          obtain ⟨c, t, hct, hd⟩ := natRepr_head m
          exact ⟨c, t, hct, isDigitCh_not_ws hd, isDigitCh_ne hd (by decide),
            isDigitCh_ne hd (by decide), isDigitCh_ne hd (by decide)⟩
      | negSucc m =>
          exact ⟨'-', _, rfl, by decide, by decide, by decide, by decide⟩

theorem skipWs_cons_space (cs : List Char) : skipWs (' ' :: cs) = skipWs cs := by
  show (if isJsonWs ' ' then skipWs cs else ' ' :: cs) = skipWs cs
  rw [if_pos (by decide)]

theorem parseVal_cons_space (fuel : Nat) (cs : List Char) :
    parseVal (fuel + 1) (' ' :: cs) = parseVal (fuel + 1) cs := by
  show (match skipWs (' ' :: cs) with
    | 'n' :: 'u' :: 'l' :: 'l' :: r => some (Json.null, r)
    | 't' :: 'r' :: 'u' :: 'e' :: r => some (Json.bool true, r)
    | 'f' :: 'a' :: 'l' :: 's' :: 'e' :: r => some (Json.bool false, r)
    | '"' :: r =>
        match parseStringBody [] r with
        | some (s, r') => some (.str s, r')
        | none => none
    | '[' :: r =>
        match skipWs r with
        | ']' :: r' => some (.arr [], r')
        | r' =>
            match parseElems fuel r' with
            | some (es, r'') => some (.arr es, r'')
            | none => none
    | '{' :: r =>
        match skipWs r with
        | '}' :: r' => some (.obj [], r')
        | r' =>
            match parseFields fuel r' with
            | some (ps, r'') => some (.obj (buildObj ps), r'')
            | none => none
    | c :: rest =>
        if c = '-' ∨ isDigitCh c then
          match parseNum (c :: rest) with
          | some (n, r') => some (.num n, r')
          | none => none
        else none
    | [] => none) = parseVal (fuel + 1) cs
  rw [skipWs_cons_space]
  rfl

theorem parseFields_cons_space (fuel : Nat) (cs : List Char) :
    parseFields (fuel + 1) (' ' :: cs) = parseFields (fuel + 1) cs := by
  show (match skipWs (' ' :: cs) with
    | '"' :: r =>
        match parseStringBody [] r with
        | none => none
        | some (k, r1) =>
            match skipWs r1 with
            | ':' :: r2 =>
                match parseVal fuel r2 with
                | none => none
                | some (v, r3) =>
                    match skipWs r3 with
                    | ',' :: r4 =>
                        match parseFields fuel r4 with
                        | some (ps, r5) => some ((k, v) :: ps, r5)
                        | none => none
                    | '}' :: r4 => some ([(k, v)], r4)
                    | _ => none
            | _ => none
    | _ => none) = parseFields (fuel + 1) cs
  rw [skipWs_cons_space]
  rfl

theorem buildObj_nodup {fs : List (String × Json)} (h : (fs.map Prod.fst).Nodup) :
    buildObj fs = fs := by
  have : buildObj fs = insertAll [] fs := rfl
  rw [this, insertAll_fresh_append fs [] (by simp) h]
  rfl

/-! ### Parser round-trip for clean documents -/

theorem parseVal_null (f : Nat) (r : List Char) :
    parseVal (f + 1) ('n' :: 'u' :: 'l' :: 'l' :: r) = some (.null, r) := rfl

theorem parseVal_true (f : Nat) (r : List Char) :
    parseVal (f + 1) ('t' :: 'r' :: 'u' :: 'e' :: r) = some (.bool true, r) := rfl

theorem parseVal_false (f : Nat) (r : List Char) :
    parseVal (f + 1) ('f' :: 'a' :: 'l' :: 's' :: 'e' :: r) = some (.bool false, r) := rfl

theorem parseVal_quote (f : Nat) (r : List Char) :
    parseVal (f + 1) ('"' :: r) =
      match parseStringBody [] r with
      | some (s, r') => some (.str s, r')
      | none => none := rfl

theorem parseVal_lbrack (f : Nat) (r : List Char) :
    parseVal (f + 1) ('[' :: r) =
      match skipWs r with
      | ']' :: r' => some (.arr [], r')
      | r' =>
          match parseElems f r' with
          | some (es, r'') => some (.arr es, r'')
          | none => none := rfl

theorem parseVal_lbrace (f : Nat) (r : List Char) :
    parseVal (f + 1) ('{' :: r) =
      match skipWs r with
      | '}' :: r' => some (.obj [], r')
      | r' =>
          match parseFields f r' with
          | some (ps, r'') => some (.obj (buildObj ps), r'')
          | none => none := rfl

theorem parseElems_succ (f : Nat) (cs : List Char) :
    parseElems (f + 1) cs =
      match parseVal f cs with
      | none => none
      | some (v, r) =>
          match skipWs r with
          | ',' :: r' =>
              match parseElems f r' with
              | some (vs, r'') => some (v :: vs, r'')
              | none => none
          | ']' :: r' => some ([v], r')
          | _ => none := rfl

theorem parseFields_succ (f : Nat) (cs : List Char) :
    parseFields (f + 1) cs =
      match skipWs cs with
      | '"' :: r =>
          match parseStringBody [] r with
          | none => none
          | some (k, r1) =>
              match skipWs r1 with
              | ':' :: r2 =>
                  match parseVal f r2 with
                  | none => none
                  | some (v, r3) =>
                      match skipWs r3 with
                      | ',' :: r4 =>
                          match parseFields f r4 with
                          | some (ps, r5) => some ((k, v) :: ps, r5)
                          | none => none
                      | '}' :: r4 => some ([(k, v)], r4)
                      | _ => none
              | _ => none
      | _ => none := rfl

theorem parseVal_space (fuel : Nat) (cs : List Char) :
    parseVal fuel (' ' :: cs) = parseVal fuel cs := by
  cases fuel with
  | zero => rfl
  | succ f => exact parseVal_cons_space f cs

theorem parseElems_cons_space (fuel : Nat) (cs : List Char) :
    parseElems (fuel + 1) (' ' :: cs) = parseElems (fuel + 1) cs := by
  rw [parseElems_succ, parseElems_succ, parseVal_space]

theorem jsize_pos (v : Json) : 1 ≤ jsize v := by
  cases v <;> simp [jsize]

theorem parseVal_default (fuel : Nat) (c : Char) (t : List Char)
    (hn : isJsonWs c = false) (hd : c = '-' ∨ isDigitCh c = true) :
    parseVal (fuel + 1) (c :: t) =
      match parseNum (c :: t) with
      | some (n, r') => some (.num n, r')
      | none => none := by
  have hdig : ∀ x : Char, isDigitCh x = false → c = '-' ∨ c ≠ x := by
    intro x hx
    rcases hd with hd | hd
    · exact Or.inl hd
    · exact Or.inr (isDigitCh_ne hd hx)
  have hne : ∀ x : Char, isDigitCh x = false → x ≠ '-' → c ≠ x := by
    intro x hx hxm
    rcases hdig x hx with hd | hd
    · intro he
      apply hxm
      rw [← he]
      exact hd
    · exact hd
  have hskip : skipWs (c :: t) = c :: t := skipWs_not_ws t (by rw [hn]; exact Bool.noConfusion)
  show (match skipWs (c :: t) with
    | 'n' :: 'u' :: 'l' :: 'l' :: r => some (Json.null, r)
    | 't' :: 'r' :: 'u' :: 'e' :: r => some (Json.bool true, r)
    | 'f' :: 'a' :: 'l' :: 's' :: 'e' :: r => some (Json.bool false, r)
    | '"' :: r =>
        match parseStringBody [] r with
        | some (s, r') => some (.str s, r')
        | none => none
    | '[' :: r =>
        match skipWs r with
        | ']' :: r' => some (.arr [], r')
        | r' =>
            match parseElems fuel r' with
            | some (es, r'') => some (.arr es, r'')
            | none => none
    | '{' :: r =>
        match skipWs r with
        | '}' :: r' => some (.obj [], r')
        | r' =>
            match parseFields fuel r' with
            | some (ps, r'') => some (.obj (buildObj ps), r'')
            | none => none
    | c' :: rest =>
        if c' = '-' ∨ isDigitCh c' then
          match parseNum (c' :: rest) with
          | some (n, r') => some (.num n, r')
          | none => none
        else none
    | [] => none) = _
  rw [hskip]
  split
  · rename_i heq
    injection heq with ha _
    exact absurd ha (hne 'n' (by decide) (by decide))
  · rename_i heq
    injection heq with ha _
    exact absurd ha (hne 't' (by decide) (by decide))
  · rename_i heq
    injection heq with ha _
    exact absurd ha (hne 'f' (by decide) (by decide))
  · rename_i heq
    injection heq with ha _
    exact absurd ha (hne '"' (by decide) (by decide))
  · rename_i heq
    injection heq with ha _
    exact absurd ha (hne '[' (by decide) (by decide))
  · rename_i heq
    injection heq with ha _
    exact absurd ha (hne '{' (by decide) (by decide))
  · rename_i heq
    injection heq with ha hb
    subst ha
    subst hb
    rw [if_pos (by simpa using hd)]
  · rename_i heq
    exact List.noConfusion heq

theorem dumpsElems_nonDigit (xs : List Json) (rest : List Char) :
    nonDigitHead (dumpsElems xs ++ ']' :: rest) = true := by
  cases xs with
  | nil => rfl
  | cons y ys =>
      obtain ⟨k, v⟩ := (⟨y, ys⟩ : Json × List Json)
      rfl

theorem dumpsFields_nonDigit (fs : List (String × Json)) (rest : List Char) :
    nonDigitHead (dumpsFields fs ++ '}' :: rest) = true := by
  cases fs with
  | nil => rfl
  | cons f fs' =>
      obtain ⟨k, v⟩ := f
      rfl

theorem parseFields_quote (f : Nat) (r : List Char) :
    parseFields (f + 1) ('"' :: r) =
      match parseStringBody [] r with
      | none => none
      | some (k, r1) =>
          match skipWs r1 with
          | ':' :: r2 =>
              match parseVal f r2 with
              | none => none
              | some (v, r3) =>
                  match skipWs r3 with
                  | ',' :: r4 =>
                      match parseFields f r4 with
                      | some (ps, r5) => some ((k, v) :: ps, r5)
                      | none => none
                  | '}' :: r4 => some ([(k, v)], r4)
                  | _ => none
          | _ => none := rfl

theorem parseFields_entry (f : Nat) (k : String) (Y : List Char)
    (hk : ∀ c ∈ k.data, cleanChar c = true) :
    parseFields (f + 1) (renderStr k ++ (':' :: ' ' :: Y)) =
      match parseVal f (' ' :: Y) with
      | none => none
      | some (v, r3) =>
          match skipWs r3 with
          | ',' :: r4 =>
              match parseFields f r4 with
              | some (ps, r5) => some ((k, v) :: ps, r5)
              | none => none
          | '}' :: r4 => some ([(k, v)], r4)
          | _ => none := by
  rw [show renderStr k ++ (':' :: ' ' :: Y)
      = '"' :: (k.data ++ ('"' :: (':' :: ' ' :: Y))) from by
        rw [renderStr_clean hk]; simp]
  rw [parseFields_quote, parseStringBody_clean k.data [] (':' :: ' ' :: Y) hk]
  show (match skipWs (':' :: ' ' :: Y) with
    | ':' :: r2 =>
        match parseVal f r2 with
        | none => none
        | some (v, r3) =>
            match skipWs r3 with
            | ',' :: r4 =>
                match parseFields f r4 with
                | some (ps, r5) => some ((String.mk (List.reverse [] ++ k.data), v) :: ps, r5)
                | none => none
            | '}' :: r4 => some ([(String.mk (List.reverse [] ++ k.data), v)], r4)
            | _ => none
    | _ => none) = _
  rw [skipWs_not_ws _ (by decide)]
  show (match parseVal f (' ' :: Y) with
    | none => none
    | some (v, r3) =>
        match skipWs r3 with
        | ',' :: r4 =>
            match parseFields f r4 with
            | some (ps, r5) => some ((String.mk (List.reverse [] ++ k.data), v) :: ps, r5)
            | none => none
        | '}' :: r4 => some ([(String.mk (List.reverse [] ++ k.data), v)], r4)
        | _ => none) = _
  rfl

mutual

theorem rt_val : ∀ (v : Json) (fuel : Nat) (rest : List Char), jsize v ≤ fuel →
    cleanJson v = true → wfB v = true → nonDigitHead rest = true →
    parseVal fuel (dumpsCh v ++ rest) = some (v, rest)
  | .null, fuel, rest => fun hf _ _ _ => by
      cases fuel with
      | zero => exact absurd hf (by simp [jsize])
      | succ f => exact parseVal_null f rest
  | .bool true, fuel, rest => fun hf _ _ _ => by
      cases fuel with
      | zero => exact absurd hf (by simp [jsize])
      | succ f => exact parseVal_true f rest
  | .bool false, fuel, rest => fun hf _ _ _ => by
      cases fuel with
      | zero => exact absurd hf (by simp [jsize])
      | succ f => exact parseVal_false f rest
  | .num n, fuel, rest => fun hf _ _ hr => by
      cases fuel with
      | zero => exact absurd hf (by simp [jsize])
      | succ f =>
          cases n with
          | ofNat m =>
              obtain ⟨c, t, hct, hdg⟩ := natRepr_head m
              show parseVal (f + 1) (natRepr m ++ rest) = some (.num (Int.ofNat m), rest)
              rw [hct, List.cons_append,
                parseVal_default f c (t ++ rest) (isDigitCh_not_ws hdg) (Or.inr hdg),
                ← List.cons_append, ← hct, parseNum_natRepr m rest hr]
              rfl
          | negSucc m =>
              show parseVal (f + 1) ('-' :: (natRepr (m + 1) ++ rest))
                = some (.num (Int.negSucc m), rest)
              rw [parseVal_default f '-' (natRepr (m + 1) ++ rest) (by decide) (Or.inl rfl),
                show ('-' :: (natRepr (m + 1) ++ rest)) = intRepr (Int.negSucc m) ++ rest
                  from rfl,
                parseNum_intRepr (Int.negSucc m) rest hr]
  | .str s, fuel, rest => fun hf hc _ _ => by
      cases fuel with
      | zero => exact absurd hf (by simp [jsize])
      | succ f =>
          have hcs : ∀ c ∈ s.data, cleanChar c = true := by
            have h1 : s.data.all cleanChar = true := by
              have := hc
              rw [show cleanJson (.str s) = cleanStr s from rfl, cleanStr,
                Bool.and_eq_true, Bool.and_eq_true] at this
              exact this.1.1
            exact fun c hcm => List.all_eq_true.mp h1 c hcm
          show parseVal (f + 1) (renderStr s ++ rest) = some (.str s, rest)
          rw [renderStr_clean hcs, List.cons_append, parseVal_quote,
            List.append_assoc, List.singleton_append,
            parseStringBody_clean s.data [] rest hcs]
          rfl
  | .arr [], fuel, rest => fun hf _ _ _ => by
      cases fuel with
      | zero => exact absurd hf (by simp [jsize])
      | succ f => exact rfl
  | .arr (x :: xs), fuel, rest => fun hf hc hw hr => by
      cases fuel with
      | zero => exact absurd hf (by simp [jsize, esize])
      | succ f =>
          have hc' : cleanJson x = true ∧ cleanElems xs = true := by
            have := hc
            rw [show cleanJson (.arr (x :: xs)) = cleanElems (x :: xs) from rfl,
              show cleanElems (x :: xs) = (cleanJson x && cleanElems xs) from rfl,
              Bool.and_eq_true] at this
            exact this
          have hw' : wfB x = true ∧ wfElemsB xs = true := by
            have := hw
            rw [show wfB (.arr (x :: xs)) = wfElemsB (x :: xs) from rfl,
              show wfElemsB (x :: xs) = (wfB x && wfElemsB xs) from rfl,
              Bool.and_eq_true] at this
            exact this
          show parseVal (f + 1)
            (('[' :: (dumpsCh x ++ dumpsElems xs ++ [']'])) ++ rest) = _
          rw [List.cons_append, parseVal_lbrack]
          obtain ⟨c, t, hct, hws, hrb, _, _⟩ := dumpsCh_head x
          have hbody : (dumpsCh x ++ dumpsElems xs ++ [']']) ++ rest
              = c :: (t ++ (dumpsElems xs ++ ']' :: rest)) := by
            rw [hct]
            simp
          rw [hbody, skipWs_not_ws _ (by rw [hws]; exact Bool.noConfusion)]
          have helems : parseElems f (c :: (t ++ (dumpsElems xs ++ ']' :: rest)))
              = some (x :: xs, rest) := by
            rw [show c :: (t ++ (dumpsElems xs ++ ']' :: rest))
              = dumpsCh x ++ (dumpsElems xs ++ ']' :: rest) by rw [hct]; rfl]
            exact rt_elems x xs f rest (by simp [jsize, esize] at hf ⊢; omega)
              hc'.1 hc'.2 hw'.1 hw'.2
          split
          · rename_i heq
            injection heq with ha _
            exact absurd ha hrb
          · rename_i hne heq
            rw [helems]
  | .obj [], fuel, rest => fun hf _ _ _ => by
      cases fuel with
      | zero => exact absurd hf (by simp [jsize])
      | succ f => exact rfl
  | .obj ((k, v) :: fs), fuel, rest => fun hf hc hw hr => by
      cases fuel with
      | zero => exact absurd hf (by simp [jsize, fsize])
      | succ f =>
          have hc' : cleanStr k = true ∧ cleanJson v = true ∧ cleanFields fs = true := by
            have := hc
            rw [show cleanJson (.obj ((k, v) :: fs)) = cleanFields ((k, v) :: fs) from rfl,
              show cleanFields ((k, v) :: fs)
                = (cleanStr k && cleanJson v && cleanFields fs) from rfl,
              Bool.and_eq_true, Bool.and_eq_true] at this
            exact ⟨this.1.1, this.1.2, this.2⟩
          have hw' : wfB v = true ∧ wfFieldsB fs = true ∧
              (((k, v) :: fs).map Prod.fst).Nodup := by
            have := hw
            rw [wfB_obj, Bool.and_eq_true, wfFieldsB_cons, Bool.and_eq_true,
              Bool.and_eq_true] at this
            exact ⟨this.1.1.2, this.1.2, (nodupKeysB_iff _).mp this.2⟩
          show parseVal (f + 1)
            (('{' :: (renderStr k ++ ':' :: ' ' :: dumpsCh v ++ dumpsFields fs ++ ['}']))
              ++ rest) = _
          rw [List.cons_append, parseVal_lbrace]
          have hbody : (renderStr k ++ ':' :: ' ' :: dumpsCh v ++ dumpsFields fs ++ ['}'])
              ++ rest
              = renderStr k ++ (':' :: ' ' :: dumpsCh v ++ (dumpsFields fs ++ '}' :: rest)) := by
            simp
          have hfields := rt_fields k v fs f rest
            (by simp [jsize, fsize] at hf ⊢; omega) hc'.1 hc'.2.1 hc'.2.2 hw'.1 hw'.2.1
          have hkclean : ∀ c ∈ k.data, cleanChar c = true := by
            have h1 : k.data.all cleanChar = true := by
              have := hc'.1
              rw [cleanStr, Bool.and_eq_true, Bool.and_eq_true] at this
              exact this.1.1
            exact fun c hcm => List.all_eq_true.mp h1 c hcm
          rw [hbody]
          have hquote : renderStr k ++ (':' :: ' ' :: dumpsCh v ++ (dumpsFields fs ++ '}' :: rest))
              = '"' :: (k.data ++ ('"' :: (':' :: ' ' :: dumpsCh v ++ (dumpsFields fs ++ '}' :: rest)))) := by
            rw [renderStr_clean hkclean]
            simp
          rw [hquote, skipWs_not_ws _ (by decide)]
          split
          · rename_i heq
            injection heq with ha _
            exact absurd ha (by decide)
          · rename_i hne2 heq2
            rw [show parseFields f
                ('"' :: (k.data ++ ('"' :: (':' :: ' ' :: dumpsCh v ++ (dumpsFields fs ++ '}' :: rest)))))
              = some ((k, v) :: fs, rest) from by
                rw [show ('"' :: (k.data ++ ('"' :: (':' :: ' ' :: dumpsCh v ++ (dumpsFields fs ++ '}' :: rest)))))
                  = renderStr k ++ (':' :: ' ' :: dumpsCh v ++ (dumpsFields fs ++ '}' :: rest)) from by
                    rw [renderStr_clean hkclean]; simp]
                exact hfields]
            show some (Json.obj (buildObj ((k, v) :: fs)), rest) = some (Json.obj ((k, v) :: fs), rest)
            rw [buildObj_nodup hw'.2.2]
termination_by v fuel rest => sizeOf v
decreasing_by
  all_goals simp_wf
  all_goals omega

theorem rt_elems : ∀ (x : Json) (xs : List Json) (fuel : Nat) (rest : List Char),
    1 + jsize x + esize xs ≤ fuel → cleanJson x = true → cleanElems xs = true →
    wfB x = true → wfElemsB xs = true →
    parseElems fuel (dumpsCh x ++ (dumpsElems xs ++ ']' :: rest)) = some (x :: xs, rest)
  | x, xs, fuel, rest => fun hf hcx hcxs hwx hwxs => by
      cases fuel with
      | zero => omega
      | succ f =>
          rw [parseElems_succ,
            rt_val x f (dumpsElems xs ++ ']' :: rest) (by omega) hcx hwx
              (dumpsElems_nonDigit xs rest)]
          cases xs with
          | nil => rfl
          | cons y ys =>
              have hc' : cleanJson y = true ∧ cleanElems ys = true := by
                have := hcxs
                rw [show cleanElems (y :: ys) = (cleanJson y && cleanElems ys) from rfl,
                  Bool.and_eq_true] at this
                exact this
              have hw' : wfB y = true ∧ wfElemsB ys = true := by
                have := hwxs
                rw [show wfElemsB (y :: ys) = (wfB y && wfElemsB ys) from rfl,
                  Bool.and_eq_true] at this
                exact this
              show (match skipWs ((',' :: ' ' :: (dumpsCh y ++ dumpsElems ys)) ++ ']' :: rest) with
                | ',' :: r' =>
                    match parseElems f r' with
                    | some (vs, r'') => some (x :: vs, r'')
                    | none => none
                | ']' :: r' => some ([x], r')
                | _ => none) = some (x :: y :: ys, rest)
              rw [show ((',' :: ' ' :: (dumpsCh y ++ dumpsElems ys)) ++ ']' :: rest)
                = ',' :: ' ' :: (dumpsCh y ++ (dumpsElems ys ++ ']' :: rest)) by simp]
              rw [skipWs_not_ws _ (by decide)]
              have hfle : 1 + jsize y + esize ys ≤ f := by
                simp [esize] at hf
                omega
              cases f with
              | zero => omega
              | succ f2 =>
                  rw [show (' ' :: (dumpsCh y ++ (dumpsElems ys ++ ']' :: rest)))
                      = ' ' :: (dumpsCh y ++ (dumpsElems ys ++ ']' :: rest)) from rfl]
                  show (match parseElems (f2 + 1)
                      (' ' :: (dumpsCh y ++ (dumpsElems ys ++ ']' :: rest))) with
                    | some (vs, r'') => some (x :: vs, r'')
                    | none => none) = some (x :: y :: ys, rest)
                  rw [parseElems_cons_space,
                    rt_elems y ys (f2 + 1) rest hfle hc'.1 hc'.2 hw'.1 hw'.2]
termination_by x xs fuel rest => 1 + sizeOf x + sizeOf xs
decreasing_by
  all_goals simp_wf
  all_goals omega

theorem rt_fields : ∀ (k : String) (v : Json) (fs : List (String × Json)) (fuel : Nat)
    (rest : List Char), 1 + jsize v + fsize fs ≤ fuel → cleanStr k = true →
    cleanJson v = true → cleanFields fs = true → wfB v = true → wfFieldsB fs = true →
    parseFields fuel
      (renderStr k ++ (':' :: ' ' :: dumpsCh v ++ (dumpsFields fs ++ '}' :: rest)))
      = some ((k, v) :: fs, rest)
  | k, v, fs, fuel, rest => fun hf hck hcv hcfs hwv hwfs => by
      cases fuel with
      | zero =>
          have := jsize_pos v
          omega
      | succ f =>
          have hkclean : ∀ c ∈ k.data, cleanChar c = true := by
            have h1 : k.data.all cleanChar = true := by
              have := hck
              rw [cleanStr, Bool.and_eq_true, Bool.and_eq_true] at this
              exact this.1.1
            exact fun c hcm => List.all_eq_true.mp h1 c hcm
          rw [show (':' :: ' ' :: dumpsCh v ++ (dumpsFields fs ++ '}' :: rest))
              = ':' :: ' ' :: (dumpsCh v ++ (dumpsFields fs ++ '}' :: rest)) from by simp,
            parseFields_entry f k (dumpsCh v ++ (dumpsFields fs ++ '}' :: rest)) hkclean]
          cases f with
          | zero =>
              have := jsize_pos v
              omega
          | succ f2 =>
              rw [parseVal_cons_space,
                rt_val v (f2 + 1) (dumpsFields fs ++ '}' :: rest)
                  (by omega) hcv hwv (dumpsFields_nonDigit fs rest)]
              show (match skipWs (dumpsFields fs ++ '}' :: rest) with
                | ',' :: r4 =>
                    match parseFields (f2 + 1) r4 with
                    | some (ps, r5) => some ((k, v) :: ps, r5)
                    | none => none
                | '}' :: r4 => some ([(k, v)], r4)
                | _ => none) = some ((k, v) :: fs, rest)
              cases fs with
              | nil => rfl
              | cons e fs2 =>
                  obtain ⟨k2, v2⟩ := e
                  have hc' : cleanStr k2 = true ∧ cleanJson v2 = true ∧
                      cleanFields fs2 = true := by
                    have := hcfs
                    rw [show cleanFields ((k2, v2) :: fs2)
                      = (cleanStr k2 && cleanJson v2 && cleanFields fs2) from rfl,
                      Bool.and_eq_true, Bool.and_eq_true] at this
                    exact ⟨this.1.1, this.1.2, this.2⟩
                  have hw' : wfB v2 = true ∧ wfFieldsB fs2 = true := by
                    have := hwfs
                    rw [wfFieldsB_cons, Bool.and_eq_true, Bool.and_eq_true] at this
                    exact ⟨this.1.2, this.2⟩
                  rw [show (dumpsFields ((k2, v2) :: fs2) ++ '}' :: rest)
                    = ',' :: ' ' :: (renderStr k2 ++
                        (':' :: ' ' :: (dumpsCh v2 ++ (dumpsFields fs2 ++ '}' :: rest))))
                    from by
                      show ((',' :: ' ' ::
                        (renderStr k2 ++ ':' :: ' ' :: dumpsCh v2 ++ dumpsFields fs2))
                        ++ '}' :: rest) = _
                      simp]
                  rw [skipWs_not_ws _ (by decide)]
                  show (match parseFields (f2 + 1) (' ' :: (renderStr k2 ++
                      (':' :: ' ' :: (dumpsCh v2 ++ (dumpsFields fs2 ++ '}' :: rest))))) with
                    | some (ps, r5) => some ((k, v) :: ps, r5)
                    | none => none) = some ((k, v) :: (k2, v2) :: fs2, rest)
                  have hfle : 1 + jsize v2 + fsize fs2 ≤ f2 + 1 := by
                    have h1 := jsize_pos v
                    have h2 : fsize ((k2, v2) :: fs2) = 1 + jsize v2 + fsize fs2 := rfl
                    omega
                  have hrec := rt_fields k2 v2 fs2 (f2 + 1) rest hfle hc'.1 hc'.2.1
                    hc'.2.2 hw'.1 hw'.2
                  rw [parseFields_cons_space,
                    show (':' :: ' ' :: (dumpsCh v2 ++ (dumpsFields fs2 ++ '}' :: rest)))
                      = ':' :: ' ' :: dumpsCh v2 ++ (dumpsFields fs2 ++ '}' :: rest)
                      from by simp,
                    hrec]
termination_by k v fs fuel rest => 1 + sizeOf v + sizeOf fs
decreasing_by
  all_goals simp_wf
  all_goals omega

end

/-! ### Goodness of clean serializations -/

theorem cleanChar_goodChar {c : Char} (h : cleanChar c = true) : goodChar c = true := by
  obtain ⟨h1, h2, _, h4⟩ := cleanChar_props h
  have hna : ¬(c = 'â') := by
    intro he
    rw [he] at h2
    exact absurd h2 (by decide)
  cases hsp : isPySpace c with
  | false => simp [goodChar, h4, hna, hsp]
  | true =>
      have hd : ((((c = ' ' ∨ c = '\t') ∨ c = '\n') ∨ c = '\r') ∨ c.toNat = 11) ∨
          c.toNat = 12 := by
        simpa [isPySpace] using hsp
      have hsp' : c = ' ' := by
        rcases hd with ((((hd | hd) | hd) | hd) | hd) | hd
        · exact hd
        · rw [hd] at h1; exact absurd h1 (by decide)
        · rw [hd] at h1; exact absurd h1 (by decide)
        · rw [hd] at h1; exact absurd h1 (by decide)
        · omega
        · omega
      subst hsp'
      decide

theorem goodChar_space {c : Char} (h : goodChar c = true) (hs : isPySpace c = true) :
    c = ' ' := by
  unfold goodChar at h
  rw [Bool.and_eq_true] at h
  have h3 := h.2
  rw [hs] at h3
  simpa using h3

theorem okPair_left {a b : Char} (h1 : ¬(a = ' ')) (h2 : ¬(a = '"')) :
    (!(a = ' ' && b = ' ') && !(a = '"' && b = '{')) = true := by
  simp [h1, h2]

theorem okPair_right {a b : Char} (h1 : ¬(b = ' ')) (h2 : ¬(b = '{')) :
    (!(a = ' ' && b = ' ') && !(a = '"' && b = '{')) = true := by
  simp [h1, h2]

theorem goodPairs_cons2 (a b : Char) (rest : List Char) :
    goodPairs (a :: b :: rest)
      = ((!(a = ' ' && b = ' ') && !(a = '"' && b = '{')) && goodPairs (b :: rest)) := rfl

theorem goodPairs_cons_ofB {a : Char} {l : List Char} (hl : goodPairs l = true)
    (hb : ∀ b, l.head? = some b →
      (!(a = ' ' && b = ' ') && !(a = '"' && b = '{')) = true) :
    goodPairs (a :: l) = true := by
  cases l with
  | nil => rfl
  | cons b bs =>
      rw [goodPairs_cons2, Bool.and_eq_true]
      exact ⟨hb b rfl, hl⟩

theorem goodPairs_tailB {a : Char} {l : List Char} (h : goodPairs (a :: l) = true) :
    goodPairs l = true := by
  cases l with
  | nil => rfl
  | cons b bs =>
      rw [goodPairs_cons2, Bool.and_eq_true] at h
      exact h.2

theorem goodPairs_append : ∀ {A : List Char} (B : List Char), goodPairs A = true →
    goodPairs B = true →
    (∀ a b, A.getLast? = some a → B.head? = some b →
      (!(a = ' ' && b = ' ') && !(a = '"' && b = '{')) = true) →
    goodPairs (A ++ B) = true
  | [], B, _, hB, _ => hB
  | [a], B, _, hB, h => goodPairs_cons_ofB hB (fun b hb => h a b rfl hb)
  | a :: a2 :: As2, B, hA, hB, h => by
      have hA2 : goodPairs (a2 :: As2) = true := goodPairs_tailB hA
      have hpair : (!(a = ' ' && a2 = ' ') && !(a = '"' && a2 = '{')) = true := by
        rw [goodPairs_cons2, Bool.and_eq_true] at hA
        exact hA.1
      have hrec := goodPairs_append B hA2 hB
        (fun x y hx hy => h x y (by rw [List.getLast?_cons_cons]; exact hx) hy)
      show goodPairs (a :: a2 :: (As2 ++ B)) = true
      rw [goodPairs_cons2, Bool.and_eq_true]
      exact ⟨hpair, hrec⟩

theorem goodPairs_of_no_quote_space : ∀ l : List Char,
    (∀ c ∈ l, ¬(c = ' ') ∧ ¬(c = '"')) → goodPairs l = true
  | [], _ => rfl
  | [_], _ => rfl
  | a :: b :: rest, h => by
      rw [goodPairs_cons2, Bool.and_eq_true]
      refine ⟨?_, goodPairs_of_no_quote_space (b :: rest)
        (fun c hc => h c (List.mem_cons_of_mem a hc))⟩
      have ha := h a (List.mem_cons_self a (b :: rest))
      simp [ha.1, ha.2]

theorem goodPairs_of_content : ∀ l : List Char, noTwoSpaces l = true →
    (∀ c ∈ l, ¬(c = '"')) → goodPairs l = true
  | [], _, _ => rfl
  | [_], _, _ => rfl
  | a :: b :: rest, h2, hq => by
      have h2' : (!(a = ' ' && b = ' ') && noTwoSpaces (b :: rest)) = true := h2
      rw [Bool.and_eq_true] at h2'
      rw [goodPairs_cons2, Bool.and_eq_true, Bool.and_eq_true]
      refine ⟨⟨h2'.1, ?_⟩, goodPairs_of_content (b :: rest) h2'.2
        (fun c hc => hq c (List.mem_cons_of_mem a hc))⟩
      have ha := hq a (List.mem_cons_self a (b :: rest))
      simp [ha]

theorem goodPairs_noTwoSpaces : ∀ l : List Char, goodPairs l = true →
    noTwoSpaces l = true
  | [], _ => rfl
  | [_], _ => rfl
  | a :: b :: rest, h => by
      rw [goodPairs_cons2, Bool.and_eq_true, Bool.and_eq_true] at h
      show (!(a = ' ' && b = ' ') && noTwoSpaces (b :: rest)) = true
      rw [Bool.and_eq_true]
      exact ⟨h.1.1, goodPairs_noTwoSpaces (b :: rest) h.2⟩

theorem cleanStr_parts {s : String} (h : cleanStr s = true) :
    s.data.all cleanChar = true ∧ noTwoSpaces s.data = true ∧
      ¬(s.data.head? = some '{') := by
  unfold cleanStr at h
  rw [Bool.and_eq_true, Bool.and_eq_true] at h
  refine ⟨h.1.1, h.1.2, ?_⟩
  simpa using h.2

theorem renderStrGood {s : String} (h : cleanStr s = true) :
    (renderStr s).all goodChar = true ∧ goodPairs (renderStr s) = true := by
  obtain ⟨hall, hnts, hhead⟩ := cleanStr_parts h
  have hcs : ∀ c ∈ s.data, cleanChar c = true := fun c hc => List.all_eq_true.mp hall c hc
  rw [renderStr_clean hcs]
  constructor
  · rw [List.all_cons, List.all_append, Bool.and_eq_true, Bool.and_eq_true]
    exact ⟨by decide, List.all_eq_true.mpr (fun c hc => cleanChar_goodChar (hcs c hc)),
      by decide⟩
  · apply goodPairs_cons_ofB
    · apply goodPairs_append
      · exact goodPairs_of_content s.data hnts
          (fun c hc => (cleanChar_props (hcs c hc)).2.2.1)
      · rfl
      · intro a b _ hb
        rw [List.head?_cons] at hb
        injection hb with hb
        subst hb
        exact okPair_right (by decide) (by decide)
    · intro b hb
      have hb' : ¬(b = '{') := by
        cases hsd : s.data with
        | nil =>
            rw [hsd] at hb
            rw [List.nil_append, List.head?_cons] at hb
            injection hb with hb
            subst hb
            decide
        | cons c0 cs0 =>
            rw [hsd, List.cons_append, List.head?_cons] at hb
            injection hb with hb
            subst hb
            intro he
            apply hhead
            rw [hsd, he]
            rfl
      simp [hb']

theorem entryChunkGood {k : String} (V : List Char) (hk : cleanStr k = true)
    (hV1 : V.all goodChar = true) (hV2 : goodPairs V = true)
    (hVh : ∃ c t, V = c :: t ∧ isPySpace c = false) :
    (renderStr k ++ (':' :: ' ' :: V)).all goodChar = true ∧
    goodPairs (renderStr k ++ (':' :: ' ' :: V)) = true ∧
    ∃ t, renderStr k ++ (':' :: ' ' :: V) = '"' :: t := by
  obtain ⟨hr1, hr2⟩ := renderStrGood hk
  obtain ⟨c, t, hct, hcs⟩ := hVh
  refine ⟨?_, ?_, ?_⟩
  · rw [List.all_append, Bool.and_eq_true]
    refine ⟨hr1, ?_⟩
    rw [List.all_cons, List.all_cons]
    rw [show goodChar ':' = true from by decide, show goodChar ' ' = true from by decide,
      hV1]
    rfl
  · apply goodPairs_append _ hr2
    · apply goodPairs_cons_ofB
      · apply goodPairs_cons_ofB hV2
        intro b hb
        rw [hct, List.head?_cons] at hb
        injection hb with hb
        subst hb
        have hcne : ¬(c = ' ') := by
          intro he
          rw [he] at hcs
          exact absurd hcs (by decide)
        simp [hcne]
      · intro b hb
        rw [List.head?_cons] at hb
        injection hb with hb
        subst hb
        decide
    · intro a b _ hb
      rw [List.head?_cons] at hb
      injection hb with hb
      subst hb
      exact okPair_right (by decide) (by decide)
  · have hcs2 : ∀ x ∈ k.data, cleanChar x = true :=
      fun x hx => List.all_eq_true.mp (cleanStr_parts hk).1 x hx
    rw [renderStr_clean hcs2]
    exact ⟨_, rfl⟩

theorem seqBodyGood {V : List Char} (W : List Char) (close : Char)
    (hV1 : V.all goodChar = true) (hV2 : goodPairs V = true)
    (hW1 : W.all goodChar = true) (hW2 : goodPairs W = true)
    (hWh : W = [] ∨ ∃ t, W = ',' :: t)
    (hc : goodChar close = true) (hc1 : ¬(close = ' ')) (hc2 : ¬(close = '{')) :
    ((V ++ W) ++ [close]).all goodChar = true ∧
    goodPairs ((V ++ W) ++ [close]) = true := by
  constructor
  · rw [List.all_append, List.all_append, Bool.and_eq_true, Bool.and_eq_true]
    exact ⟨⟨hV1, hW1⟩, by rw [List.all_cons, hc]; rfl⟩
  · apply goodPairs_append
    · apply goodPairs_append _ hV2 hW2
      intro a b _ hb
      rcases hWh with hWe | ⟨t, hWt⟩
      · rw [hWe] at hb
        exact Option.noConfusion hb
      · rw [hWt, List.head?_cons] at hb
        injection hb with hb
        subst hb
        exact okPair_right (by decide) (by decide)
    · rfl
    · intro a b _ hb
      rw [List.head?_cons] at hb
      injection hb with hb
      subst hb
      exact okPair_right hc1 hc2

mutual

theorem dumpsGood_val : ∀ v : Json, cleanJson v = true →
    (dumpsCh v).all goodChar = true ∧ goodPairs (dumpsCh v) = true ∧
    (∃ c t, dumpsCh v = c :: t ∧ isPySpace c = false)
  | .null, _ => ⟨by decide, by decide, 'n', _, rfl, by decide⟩
  | .bool true, _ => ⟨by decide, by decide, 't', _, rfl, by decide⟩
  | .bool false, _ => ⟨by decide, by decide, 'f', _, rfl, by decide⟩
  | .num n, _ => by
      have hdig : ∀ c ∈ natRepr n.natAbs, isDigitCh c = true := (natRepr_spec n.natAbs).2.1
      cases n with
      | ofNat m =>
          have hdig : ∀ c ∈ natRepr m, isDigitCh c = true := (natRepr_spec m).2.1
          obtain ⟨c, t, hct, hc⟩ := natRepr_head m
          exact ⟨List.all_eq_true.mpr (fun x hx => isDigitCh_goodChar (hdig x hx)),
            goodPairs_of_no_quote_space _ (fun x hx =>
              ⟨isDigitCh_ne (hdig x hx) (by decide), isDigitCh_ne (hdig x hx) (by decide)⟩),
            c, t, hct, isDigitCh_not_pySpace hc⟩
      | negSucc m =>
          have hdig : ∀ c ∈ natRepr (m + 1), isDigitCh c = true := (natRepr_spec (m + 1)).2.1
          refine ⟨?_, ?_, '-', _, rfl, by decide⟩
          · rw [show dumpsCh (.num (Int.negSucc m)) = '-' :: natRepr (m + 1) from rfl,
              List.all_cons, Bool.and_eq_true]
            exact ⟨by decide,
              List.all_eq_true.mpr (fun x hx => isDigitCh_goodChar (hdig x hx))⟩
          · rw [show dumpsCh (.num (Int.negSucc m)) = '-' :: natRepr (m + 1) from rfl]
            apply goodPairs_cons_ofB
            · exact goodPairs_of_no_quote_space _ (fun x hx =>
                ⟨isDigitCh_ne (hdig x hx) (by decide), isDigitCh_ne (hdig x hx) (by decide)⟩)
            · intro b _
              exact okPair_left (by decide) (by decide)
  | .str s, h => by
      have hk : cleanStr s = true := h
      obtain ⟨h1, h2⟩ := renderStrGood hk
      have hcs : ∀ c ∈ s.data, cleanChar c = true :=
        fun c hc => List.all_eq_true.mp (cleanStr_parts hk).1 c hc
      exact ⟨h1, h2, '"', s.data.flatMap escapeChar ++ ['"'], rfl, by decide⟩
  | .arr [], _ => ⟨by decide, by decide, '[', _, rfl, by decide⟩
  | .arr (x :: xs), h => by
      have hc' : cleanJson x = true ∧ cleanElems xs = true := by
        have := h
        rw [show cleanJson (.arr (x :: xs)) = (cleanJson x && cleanElems xs) from rfl,
          Bool.and_eq_true] at this
        exact this
      obtain ⟨hx1, hx2, _, _, _, _⟩ := dumpsGood_val x hc'.1
      obtain ⟨he1, he2, heh⟩ := dumpsGood_elems xs hc'.2
      obtain ⟨hb1, hb2⟩ := seqBodyGood (dumpsElems xs) ']' hx1 hx2 he1 he2 heh
        (by decide) (by decide) (by decide)
      refine ⟨?_, ?_, '[', _, rfl, by decide⟩
      · rw [show dumpsCh (.arr (x :: xs))
            = '[' :: ((dumpsCh x ++ dumpsElems xs) ++ [']']) from rfl,
          List.all_cons, Bool.and_eq_true]
        exact ⟨by decide, hb1⟩
      · rw [show dumpsCh (.arr (x :: xs))
            = '[' :: ((dumpsCh x ++ dumpsElems xs) ++ [']']) from rfl]
        apply goodPairs_cons_ofB hb2
        intro b _
        exact okPair_left (by decide) (by decide)
  | .obj [], _ => ⟨by decide, by decide, '{', _, rfl, by decide⟩
  | .obj ((k, v) :: fs), h => by
      have hc' : cleanStr k = true ∧ cleanJson v = true ∧ cleanFields fs = true := by
        have := h
        rw [show cleanJson (.obj ((k, v) :: fs))
            = (cleanStr k && cleanJson v && cleanFields fs) from rfl,
          Bool.and_eq_true, Bool.and_eq_true] at this
        exact ⟨this.1.1, this.1.2, this.2⟩
      obtain ⟨hv1, hv2, hvh⟩ := dumpsGood_val v hc'.2.1
      obtain ⟨hf1, hf2, hfh⟩ := dumpsGood_fields fs hc'.2.2
      obtain ⟨hE1, hE2, _⟩ := entryChunkGood (dumpsCh v) hc'.1 hv1 hv2 hvh
      obtain ⟨hb1, hb2⟩ := seqBodyGood (dumpsFields fs) '}' hE1 hE2 hf1 hf2 hfh
        (by decide) (by decide) (by decide)
      refine ⟨?_, ?_, '{', _, rfl, by decide⟩
      · rw [show dumpsCh (.obj ((k, v) :: fs))
            = '{' :: (((renderStr k ++ (':' :: ' ' :: dumpsCh v)) ++ dumpsFields fs)
              ++ ['}']) from rfl,
          List.all_cons, Bool.and_eq_true]
        exact ⟨by decide, hb1⟩
      · rw [show dumpsCh (.obj ((k, v) :: fs))
            = '{' :: (((renderStr k ++ (':' :: ' ' :: dumpsCh v)) ++ dumpsFields fs)
              ++ ['}']) from rfl]
        apply goodPairs_cons_ofB hb2
        intro b _
        exact okPair_left (by decide) (by decide)

theorem dumpsGood_elems : ∀ xs : List Json, cleanElems xs = true →
    (dumpsElems xs).all goodChar = true ∧ goodPairs (dumpsElems xs) = true ∧
    (dumpsElems xs = [] ∨ ∃ t, dumpsElems xs = ',' :: t)
  | [], _ => ⟨rfl, rfl, Or.inl rfl⟩
  | y :: ys, h => by
      have hc' : cleanJson y = true ∧ cleanElems ys = true := by
        have := h
        rw [show cleanElems (y :: ys) = (cleanJson y && cleanElems ys) from rfl,
          Bool.and_eq_true] at this
        exact this
      obtain ⟨hy1, hy2, cy, ty, hcty, hcy⟩ := dumpsGood_val y hc'.1
      obtain ⟨hys1, hys2, hysh⟩ := dumpsGood_elems ys hc'.2
      refine ⟨?_, ?_, Or.inr ⟨_, rfl⟩⟩
      · rw [show dumpsElems (y :: ys) = ',' :: ' ' :: (dumpsCh y ++ dumpsElems ys) from rfl,
          List.all_cons, List.all_cons, List.all_append,
          show goodChar ',' = true from by decide, show goodChar ' ' = true from by decide,
          hy1, hys1]
        rfl
      · rw [show dumpsElems (y :: ys) = ',' :: ' ' :: (dumpsCh y ++ dumpsElems ys) from rfl]
        apply goodPairs_cons_ofB
        · apply goodPairs_cons_ofB
          · apply goodPairs_append _ hy2 hys2
            intro a b _ hb
            rcases hysh with hWe | ⟨t, hWt⟩
            · rw [hWe] at hb
              exact Option.noConfusion hb
            · rw [hWt, List.head?_cons] at hb
              injection hb with hb
              subst hb
              exact okPair_right (by decide) (by decide)
          · intro b hb
            rw [hcty, List.cons_append, List.head?_cons] at hb
            injection hb with hb
            subst hb
            have hcne : ¬(cy = ' ') := by
              intro he
              rw [he] at hcy
              exact absurd hcy (by decide)
            simp [hcne]
        · intro b hb
          rw [List.head?_cons] at hb
          injection hb with hb
          subst hb
          decide

theorem dumpsGood_fields : ∀ fs : List (String × Json), cleanFields fs = true →
    (dumpsFields fs).all goodChar = true ∧ goodPairs (dumpsFields fs) = true ∧
    (dumpsFields fs = [] ∨ ∃ t, dumpsFields fs = ',' :: t)
  | [], _ => ⟨rfl, rfl, Or.inl rfl⟩
  | (k, v) :: fs, h => by
      have hc' : cleanStr k = true ∧ cleanJson v = true ∧ cleanFields fs = true := by
        have := h
        rw [show cleanFields ((k, v) :: fs)
            = (cleanStr k && cleanJson v && cleanFields fs) from rfl,
          Bool.and_eq_true, Bool.and_eq_true] at this
        exact ⟨this.1.1, this.1.2, this.2⟩
      obtain ⟨hv1, hv2, hvh⟩ := dumpsGood_val v hc'.2.1
      obtain ⟨hf1, hf2, hfh⟩ := dumpsGood_fields fs hc'.2.2
      obtain ⟨hE1, hE2, tE, hEt⟩ := entryChunkGood (dumpsCh v) hc'.1 hv1 hv2 hvh
      refine ⟨?_, ?_, Or.inr ⟨_, rfl⟩⟩
      · rw [show dumpsFields ((k, v) :: fs)
            = ',' :: ' ' :: ((renderStr k ++ (':' :: ' ' :: dumpsCh v)) ++ dumpsFields fs)
            from rfl,
          List.all_cons, List.all_cons, List.all_append,
          show goodChar ',' = true from by decide, show goodChar ' ' = true from by decide,
          hE1, hf1]
        rfl
      · rw [show dumpsFields ((k, v) :: fs)
            = ',' :: ' ' :: ((renderStr k ++ (':' :: ' ' :: dumpsCh v)) ++ dumpsFields fs)
            from rfl]
        apply goodPairs_cons_ofB
        · apply goodPairs_cons_ofB
          · apply goodPairs_append _ hE2 hf2
            intro a b _ hb
            rcases hfh with hWe | ⟨t, hWt⟩
            · rw [hWe] at hb
              exact Option.noConfusion hb
            · rw [hWt, List.head?_cons] at hb
              injection hb with hb
              subst hb
              exact okPair_right (by decide) (by decide)
          · intro b hb
            rw [hEt, List.cons_append, List.head?_cons] at hb
            injection hb with hb
            subst hb
            decide
        · intro b hb
          rw [List.head?_cons] at hb
          injection hb with hb
          subst hb
          decide

end

/-! ### Identity of the cleanup passes on good text -/

theorem not_mem_of_all_goodChar {l : List Char} (h : l.all goodChar = true) {x : Char}
    (hx : goodChar x = false) : x ∉ l := by
  intro hm
  have := List.all_eq_true.mp h x hm
  rw [hx] at this
  exact Bool.noConfusion this

theorem replace2_id (a b : Char) (repl : List Char) : ∀ l : List Char, a ∉ l →
    replace2 a b repl l = l
  | [], _ => rfl
  | [_], _ => rfl
  | c :: d :: rest, h => by
      have hca : ¬(c = a) := fun he => h (he ▸ List.mem_cons_self c (d :: rest))
      show (if c = a ∧ d = b then repl ++ replace2 a b repl rest
        else c :: replace2 a b repl (d :: rest)) = c :: d :: rest
      rw [if_neg (fun hp => hca hp.1)]
      congr 1
      exact replace2_id a b repl (d :: rest) (fun hm => h (List.mem_cons_of_mem c hm))

theorem replace3_id (a b c : Char) (repl : List Char) : ∀ l : List Char, a ∉ l →
    replace3 a b c repl l = l
  | [], _ => rfl
  | [_], _ => rfl
  | [_, _], _ => rfl
  | x :: y :: z :: rest, h => by
      have hxa : ¬(x = a) := fun he => h (he ▸ List.mem_cons_self x (y :: z :: rest))
      show (if x = a ∧ y = b ∧ z = c then repl ++ replace3 a b c repl rest
        else x :: replace3 a b c repl (y :: z :: rest)) = x :: y :: z :: rest
      rw [if_neg (fun hp => hxa hp.1)]
      congr 1
      exact replace3_id a b c repl (y :: z :: rest) (fun hm => h (List.mem_cons_of_mem x hm))

theorem noTwoSpaces_tail {a : Char} {l : List Char} (h : noTwoSpaces (a :: l) = true) :
    noTwoSpaces l = true := by
  cases l with
  | nil => rfl
  | cons b bs =>
      have h' : (!(a = ' ' && b = ' ') && noTwoSpaces (b :: bs)) = true := h
      rw [Bool.and_eq_true] at h'
      exact h'.2

theorem collapseWsGo_id : ∀ (l : List Char) (prev : Bool),
    (∀ c ∈ l, isPySpace c = true → c = ' ') → noTwoSpaces l = true →
    (prev = true → ¬(l.head? = some ' ')) → collapseWsGo prev l = l
  | [], _, _, _, _ => rfl
  | c :: cs, prev, hall, hnts, hprev => by
      show (if isPySpace c then
          if prev then collapseWsGo true cs else ' ' :: collapseWsGo true cs
        else c :: collapseWsGo false cs) = c :: cs
      cases hc : isPySpace c with
      | false =>
          simp only [Bool.false_eq_true, if_false]
          congr 1
          exact collapseWsGo_id cs false
            (fun x hx => hall x (List.mem_cons_of_mem c hx))
            (noTwoSpaces_tail hnts) (fun hp => Bool.noConfusion hp)
      | true =>
          have hcsp : c = ' ' := hall c (List.mem_cons_self c cs) hc
          subst hcsp
          have hpf : prev = false := by
            cases hp : prev with
            | false => rfl
            | true => exact absurd rfl (hprev hp)
          subst hpf
          rw [if_pos rfl, if_neg (fun hp => Bool.noConfusion hp)]
          congr 1
          apply collapseWsGo_id cs true
            (fun x hx => hall x (List.mem_cons_of_mem ' ' hx))
            (noTwoSpaces_tail hnts)
          intro _
          cases cs with
          | nil => exact fun hh => Option.noConfusion hh
          | cons d ds =>
              have h' : (!(' ' = ' ' && d = ' ') && noTwoSpaces (d :: ds)) = true := hnts
              rw [Bool.and_eq_true] at h'
              intro hh
              rw [List.head?_cons] at hh
              injection hh with hh
              subst hh
              exact absurd h'.1 (by decide)

theorem collapseWs_id {l : List Char} (hall : ∀ c ∈ l, isPySpace c = true → c = ' ')
    (hnts : noTwoSpaces l = true) : collapseWs l = l :=
  collapseWsGo_id l false hall hnts (fun hp => Bool.noConfusion hp)

theorem pyStrip_id {l : List Char} (h1 : ∀ c, l.head? = some c → isPySpace c = false)
    (h2 : ∀ c, l.getLast? = some c → isPySpace c = false) : pyStrip l = l := by
  unfold pyStrip
  have hd : l.dropWhile isPySpace = l := by
    cases l with
    | nil => rfl
    | cons c cs =>
        rw [List.dropWhile_cons, h1 c rfl]
        simp
  rw [hd]
  have hd2 : l.reverse.dropWhile isPySpace = l.reverse := by
    cases hr : l.reverse with
    | nil => rfl
    | cons c cs =>
        have hlast : l.getLast? = some c := by
          rw [← List.head?_reverse, hr, List.head?_cons]
        rw [List.dropWhile_cons, h2 c hlast]
        simp
  rw [hd2, List.reverse_reverse]

theorem braceFixF_id : ∀ (fuel : Nat) (l : List Char), goodPairs l = true →
    braceFixF fuel l = l
  | 0, _, _ => rfl
  | _ + 1, [], _ => rfl
  | fuel + 1, c :: cs, h => by
      have hguard : ¬(c = '"' ∧ cs.head? = some '{') := by
        rintro ⟨rfl, hh⟩
        cases cs with
        | nil => exact Option.noConfusion hh
        | cons d ds =>
            rw [List.head?_cons] at hh
            injection hh with hh
            subst hh
            rw [goodPairs_cons2, Bool.and_eq_true, Bool.and_eq_true] at h
            exact absurd h.1.2 (by decide)
      show (if c = '"' ∧ cs.head? = some '{' then
          match findCloseQuote cs.tail with
          | some (a, b) => '{' :: (a ++ '}' :: braceFixF fuel b)
          | none => c :: braceFixF fuel cs
        else c :: braceFixF fuel cs) = c :: cs
      rw [if_neg hguard]
      congr 1
      exact braceFixF_id fuel cs (goodPairs_tailB h)

theorem braceFix_id {l : List Char} (h : goodPairs l = true) : braceFix l = l :=
  braceFixF_id l.length l h

/-! ### Serialized length bounds the parser fuel -/

mutual

theorem dumpsLen_val : ∀ v : Json, jsize v ≤ (dumpsCh v).length
  | .null => by decide
  | .bool true => by decide
  | .bool false => by decide
  | .num n => by
      cases n with
      | ofNat m =>
          have h1 := (natRepr_spec m).1
          have : 0 < (natRepr m).length := List.length_pos.mpr h1
          show jsize (.num (Int.ofNat m)) ≤ (natRepr m).length
          rw [show jsize (.num (Int.ofNat m)) = 1 from rfl]
          omega
      | negSucc m =>
          show jsize (.num (Int.negSucc m)) ≤ ('-' :: natRepr (m + 1)).length
          rw [show jsize (.num (Int.negSucc m)) = 1 from rfl, List.length_cons]
          omega
  | .str s => by
      show jsize (.str s) ≤ (renderStr s).length
      rw [show jsize (.str s) = 1 from rfl,
        show renderStr s = '"' :: (s.data.flatMap escapeChar ++ ['"']) from rfl,
        List.length_cons]
      omega
  | .arr [] => by decide
  | .arr (x :: xs) => by
      have ihx := dumpsLen_val x
      have ihxs := dumpsLen_elems xs
      show jsize (.arr (x :: xs))
        ≤ ('[' :: ((dumpsCh x ++ dumpsElems xs) ++ [']'])).length
      rw [show jsize (.arr (x :: xs)) = 1 + (1 + jsize x + esize xs) from rfl,
        List.length_cons, List.length_append, List.length_append]
      simp only [List.length_cons, List.length_nil]
      omega
  | .obj [] => by decide
  | .obj ((k, v) :: fs) => by
      have ihv := dumpsLen_val v
      have ihfs := dumpsLen_fields fs
      show jsize (.obj ((k, v) :: fs))
        ≤ ('{' :: (((renderStr k ++ (':' :: ' ' :: dumpsCh v)) ++ dumpsFields fs)
          ++ ['}'])).length
      rw [show jsize (.obj ((k, v) :: fs)) = 1 + (1 + jsize v + fsize fs) from rfl,
        List.length_cons, List.length_append, List.length_append, List.length_append]
      simp only [List.length_cons, List.length_nil]
      omega

theorem dumpsLen_elems : ∀ xs : List Json, esize xs ≤ (dumpsElems xs).length
  | [] => Nat.le_refl 0
  | y :: ys => by
      have ihy := dumpsLen_val y
      have ihys := dumpsLen_elems ys
      show esize (y :: ys) ≤ (',' :: ' ' :: (dumpsCh y ++ dumpsElems ys)).length
      rw [show esize (y :: ys) = 1 + jsize y + esize ys from rfl,
        List.length_cons, List.length_cons, List.length_append]
      omega

theorem dumpsLen_fields : ∀ fs : List (String × Json), fsize fs ≤ (dumpsFields fs).length
  | [] => Nat.le_refl 0
  | (k, v) :: fs => by
      have ihv := dumpsLen_val v
      have ihfs := dumpsLen_fields fs
      show fsize ((k, v) :: fs)
        ≤ (',' :: ' ' :: ((renderStr k ++ (':' :: ' ' :: dumpsCh v)) ++ dumpsFields fs)).length
      rw [show fsize ((k, v) :: fs) = 1 + jsize v + fsize fs from rfl,
        List.length_cons, List.length_cons, List.length_append, List.length_append]
      simp only [List.length_cons]
      omega

end

/-! ### The cleanup pipeline is the identity on clean serializations -/

theorem toJsonObjectFormatted_clean {ph : String} {b : Json} (hc : cleanJson b = true)
    (hw : wfB b = true) (hph : noPhTopB ph b = true) :
    toJsonObjectFormatted ph b = .ok b := by
  obtain ⟨hall, hgp, c0, t0, hhead, hps⟩ := dumpsGood_val b hc
  have hnb : '\\' ∉ dumpsCh b := not_mem_of_all_goodChar hall (by decide)
  have hna : 'â' ∉ dumpsCh b := not_mem_of_all_goodChar hall (by decide)
  have hallsp : ∀ c ∈ dumpsCh b, isPySpace c = true → c = ' ' :=
    fun c hm hs => goodChar_space (List.all_eq_true.mp hall c hm) hs
  have hhead' : ∀ c, (dumpsCh b).head? = some c → isPySpace c = false := by
    intro c hcc
    rw [hhead, List.head?_cons] at hcc
    injection hcc with hcc
    subst hcc
    exact hps
  have hlast : ∀ c, (dumpsCh b).getLast? = some c → isPySpace c = false := by
    cases b with
    | obj fs =>
        cases fs with
        | nil =>
            intro c hcl
            rw [show (dumpsCh (.obj ([] : List (String × Json)))).getLast? = some '}'
              from rfl] at hcl
            injection hcl with hcl
            subst hcl
            decide
        | cons f fs' =>
            obtain ⟨k, v⟩ := f
            intro c hcl
            rw [show dumpsCh (.obj ((k, v) :: fs'))
                = ('{' :: ((renderStr k ++ (':' :: ' ' :: dumpsCh v)) ++ dumpsFields fs'))
                  ++ ['}'] from by rw [List.cons_append]; rfl,
              List.getLast?_concat] at hcl
            injection hcl with hcl
            subst hcl
            decide
    | arr xs =>
        cases xs with
        | nil =>
            intro c hcl
            rw [show (dumpsCh (.arr ([] : List Json))).getLast? = some ']' from rfl] at hcl
            injection hcl with hcl
            subst hcl
            decide
        | cons x xs' =>
            intro c hcl
            rw [show dumpsCh (.arr (x :: xs'))
                = ('[' :: (dumpsCh x ++ dumpsElems xs')) ++ [']']
                  from by rw [List.cons_append]; rfl,
              List.getLast?_concat] at hcl
            injection hcl with hcl
            subst hcl
            decide
    | null => exact Bool.noConfusion hph
    | bool tf => cases tf <;> exact Bool.noConfusion hph
    | num n => exact Bool.noConfusion hph
    | str s => exact Bool.noConfusion hph
  have e1 : replace2 '\\' 'n' [] (dumpsCh b) = dumpsCh b := replace2_id _ _ _ _ hnb
  have e2 : replace2 '\\' '"' ['"'] (dumpsCh b) = dumpsCh b := replace2_id _ _ _ _ hnb
  have e3 : replace3 'â' '€' '”' ['â', '€', '“'] (dumpsCh b) = dumpsCh b :=
    replace3_id _ _ _ _ _ hna
  have e4 : collapseWs (dumpsCh b) = dumpsCh b :=
    collapseWs_id hallsp (goodPairs_noTwoSpaces _ hgp)
  have e5 : pyStrip (dumpsCh b) = dumpsCh b := pyStrip_id hhead' hlast
  have e6 : braceFix (dumpsCh b) = dumpsCh b := braceFix_id hgp
  have e7 : loadsCh (dumpsCh b) = some b := by
    have hrt := rt_val b ((dumpsCh b).length + 1) []
      (Nat.le_trans (dumpsLen_val b) (Nat.le_succ _)) hc hw rfl
    rw [List.append_nil] at hrt
    unfold loadsCh
    rw [hrt]
    rfl
  unfold toJsonObjectFormatted
  dsimp only
  rw [e1, e2, e3, e4, e5, e6, e7]
  show (match pyContains ph b with
    | none => Except.error PyError.typeError
    | some false => Except.ok b
    | some true =>
        match pyIndexStr ph b with
        | some v => Except.ok v
        | none => Except.error PyError.typeError) = Except.ok b
  cases b with
  | obj fs =>
      have hph' : (objKeys fs).contains ph = false := by
        have := hph
        rw [show noPhTopB ph (.obj fs) = !(objKeys fs).contains ph from rfl] at this
        simpa using this
      rw [show pyContains ph (.obj fs) = some ((objKeys fs).contains ph) from rfl, hph']
  | arr xs =>
      have hph' : xs.contains (.str ph) = false := by
        have := hph
        rw [show noPhTopB ph (.arr xs) = !xs.contains (.str ph) from rfl] at this
        simpa using this
      rw [show pyContains ph (.arr xs) = some (xs.contains (.str ph)) from rfl, hph']
  | null => exact Bool.noConfusion hph
  | bool tf => cases tf <;> exact Bool.noConfusion hph
  | num n => exact Bool.noConfusion hph
  | str s => exact Bool.noConfusion hph

/-! ### Whitespace-prefix tolerance of the parser -/

theorem skipWs_ws_append : ∀ (w : List Char), (∀ c ∈ w, isJsonWs c = true) →
    ∀ cs : List Char, skipWs (w ++ cs) = skipWs cs
  | [], _, _ => rfl
  | c :: w', h, cs => by
      show (if isJsonWs c then skipWs (w' ++ cs) else c :: (w' ++ cs)) = skipWs cs
      rw [if_pos (h c (List.mem_cons_self c w'))]
      exact skipWs_ws_append w' (fun x hx => h x (List.mem_cons_of_mem c hx)) cs

theorem parseVal_ws (fuel : Nat) (w cs : List Char) (h : ∀ c ∈ w, isJsonWs c = true) :
    parseVal fuel (w ++ cs) = parseVal fuel cs := by
  cases fuel with
  | zero => rfl
  | succ f =>
      show (match skipWs (w ++ cs) with
        | 'n' :: 'u' :: 'l' :: 'l' :: r => some (Json.null, r)
        | 't' :: 'r' :: 'u' :: 'e' :: r => some (Json.bool true, r)
        | 'f' :: 'a' :: 'l' :: 's' :: 'e' :: r => some (Json.bool false, r)
        | '"' :: r =>
            match parseStringBody [] r with
            | some (s, r') => some (.str s, r')
            | none => none
        | '[' :: r =>
            match skipWs r with
            | ']' :: r' => some (.arr [], r')
            | r' =>
                match parseElems f r' with
                | some (es, r'') => some (.arr es, r'')
                | none => none
        | '{' :: r =>
            match skipWs r with
            | '}' :: r' => some (.obj [], r')
            | r' =>
                match parseFields f r' with
                | some (ps, r'') => some (.obj (buildObj ps), r'')
                | none => none
        | c :: rest =>
            if c = '-' ∨ isDigitCh c then
              match parseNum (c :: rest) with
              | some (n, r') => some (.num n, r')
              | none => none
            else none
        | [] => none) = parseVal (f + 1) cs
      rw [skipWs_ws_append w h cs]
      rfl

theorem parseElems_ws (fuel : Nat) (w cs : List Char) (h : ∀ c ∈ w, isJsonWs c = true) :
    parseElems (fuel + 1) (w ++ cs) = parseElems (fuel + 1) cs := by
  rw [parseElems_succ, parseElems_succ, parseVal_ws fuel w cs h]

theorem parseFields_ws (fuel : Nat) (w cs : List Char) (h : ∀ c ∈ w, isJsonWs c = true) :
    parseFields (fuel + 1) (w ++ cs) = parseFields (fuel + 1) cs := by
  show (match skipWs (w ++ cs) with
    | '"' :: r =>
        match parseStringBody [] r with
        | none => none
        | some (k, r1) =>
            match skipWs r1 with
            | ':' :: r2 =>
                match parseVal fuel r2 with
                | none => none
                | some (v, r3) =>
                    match skipWs r3 with
                    | ',' :: r4 =>
                        match parseFields fuel r4 with
                        | some (ps, r5) => some ((k, v) :: ps, r5)
                        | none => none
                    | '}' :: r4 => some ([(k, v)], r4)
                    | _ => none
            | _ => none
    | _ => none) = parseFields (fuel + 1) cs
  rw [skipWs_ws_append w h cs]
  rfl

theorem nlIndent_ws (w lvl : Nat) : ∀ c ∈ nlIndent w lvl, isJsonWs c = true := by
  intro c hc
  rw [nlIndent] at hc
  rcases List.mem_cons.mp hc with h | h
  · subst h
    decide
  · have := List.eq_of_mem_replicate h
    subst this
    decide

theorem nonDigitHead_nlIndent (w lvl : Nat) (X : List Char) :
    nonDigitHead (nlIndent w lvl ++ X) = true := rfl

/-! ### Round trip of the indented serialization -/

theorem dumpsInd_head : ∀ (w lvl : Nat) (v : Json), ∃ c t,
    dumpsInd w lvl v = c :: t ∧ isJsonWs c = false ∧
    ¬(c = ']') ∧ ¬(c = '}') ∧ ¬(c = ',')
  | _, _, .null => ⟨'n', _, rfl, by decide, by decide, by decide, by decide⟩
  | _, _, .bool true => ⟨'t', _, rfl, by decide, by decide, by decide, by decide⟩
  | _, _, .bool false => ⟨'f', _, rfl, by decide, by decide, by decide, by decide⟩
  | _, _, .str s => ⟨'"', _, rfl, by decide, by decide, by decide, by decide⟩
  | _, _, .arr [] => ⟨'[', _, rfl, by decide, by decide, by decide, by decide⟩
  | w, lvl, .arr (x :: xs) => ⟨'[', _, rfl, by decide, by decide, by decide, by decide⟩
  | _, _, .obj [] => ⟨'{', _, rfl, by decide, by decide, by decide, by decide⟩
  | w, lvl, .obj (f :: fs) => by
      obtain ⟨k, v⟩ := f
      exact ⟨'{', _, rfl, by decide, by decide, by decide, by decide⟩
  | _, _, .num n => by
      cases n with
      | ofNat m =>
          obtain ⟨c, t, hct, hd⟩ := natRepr_head m
          exact ⟨c, t, hct, isDigitCh_not_ws hd, isDigitCh_ne hd (by decide),
            isDigitCh_ne hd (by decide), isDigitCh_ne hd (by decide)⟩
      | negSucc m =>
          exact ⟨'-', _, rfl, by decide, by decide, by decide, by decide⟩

mutual

theorem dumpsIndLen_val : ∀ (w lvl : Nat) (v : Json), jsize v ≤ (dumpsInd w lvl v).length
  | _, _, .null => dumpsLen_val .null
  | _, _, .bool true => dumpsLen_val (.bool true)
  | _, _, .bool false => dumpsLen_val (.bool false)
  | _, _, .num n => dumpsLen_val (.num n)
  | _, _, .str s => dumpsLen_val (.str s)
  | _, _, .arr [] => dumpsLen_val (.arr [])
  | w, lvl, .arr (x :: xs) => by
      have ihx := dumpsIndLen_val w (lvl + 1) x
      have ihxs := dumpsIndLen_elems w (lvl + 1) xs
      show jsize (.arr (x :: xs))
        ≤ ('[' :: ((((nlIndent w (lvl + 1) ++ dumpsInd w (lvl + 1) x)
            ++ dumpsIndElems w (lvl + 1) xs) ++ nlIndent w lvl) ++ [']'])).length
      rw [show jsize (.arr (x :: xs)) = 1 + (1 + jsize x + esize xs) from rfl]
      simp only [List.length_cons, List.length_append, List.length_nil]
      omega
  | _, _, .obj [] => dumpsLen_val (.obj [])
  | w, lvl, .obj ((k, v) :: fs) => by
      have ihv := dumpsIndLen_val w (lvl + 1) v
      have ihfs := dumpsIndLen_fields w (lvl + 1) fs
      show jsize (.obj ((k, v) :: fs))
        ≤ ('{' :: (((((nlIndent w (lvl + 1) ++ renderStr k)
            ++ (':' :: ' ' :: dumpsInd w (lvl + 1) v))
            ++ dumpsIndFields w (lvl + 1) fs) ++ nlIndent w lvl) ++ ['}'])).length
      rw [show jsize (.obj ((k, v) :: fs)) = 1 + (1 + jsize v + fsize fs) from rfl]
      simp only [List.length_cons, List.length_append, List.length_nil]
      omega

theorem dumpsIndLen_elems : ∀ (w lvl : Nat) (xs : List Json),
    esize xs ≤ (dumpsIndElems w lvl xs).length
  | _, _, [] => Nat.le_refl 0
  | w, lvl, y :: ys => by
      have ihy := dumpsIndLen_val w lvl y
      have ihys := dumpsIndLen_elems w lvl ys
      show esize (y :: ys)
        ≤ (',' :: ((nlIndent w lvl ++ dumpsInd w lvl y) ++ dumpsIndElems w lvl ys)).length
      rw [show esize (y :: ys) = 1 + jsize y + esize ys from rfl]
      simp only [List.length_cons, List.length_append, List.length_nil]
      omega

theorem dumpsIndLen_fields : ∀ (w lvl : Nat) (fs : List (String × Json)),
    fsize fs ≤ (dumpsIndFields w lvl fs).length
  | _, _, [] => Nat.le_refl 0
  | w, lvl, (k, v) :: fs => by
      have ihv := dumpsIndLen_val w lvl v
      have ihfs := dumpsIndLen_fields w lvl fs
      show fsize ((k, v) :: fs)
        ≤ (',' :: (((nlIndent w lvl ++ renderStr k) ++ (':' :: ' ' :: dumpsInd w lvl v))
            ++ dumpsIndFields w lvl fs)).length
      rw [show fsize ((k, v) :: fs) = 1 + jsize v + fsize fs from rfl]
      simp only [List.length_cons, List.length_append, List.length_nil]
      omega

end

theorem dumpsIndElems_nonDigit (w lvl lvl' : Nat) (xs : List Json) (rest : List Char) :
    nonDigitHead (dumpsIndElems w lvl xs ++ (nlIndent w lvl' ++ ']' :: rest)) = true := by
  cases xs with
  | nil => rfl
  | cons y ys => rfl

theorem dumpsIndFields_nonDigit (w lvl lvl' : Nat) (fs : List (String × Json))
    (rest : List Char) :
    nonDigitHead (dumpsIndFields w lvl fs ++ (nlIndent w lvl' ++ '}' :: rest)) = true := by
  cases fs with
  | nil => rfl
  | cons f fs' =>
      obtain ⟨k, v⟩ := f
      rfl

mutual

theorem rti_val : ∀ (v : Json) (w lvl fuel : Nat) (rest : List Char), jsize v ≤ fuel →
    cleanJson v = true → wfB v = true → nonDigitHead rest = true →
    parseVal fuel (dumpsInd w lvl v ++ rest) = some (v, rest)
  | .null, _, _, fuel, rest => fun hf hc hw hr => rt_val .null fuel rest hf hc hw hr
  | .bool true, _, _, fuel, rest => fun hf hc hw hr => rt_val (.bool true) fuel rest hf hc hw hr
  | .bool false, _, _, fuel, rest => fun hf hc hw hr =>
      rt_val (.bool false) fuel rest hf hc hw hr
  | .num n, _, _, fuel, rest => fun hf hc hw hr => rt_val (.num n) fuel rest hf hc hw hr
  | .str s, _, _, fuel, rest => fun hf hc hw hr => rt_val (.str s) fuel rest hf hc hw hr
  | .arr [], _, _, fuel, rest => fun hf hc hw hr => rt_val (.arr []) fuel rest hf hc hw hr
  | .obj [], _, _, fuel, rest => fun hf hc hw hr => rt_val (.obj []) fuel rest hf hc hw hr
  | .arr (x :: xs), w, lvl, fuel, rest => fun hf hc hw hr => by
      cases fuel with
      | zero => exact absurd hf (by simp [jsize, esize])
      | succ f =>
          have hc' : cleanJson x = true ∧ cleanElems xs = true := by
            have := hc
            rw [show cleanJson (.arr (x :: xs)) = (cleanJson x && cleanElems xs) from rfl,
              Bool.and_eq_true] at this
            exact this
          have hw' : wfB x = true ∧ wfElemsB xs = true := by
            have := hw
            rw [show wfB (.arr (x :: xs)) = (wfB x && wfElemsB xs) from rfl,
              Bool.and_eq_true] at this
            exact this
          show parseVal (f + 1)
            (('[' :: ((((nlIndent w (lvl + 1) ++ dumpsInd w (lvl + 1) x)
              ++ dumpsIndElems w (lvl + 1) xs) ++ nlIndent w lvl) ++ [']'])) ++ rest) = _
          rw [List.cons_append, parseVal_lbrack]
          obtain ⟨c, t, hct, hws, hrb, _, _⟩ := dumpsInd_head w (lvl + 1) x
          have hbody : ((((nlIndent w (lvl + 1) ++ dumpsInd w (lvl + 1) x)
              ++ dumpsIndElems w (lvl + 1) xs) ++ nlIndent w lvl) ++ [']']) ++ rest
              = nlIndent w (lvl + 1) ++ (dumpsInd w (lvl + 1) x
                ++ (dumpsIndElems w (lvl + 1) xs ++ (nlIndent w lvl ++ ']' :: rest))) := by
            simp
          rw [hbody, skipWs_ws_append _ (nlIndent_ws w (lvl + 1)) _]
          have hbody2 : dumpsInd w (lvl + 1) x
              ++ (dumpsIndElems w (lvl + 1) xs ++ (nlIndent w lvl ++ ']' :: rest))
              = c :: (t ++ (dumpsIndElems w (lvl + 1) xs ++ (nlIndent w lvl ++ ']' :: rest))) := by
            rw [hct]
            rfl
          rw [hbody2, skipWs_not_ws _ (by rw [hws]; exact Bool.noConfusion)]
          have helems : parseElems f
              (c :: (t ++ (dumpsIndElems w (lvl + 1) xs ++ (nlIndent w lvl ++ ']' :: rest))))
              = some (x :: xs, rest) := by
            rw [show c :: (t ++ (dumpsIndElems w (lvl + 1) xs ++ (nlIndent w lvl ++ ']' :: rest)))
              = dumpsInd w (lvl + 1) x
                ++ (dumpsIndElems w (lvl + 1) xs ++ (nlIndent w lvl ++ ']' :: rest))
              by rw [hct]; rfl]
            exact rti_elems x xs w (lvl + 1) lvl f rest
              (by simp [jsize, esize] at hf ⊢; omega) hc'.1 hc'.2 hw'.1 hw'.2
          split
          · rename_i heq
            injection heq with ha _
            exact absurd ha hrb
          · rename_i hne heq
            rw [helems]
  | .obj ((k, v) :: fs), w, lvl, fuel, rest => fun hf hc hw hr => by
      cases fuel with
      | zero => exact absurd hf (by simp [jsize, fsize])
      | succ f =>
          have hc' : cleanStr k = true ∧ cleanJson v = true ∧ cleanFields fs = true := by
            have := hc
            rw [show cleanJson (.obj ((k, v) :: fs))
                = (cleanStr k && cleanJson v && cleanFields fs) from rfl,
              Bool.and_eq_true, Bool.and_eq_true] at this
            exact ⟨this.1.1, this.1.2, this.2⟩
          have hw' : wfB v = true ∧ wfFieldsB fs = true ∧
              (((k, v) :: fs).map Prod.fst).Nodup := by
            have := hw
            rw [wfB_obj, Bool.and_eq_true, wfFieldsB_cons, Bool.and_eq_true,
              Bool.and_eq_true] at this
            exact ⟨this.1.1.2, this.1.2, (nodupKeysB_iff _).mp this.2⟩
          have hkclean : ∀ c ∈ k.data, cleanChar c = true :=
            fun c hcm => List.all_eq_true.mp (cleanStr_parts hc'.1).1 c hcm
          show parseVal (f + 1)
            (('{' :: (((((nlIndent w (lvl + 1) ++ renderStr k)
              ++ (':' :: ' ' :: dumpsInd w (lvl + 1) v))
              ++ dumpsIndFields w (lvl + 1) fs) ++ nlIndent w lvl) ++ ['}'])) ++ rest) = _
          rw [List.cons_append, parseVal_lbrace]
          have hbody : (((((nlIndent w (lvl + 1) ++ renderStr k)
              ++ (':' :: ' ' :: dumpsInd w (lvl + 1) v))
              ++ dumpsIndFields w (lvl + 1) fs) ++ nlIndent w lvl) ++ ['}']) ++ rest
              = nlIndent w (lvl + 1) ++ (renderStr k ++ (':' :: ' ' ::
                (dumpsInd w (lvl + 1) v ++ (dumpsIndFields w (lvl + 1) fs
                  ++ (nlIndent w lvl ++ '}' :: rest))))) := by
            simp
          rw [hbody, skipWs_ws_append _ (nlIndent_ws w (lvl + 1)) _]
          have hquote : renderStr k ++ (':' :: ' ' ::
              (dumpsInd w (lvl + 1) v ++ (dumpsIndFields w (lvl + 1) fs
                ++ (nlIndent w lvl ++ '}' :: rest))))
              = '"' :: (k.data ++ ('"' :: (':' :: ' ' ::
                (dumpsInd w (lvl + 1) v ++ (dumpsIndFields w (lvl + 1) fs
                  ++ (nlIndent w lvl ++ '}' :: rest)))))) := by
            rw [renderStr_clean hkclean]
            simp
          rw [hquote, skipWs_not_ws _ (by decide)]
          have hfields := rti_fields k v fs w (lvl + 1) lvl f rest
            (by simp [jsize, fsize] at hf ⊢; omega) hc'.1 hc'.2.1 hc'.2.2 hw'.1 hw'.2.1
          split
          · rename_i heq
            injection heq with ha _
            exact absurd ha (by decide)
          · rename_i hne2 heq2
            rw [show parseFields f
                ('"' :: (k.data ++ ('"' :: (':' :: ' ' ::
                  (dumpsInd w (lvl + 1) v ++ (dumpsIndFields w (lvl + 1) fs
                    ++ (nlIndent w lvl ++ '}' :: rest)))))))
              = some ((k, v) :: fs, rest) from by
                rw [show ('"' :: (k.data ++ ('"' :: (':' :: ' ' ::
                    (dumpsInd w (lvl + 1) v ++ (dumpsIndFields w (lvl + 1) fs
                      ++ (nlIndent w lvl ++ '}' :: rest)))))))
                  = renderStr k ++ (':' :: ' ' ::
                    (dumpsInd w (lvl + 1) v ++ (dumpsIndFields w (lvl + 1) fs
                      ++ (nlIndent w lvl ++ '}' :: rest)))) from by
                    rw [renderStr_clean hkclean]; simp]
                exact hfields]
            show some (Json.obj (buildObj ((k, v) :: fs)), rest)
              = some (Json.obj ((k, v) :: fs), rest)
            rw [buildObj_nodup hw'.2.2]
termination_by v w lvl fuel rest => sizeOf v
decreasing_by
  all_goals simp_wf
  all_goals omega

theorem rti_elems : ∀ (x : Json) (xs : List Json) (w lvl lvl' fuel : Nat) (rest : List Char),
    1 + jsize x + esize xs ≤ fuel → cleanJson x = true → cleanElems xs = true →
    wfB x = true → wfElemsB xs = true →
    parseElems fuel (dumpsInd w lvl x
      ++ (dumpsIndElems w lvl xs ++ (nlIndent w lvl' ++ ']' :: rest)))
      = some (x :: xs, rest)
  | x, xs, w, lvl, lvl', fuel, rest => fun hf hcx hcxs hwx hwxs => by
      cases fuel with
      | zero => omega
      | succ f =>
          rw [parseElems_succ,
            rti_val x w lvl f (dumpsIndElems w lvl xs ++ (nlIndent w lvl' ++ ']' :: rest))
              (by omega) hcx hwx (dumpsIndElems_nonDigit w lvl lvl' xs rest)]
          cases xs with
          | nil =>
              show (match skipWs (dumpsIndElems w lvl ([] : List Json)
                  ++ (nlIndent w lvl' ++ ']' :: rest)) with
                | ',' :: r' =>
                    match parseElems f r' with
                    | some (vs, r'') => some (x :: vs, r'')
                    | none => none
                | ']' :: r' => some ([x], r')
                | _ => none) = some ([x], rest)
              rw [show dumpsIndElems w lvl ([] : List Json)
                  ++ (nlIndent w lvl' ++ ']' :: rest)
                  = nlIndent w lvl' ++ ']' :: rest from rfl,
                skipWs_ws_append _ (nlIndent_ws w lvl') _,
                skipWs_not_ws _ (by decide)]
              rfl
          | cons y ys =>
              have hc' : cleanJson y = true ∧ cleanElems ys = true := by
                have := hcxs
                rw [show cleanElems (y :: ys) = (cleanJson y && cleanElems ys) from rfl,
                  Bool.and_eq_true] at this
                exact this
              have hw' : wfB y = true ∧ wfElemsB ys = true := by
                have := hwxs
                rw [show wfElemsB (y :: ys) = (wfB y && wfElemsB ys) from rfl,
                  Bool.and_eq_true] at this
                exact this
              show (match skipWs ((',' :: ((nlIndent w lvl ++ dumpsInd w lvl y)
                  ++ dumpsIndElems w lvl ys)) ++ (nlIndent w lvl' ++ ']' :: rest)) with
                | ',' :: r' =>
                    match parseElems f r' with
                    | some (vs, r'') => some (x :: vs, r'')
                    | none => none
                | ']' :: r' => some ([x], r')
                | _ => none) = some (x :: y :: ys, rest)
              rw [show ((',' :: ((nlIndent w lvl ++ dumpsInd w lvl y)
                  ++ dumpsIndElems w lvl ys)) ++ (nlIndent w lvl' ++ ']' :: rest))
                = ',' :: (nlIndent w lvl ++ (dumpsInd w lvl y
                  ++ (dumpsIndElems w lvl ys ++ (nlIndent w lvl' ++ ']' :: rest))))
                from by simp]
              rw [skipWs_not_ws _ (by decide)]
              have hfle : 1 + jsize y + esize ys ≤ f := by
                simp [esize] at hf
                omega
              cases f with
              | zero => omega
              | succ f2 =>
                  show (match parseElems (f2 + 1)
                      (nlIndent w lvl ++ (dumpsInd w lvl y
                        ++ (dumpsIndElems w lvl ys ++ (nlIndent w lvl' ++ ']' :: rest)))) with
                    | some (vs, r'') => some (x :: vs, r'')
                    | none => none) = some (x :: y :: ys, rest)
                  rw [parseElems_ws f2 _ _ (nlIndent_ws w lvl),
                    rti_elems y ys w lvl lvl' (f2 + 1) rest hfle hc'.1 hc'.2 hw'.1 hw'.2]
termination_by x xs w lvl lvl' fuel rest => 1 + sizeOf x + sizeOf xs
decreasing_by
  all_goals simp_wf
  all_goals omega

theorem rti_fields : ∀ (k : String) (v : Json) (fs : List (String × Json))
    (w lvl lvl' fuel : Nat) (rest : List Char),
    1 + jsize v + fsize fs ≤ fuel → cleanStr k = true →
    cleanJson v = true → cleanFields fs = true → wfB v = true → wfFieldsB fs = true →
    parseFields fuel (renderStr k ++ (':' :: ' ' ::
      (dumpsInd w lvl v ++ (dumpsIndFields w lvl fs ++ (nlIndent w lvl' ++ '}' :: rest)))))
      = some ((k, v) :: fs, rest)
  | k, v, fs, w, lvl, lvl', fuel, rest => fun hf hck hcv hcfs hwv hwfs => by
      cases fuel with
      | zero =>
          have := jsize_pos v
          omega
      | succ f =>
          have hkclean : ∀ c ∈ k.data, cleanChar c = true :=
            fun c hcm => List.all_eq_true.mp (cleanStr_parts hck).1 c hcm
          rw [parseFields_entry f k
            (dumpsInd w lvl v ++ (dumpsIndFields w lvl fs ++ (nlIndent w lvl' ++ '}' :: rest)))
            hkclean]
          cases f with
          | zero =>
              have := jsize_pos v
              omega
          | succ f2 =>
              rw [parseVal_cons_space,
                rti_val v w lvl (f2 + 1)
                  (dumpsIndFields w lvl fs ++ (nlIndent w lvl' ++ '}' :: rest))
                  (by omega) hcv hwv (dumpsIndFields_nonDigit w lvl lvl' fs rest)]
              show (match skipWs (dumpsIndFields w lvl fs
                  ++ (nlIndent w lvl' ++ '}' :: rest)) with
                | ',' :: r4 =>
                    match parseFields (f2 + 1) r4 with
                    | some (ps, r5) => some ((k, v) :: ps, r5)
                    | none => none
                | '}' :: r4 => some ([(k, v)], r4)
                | _ => none) = some ((k, v) :: fs, rest)
              cases fs with
              | nil =>
                  rw [show dumpsIndFields w lvl ([] : List (String × Json))
                      ++ (nlIndent w lvl' ++ '}' :: rest)
                      = nlIndent w lvl' ++ '}' :: rest from rfl,
                    skipWs_ws_append _ (nlIndent_ws w lvl') _,
                    skipWs_not_ws _ (by decide)]
                  rfl
              | cons e fs2 =>
                  obtain ⟨k2, v2⟩ := e
                  have hc' : cleanStr k2 = true ∧ cleanJson v2 = true ∧
                      cleanFields fs2 = true := by
                    have := hcfs
                    rw [show cleanFields ((k2, v2) :: fs2)
                      = (cleanStr k2 && cleanJson v2 && cleanFields fs2) from rfl,
                      Bool.and_eq_true, Bool.and_eq_true] at this
                    exact ⟨this.1.1, this.1.2, this.2⟩
                  have hw' : wfB v2 = true ∧ wfFieldsB fs2 = true := by
                    have := hwfs
                    rw [wfFieldsB_cons, Bool.and_eq_true, Bool.and_eq_true] at this
                    exact ⟨this.1.2, this.2⟩
                  rw [show (dumpsIndFields w lvl ((k2, v2) :: fs2)
                      ++ (nlIndent w lvl' ++ '}' :: rest))
                    = ',' :: (nlIndent w lvl ++ (renderStr k2 ++ (':' :: ' ' ::
                        (dumpsInd w lvl v2 ++ (dumpsIndFields w lvl fs2
                          ++ (nlIndent w lvl' ++ '}' :: rest))))))
                    from by
                      show ((',' :: ((nlIndent w lvl ++ renderStr k2)
                        ++ (':' :: ' ' :: dumpsInd w lvl v2)
                        ++ dumpsIndFields w lvl fs2))
                        ++ (nlIndent w lvl' ++ '}' :: rest)) = _
                      simp]
                  rw [skipWs_not_ws _ (by decide)]
                  have hfle : 1 + jsize v2 + fsize fs2 ≤ f2 + 1 := by
                    have h1 := jsize_pos v
                    have h2 : fsize ((k2, v2) :: fs2) = 1 + jsize v2 + fsize fs2 := rfl
                    omega
                  have hrec := rti_fields k2 v2 fs2 w lvl lvl' (f2 + 1) rest hfle
                    hc'.1 hc'.2.1 hc'.2.2 hw'.1 hw'.2
                  show (match parseFields (f2 + 1)
                      (nlIndent w lvl ++ (renderStr k2 ++ (':' :: ' ' ::
                        (dumpsInd w lvl v2 ++ (dumpsIndFields w lvl fs2
                          ++ (nlIndent w lvl' ++ '}' :: rest)))))) with
                    | some (ps, r5) => some ((k, v) :: ps, r5)
                    | none => none) = some ((k, v) :: (k2, v2) :: fs2, rest)
                  rw [parseFields_ws f2 _ _ (nlIndent_ws w lvl), hrec]
termination_by k v fs w lvl lvl' fuel rest => 1 + sizeOf v + sizeOf fs
decreasing_by
  all_goals simp_wf
  all_goals omega

end

/-! ### One traverse pass is a no-op when every array is within budget -/

mutual

theorem traverse_noop : ∀ (nt : String → Nat) (mt : Nat) (ph : String)
    (chain : List String) (j root : Json) (m : List (String × Json)),
    arrsLeB nt mt j = true → jsonTraverse nt mt ph chain j root m = some (root, m)
  | nt, mt, ph, chain, .obj fs, root, m => fun h =>
      traverseFields_noop nt mt ph chain fs root m h
  | nt, mt, ph, chain, .arr xs, root, m => fun h => by
      have h' : decide (nt (toJsonString none (.arr xs)) ≤ mt) = true := by
        have := h
        rw [show arrsLeB nt mt (.arr xs)
            = (decide (nt (toJsonString none (.arr xs)) ≤ mt) && arrsLeElems nt mt xs)
            from rfl, Bool.and_eq_true] at this
        exact this.1
      have hle := of_decide_eq_true h'
      show (if mt < nt (toJsonString none (.arr xs)) then
          match updateValue (stringBuilderGet "/" chain) (.str ph) root with
          | some root' => some (root', objInsert (stringBuilderGet "/" chain) (.arr xs) m)
          | none => none
        else some (root, m)) = some (root, m)
      rw [if_neg (Nat.not_lt.mpr hle)]
  | _, _, _, _, .null, root, m => fun _ => rfl
  | _, _, _, _, .bool true, root, m => fun _ => rfl
  | _, _, _, _, .bool false, root, m => fun _ => rfl
  | _, _, _, _, .num n, root, m => fun _ => rfl
  | _, _, _, _, .str s, root, m => fun _ => rfl

theorem traverseFields_noop : ∀ (nt : String → Nat) (mt : Nat) (ph : String)
    (chain : List String) (fs : List (String × Json)) (root : Json)
    (m : List (String × Json)), arrsLeFields nt mt fs = true →
    jsonTraverseFields nt mt ph chain fs root m = some (root, m)
  | _, _, _, _, [], _, _ => fun _ => rfl
  | nt, mt, ph, chain, (k, v) :: fs, root, m => fun h => by
      have h' : arrsLeB nt mt v = true ∧ arrsLeFields nt mt fs = true := by
        have := h
        rw [show arrsLeFields nt mt ((k, v) :: fs)
            = (arrsLeB nt mt v && arrsLeFields nt mt fs) from rfl,
          Bool.and_eq_true] at this
        exact this
      show (match jsonTraverse nt mt ph (chain ++ [k]) v root m with
        | some (r1, m1) => jsonTraverseFields nt mt ph chain fs r1 m1
        | none => none) = some (root, m)
      rw [traverse_noop nt mt ph (chain ++ [k]) v root m h'.1]
      exact traverseFields_noop nt mt ph chain fs root m h'.2

end

/-- When nothing is extracted, the planner emits exactly the root unit. -/
theorem createInputList_noop {nt : String → Nat} {mt : Nat} {ph : String}
    {fs : List (String × Json)} (h : arrsLeB nt mt (.obj fs) = true) :
    createInputList nt mt ph (.obj fs) = some [prepareTuple nt (.obj fs) "/" 0] := by
  unfold createInputList
  dsimp only
  rw [show jsonOpsInit ph (.obj fs) = .obj fs from rfl,
    traverse_noop nt mt ph [] (.obj fs) (.obj fs) [] h]
  rfl

/-- Recovery of a root-only result map whose root text is the document's
indent-4 serialization. -/
theorem jsonRecoverRun_root_only {ph : String} {fs : List (String × Json)}
    (hwf : wfB (.obj fs) = true) (hclean : cleanJson (.obj fs) = true)
    (hph : noPhTopB ph (.obj fs) = true) :
    jsonRecoverRun ph [("/", [(0, toJsonString (some 4) (.obj fs))])]
      = (.ok (.obj fs), []) := by
  have h1 : rmapLookup "/" [("/", [(0, toJsonString (some 4) (.obj fs))])]
      = some [(0, toJsonString (some 4) (.obj fs))] := by
    show (if ("/" : String) = "/" then some [(0, toJsonString (some 4) (.obj fs))]
      else rmapLookup "/" []) = some [(0, toJsonString (some 4) (.obj fs))]
    rw [if_pos rfl]
  have h2 : ilookup 0 [(0, toJsonString (some 4) (.obj fs))]
      = some (toJsonString (some 4) (.obj fs)) := by
    show (if (0 : Nat) = 0 then some (toJsonString (some 4) (.obj fs))
      else ilookup 0 []) = some (toJsonString (some 4) (.obj fs))
    rw [if_pos rfl]
  have h3 : loads (toJsonString (some 4) (.obj fs)) = some (.obj fs) := by
    show loadsCh (dumpsInd 4 0 (.obj fs)) = some (.obj fs)
    have hrt := rti_val (.obj fs) 4 0 ((dumpsInd 4 0 (.obj fs)).length + 1) []
      (Nat.le_trans (dumpsIndLen_val 4 0 (.obj fs)) (Nat.le_succ _)) hclean hwf rfl
    rw [List.append_nil] at hrt
    unfold loadsCh
    rw [hrt]
    rfl
  have h4 : rmapErase "/" [("/", [(0, toJsonString (some 4) (.obj fs))])] = [] := by
    show (if ("/" : String) = "/" then []
      else ("/", [(0, toJsonString (some 4) (.obj fs))]) :: rmapErase "/" []) = []
    rw [if_pos rfl]
  unfold jsonRecoverRun
  rw [h1]
  dsimp only
  rw [h2]
  dsimp only
  rw [h3]
  dsimp only
  rw [h4]
  show (match recoverLoop [] (.obj fs) with
    | .error e => ((.error e : Except PyError Json), ([] : ResultMap))
    | .ok base' => (toJsonObjectFormatted ph base', ([] : ResultMap))) = (.ok (.obj fs), [])
  rw [show recoverLoop [] (.obj fs) = .ok (.obj fs) from rfl]
  show (toJsonObjectFormatted ph (.obj fs), ([] : ResultMap)) = (.ok (.obj fs), [])
  rw [toJsonObjectFormatted_clean hclean hwf hph]

/-! ## Claim theorems -/

/-- **C1** (counterexample).  The round-trip identity fails as stated: the
document `\x7b"k": "a  b"\x7d` contains no array at all (so no array's
serialization exceeds the budget), yet the full cycle — indexing is a no-op,
the planner emits only the root unit, and the root unit's own serialization
is supplied as its result — returns `\x7b"k": "a b"\x7d`: the whitespace
collapse of `to_json_object_formatted` rewrites the string scalar, so the
result is not deep-equal to the input. -/
theorem round_trip_corrupts_unclean_strings :
    arrsLeB String.length 1000 (.obj [("k", .str "a  b")]) = true ∧
    jsonRecoverRun "jsonObject"
        [("/", [(0, toJsonString (some 4) (.obj [("k", .str "a  b")]))])]
      = (.ok (.obj [("k", .str "a b")]), []) ∧
    ¬(jsonRecover "jsonObject"
        [("/", [(0, toJsonString (some 4) (.obj [("k", .str "a  b")]))])]
      = .ok (.obj [("k", .str "a  b")])) :=
  ⟨by decide, by decide, by decide⟩

/-- **C1** (amended).  Round-trip identity on clean documents: for every
dict-rooted document that is well-formed (duplicate-free, delimiter-free
keys), whose strings the cleanup pipeline leaves alone (printable ASCII
without quotes, backslashes, double spaces, or a leading brace), whose top
level does not mention the placeholder, and in which no array's serialized
form exceeds the token budget: one `json_traverse` pass leaves the document
and the extraction map unchanged, `create_input_list` plans exactly the root
unit, and `json_recover` on the root unit's own serialization returns a
document deep-equal to the original, key order preserved. -/
theorem round_trip_identity_on_clean_documents
    (nt : String → Nat) (mt : Nat) (ph : String) (fs : List (String × Json))
    (hwf : wfB (.obj fs) = true) (hclean : cleanJson (.obj fs) = true)
    (hph : noPhTopB ph (.obj fs) = true) (harr : arrsLeB nt mt (.obj fs) = true) :
    jsonTraverse nt mt ph [] (.obj fs) (.obj fs) [] = some (.obj fs, []) ∧
    createInputList nt mt ph (.obj fs) = some [prepareTuple nt (.obj fs) "/" 0] ∧
    jsonRecoverRun ph [("/", [(0, toJsonString (some 4) (.obj fs))])]
      = (.ok (.obj fs), []) :=
  ⟨traverse_noop nt mt ph [] (.obj fs) (.obj fs) [] harr,
   createInputList_noop harr,
   jsonRecoverRun_root_only hwf hclean hph⟩

/-- Witness for the amended C1 round trip at a concrete clean document. -/
theorem round_trip_identity_on_clean_documents_witness :
    jsonTraverse String.length 100 "jsonObject" []
        (.obj [("k", .str "v"), ("a", .arr [.num 1, .num 2])])
        (.obj [("k", .str "v"), ("a", .arr [.num 1, .num 2])]) []
      = some (.obj [("k", .str "v"), ("a", .arr [.num 1, .num 2])], []) ∧
    createInputList String.length 100 "jsonObject"
        (.obj [("k", .str "v"), ("a", .arr [.num 1, .num 2])])
      = some [prepareTuple String.length
          (.obj [("k", .str "v"), ("a", .arr [.num 1, .num 2])]) "/" 0] ∧
    jsonRecoverRun "jsonObject"
        [("/", [(0, toJsonString (some 4)
          (.obj [("k", .str "v"), ("a", .arr [.num 1, .num 2])]))])]
      = (.ok (.obj [("k", .str "v"), ("a", .arr [.num 1, .num 2])]), []) :=
  round_trip_identity_on_clean_documents String.length 100 "jsonObject"
    [("k", .str "v"), ("a", .arr [.num 1, .num 2])]
    (by decide) (by decide) (by decide) (by decide)

/-- **C9** (counterexample).  `StringBuilder.get` with an empty container
returns the empty string, not the root sentinel `"/"`: the sentinel is only
ever assigned by the unit planner, never produced by `get`. -/
theorem stringBuilderGet_empty_not_root :
    stringBuilderGet "/" [] = "" ∧ stringBuilderGet "/" [] ≠ "/" := by
  constructor
  · rfl
  · decide

/-- **C9** (amended).  `StringBuilder.get` joins the pushed segments in push
order with the delimiter; on an empty container this join is the empty
string (not the root sentinel `"/"`). -/
theorem stringBuilderGet_spec (d : String) :
    stringBuilderGet d [] = "" ∧ ∀ l, stringBuilderGet d l = String.intercalate d l := by
  refine ⟨rfl, fun l => ?_⟩
  unfold stringBuilderGet
  exact pyJoinD_eq_intercalate d l

/-- **C2** (counterexample).  For the nested chain `"a/b"` the two writes of
`json_recover` do not target the same location: direct assignment creates a
new top-level key literally named `"a/b"`, while `update_value` writes at
`base["a"]["b"]`. -/
theorem recover_double_write_differs :
    pyAssign "a/b" (.arr [.str "x"]) (.obj [("a", .obj [("b", .null)])]) =
      some (.obj [("a", .obj [("b", .null)]), ("a/b", .arr [.str "x"])]) ∧
    updateValue "a/b" (.arr [.str "x"]) (.obj [("a", .obj [("b", .null)])]) =
      some (.obj [("a", .obj [("b", .arr [.str "x"])])]) ∧
    (Json.obj [("a", .obj [("b", .null)]), ("a/b", .arr [.str "x"])]) ≠
      (Json.obj [("a", .obj [("b", .arr [.str "x"])])]) := by
  refine ⟨by decide, by decide, by decide⟩

/-- **C2** (amended).  Only for a top-level (single-segment, slash-free)
chain do the direct key assignment and `update_value` perform the same
write: both then install the value under that key of the base mapping. -/
theorem recover_double_write_top_level (chain : String) (v : Json)
    (fs : List (String × Json)) (h : '/' ∉ chain.data) :
    updateValue chain v (.obj fs) = some (.obj (objInsert chain v fs)) ∧
    pyAssign chain v (.obj fs) = some (.obj (objInsert chain v fs)) := by
  constructor
  · unfold updateValue
    rw [pySplitSlash_no_slash chain h]
    rfl
  · rfl

/-- Witness for `recover_double_write_top_level` at the chain `"a"`. -/
theorem recover_double_write_top_level_witness :
    updateValue "a" Json.null (.obj [("a", .num 1)]) =
      some (.obj (objInsert "a" Json.null [("a", .num 1)])) ∧
    pyAssign "a" Json.null (.obj [("a", .num 1)]) =
      some (.obj (objInsert "a" Json.null [("a", .num 1)])) :=
  recover_double_write_top_level "a" Json.null [("a", .num 1)] (by decide)

/-- **C4** (confirmed).  `json_recover` raises (KeyError for a missing root
entry or missing index `0`, `json.JSONDecodeError` for an unparseable root
text) and never returns a value in those situations. -/
theorem json_recover_fails_on_bad_root (ph : String) (data : ResultMap)
    (h : rmapLookup "/" data = none ∨
      ∃ inner, rmapLookup "/" data = some inner ∧
        (ilookup 0 inner = none ∨ ∃ t, ilookup 0 inner = some t ∧ loads t = none)) :
    ∃ e, jsonRecover ph data = .error e := by
  unfold jsonRecover jsonRecoverRun
  rcases h with h | ⟨inner, hi, h2⟩
  · rw [h]
    exact ⟨.keyError, rfl⟩
  · rcases h2 with h2 | ⟨t, ht, hl⟩
    · simp only [hi, h2]
      exact ⟨.keyError, rfl⟩
    · simp only [hi, ht, hl]
      exact ⟨.jsonDecodeError, rfl⟩

/-- Witness for `json_recover_fails_on_bad_root`: a result map whose root
text is `"not json"`. -/
theorem json_recover_fails_on_bad_root_witness :
    ∃ e, jsonRecover "p" [("/", [(0, "not json")])] = .error e :=
  json_recover_fails_on_bad_root "p" [("/", [(0, "not json")])]
    (Or.inr ⟨[(0, "not json")], by decide, Or.inr ⟨"not json", by decide, by decide⟩⟩)

/-- **C5** (code behavior at the failing input).  For the document
`{"items": [1, 2]}` with token function `String.length` and budget `5`,
the planner emits units addressed `("/",0)`, `("items",0)`, `("items",1)`;
feeding `json_recover` a result map that lacks the planned address
`("items",1)` does not fail fast: it silently returns a document whose
array is truncated to the one present result. -/
theorem json_recover_silent_truncation :
    createInputList String.length 5 "jsonObject" (.obj [("items", .arr [.num 1, .num 2])]) =
      some [("/", 0, "\x7b\n    \"items\": \"jsonObject\"\n\x7d", 87),
        ("items", 0, "1", 3), ("items", 1, "2", 3)] ∧
    jsonRecover "jsonObject"
        [("/", [(0, "\x7b\n    \"items\": \"jsonObject\"\n\x7d")]), ("items", [(0, "1")])] =
      .ok (.obj [("items", .arr [.str "1"])]) := by
  refine ⟨by decide, by decide⟩

/-- **C7** (counterexample).  The full decompose-then-recover cycle on input
`[1, 2, 3]` (token function `String.length`, budget `5`) with identity
external processing — each planned unit's result is exactly its serialized
payload — yields `["1", "2", "3"]`: the wrapper key is stripped, but the
elements come back as strings, not as the numbers `[1, 2, 3]`. -/
theorem top_level_array_cycle_strings :
    createInputList String.length 5 "jsonObject" (.arr [.num 1, .num 2, .num 3]) =
      some [("/", 0, "\x7b\n    \"jsonObject\": \"jsonObject\"\n\x7d", 102),
        ("jsonObject", 0, "1", 3), ("jsonObject", 1, "2", 3), ("jsonObject", 2, "3", 3)] ∧
    jsonRecover "jsonObject"
        [("/", [(0, "\x7b\n    \"jsonObject\": \"jsonObject\"\n\x7d")]),
         ("jsonObject", [(0, "1"), (1, "2"), (2, "3")])] =
      .ok (.arr [.str "1", .str "2", .str "3"]) ∧
    (Json.arr [.str "1", .str "2", .str "3"]) ≠ (Json.arr [.num 1, .num 2, .num 3]) := by
  refine ⟨by decide, by decide, by decide⟩

/-- **C7** (amended).  Construction wraps any sequence root in a mapping
under the placeholder key, and the full cycle on `[1, 2, 3]` (budget
exceeded, identity external processing) returns the wrapper-stripped list
of the elements' serialized texts, `["1", "2", "3"]`. -/
theorem top_level_array_wrap_and_cycle :
    (∀ (ph : String) (xs : List Json), jsonOpsInit ph (.arr xs) = .obj [(ph, .arr xs)]) ∧
    jsonRecover "jsonObject"
        [("/", [(0, "\x7b\n    \"jsonObject\": \"jsonObject\"\n\x7d")]),
         ("jsonObject", [(0, "1"), (1, "2"), (2, "3")])] =
      .ok (.arr [.str "1", .str "2", .str "3"]) := by
  refine ⟨fun ph xs => rfl, by decide⟩

/-- **C10** (counterexample).  A result map that does contain a root entry
but whose root text fails to parse keeps its `"/"` entry: `data.pop("/")`
runs only after `json.loads(data["/"][0])` has succeeded, so not every map
with a root entry loses it. -/
theorem json_recover_keeps_root_on_parse_failure :
    rmapLookup "/" [("/", [(0, "not json")])] = some [(0, "not json")] ∧
    (jsonRecoverRun "p" [("/", [(0, "not json")])]).2 = [("/", [(0, "not json")])] := by
  refine ⟨by decide, by decide⟩

/-- **C10** (amended).  Whenever the root entry exists and its index-`0`
text parses as JSON, `json_recover` removes the `"/"` entry from the
caller's map before processing the remaining chains, so the caller's map
has lost its root entry even when a later step raises. -/
theorem json_recover_mutates_argument (ph : String) (data : ResultMap)
    (inner : IndexMap) (t : String) (base : Json)
    (h1 : rmapLookup "/" data = some inner) (h2 : ilookup 0 inner = some t)
    (h3 : loads t = some base) :
    (jsonRecoverRun ph data).2 = rmapErase "/" data := by
  unfold jsonRecoverRun
  simp only [h1, h2, h3]
  cases recoverLoop (rmapErase "/" data) base <;> rfl

/-- Witness for `json_recover_mutates_argument`: the root text parses, a
later chain's results then raise `KeyError` (index `0` missing), and the
caller's map has still lost its root entry. -/
theorem json_recover_mutates_argument_witness :
    (jsonRecoverRun "p" [("/", [(0, "\x7b\x7d")]), ("a", [(1, "x")])]).2 =
      rmapErase "/" [("/", [(0, "\x7b\x7d")]), ("a", [(1, "x")])] :=
  json_recover_mutates_argument "p" [("/", [(0, "\x7b\x7d")]), ("a", [(1, "x")])]
    [(0, "\x7b\x7d")] "\x7b\x7d" (.obj []) (by decide) (by decide) (by decide)

/-- **C3** (confirmed).  Extraction completeness on a well-formed working
document (a dict root with pairwise-distinct, delimiter-free keys, the
spec's invariants): one `json_traverse` pass succeeds, and (a) for every
array reachable through mapping keys whose serialized form exceeds the
budget, the resulting working document holds the placeholder at that
array's key chain and the extraction map sends exactly that key chain to
exactly that array; (b) every extraction-map entry arises this way — in
particular nothing is recorded for arrays at or under budget. -/
theorem json_traverse_extraction (nt : String → Nat) (mt : Nat) (ph : String)
    (fs0 : List (String × Json)) (hwf : wfB (.obj fs0) = true) :
    ∃ d' m', jsonTraverse nt mt ph [] (.obj fs0) (.obj fs0) [] = some (d', m') ∧
      (∀ p arr, pathLookup (.obj fs0) p = some (.arr arr) →
         mt < nt (toJsonString none (.arr arr)) →
         objLookup (stringBuilderGet "/" p) m' = some (.arr arr) ∧
         pathLookup d' p = some (.str ph)) ∧
      (∀ kc e, objLookup kc m' = some e →
         ∃ p arr, kc = stringBuilderGet "/" p ∧ e = .arr arr ∧
           pathLookup (.obj fs0) p = some (.arr arr) ∧
           mt < nt (toJsonString none (.arr arr))) := by
  obtain ⟨root', hset, htrav⟩ := bridge_val nt mt ph (.obj fs0) [] (.obj fs0) [] hwf
    (pathLookup_nil _) (fun _ => ⟨fs0, rfl⟩)
  rw [setAt_nil] at hset
  cases hset
  have hnodE : (((idx nt mt ph [] (.obj fs0)).2).map Prod.fst).Nodup :=
    idx_chains_nodup nt mt ph (.obj fs0) [] hwf (by simp)
  have hins : insertAll [] (idx nt mt ph [] (.obj fs0)).2 = (idx nt mt ph [] (.obj fs0)).2 := by
    rw [insertAll_fresh_append _ [] (by simp) hnodE]
    simp
  rw [hins] at htrav
  refine ⟨_, _, htrav, ?_, ?_⟩
  · intro p arr hp hb
    have hc := idx_complete nt mt ph p (.obj fs0) [] arr hp hb
    rw [List.nil_append] at hc
    exact ⟨objLookup_of_mem_nodup hnodE hc.2, hc.1⟩
  · intro kc e hl
    obtain ⟨q, arr, heq, hq, hb⟩ :=
      idx_sound nt mt ph (.obj fs0) [] hwf (kc, e) (objLookup_mem hl)
    rw [List.nil_append] at heq
    exact ⟨q, arr, congrArg Prod.fst heq, congrArg Prod.snd heq, hq, hb⟩

/-- Witness for `json_traverse_extraction` on the document
`{"a": {"b": [1, 2]}}` with token function `String.length` and budget `5`. -/
theorem json_traverse_extraction_witness :
    ∃ d' m', jsonTraverse String.length 5 "jsonObject" []
        (.obj [("a", .obj [("b", .arr [.num 1, .num 2])])])
        (.obj [("a", .obj [("b", .arr [.num 1, .num 2])])]) [] = some (d', m') ∧
      (∀ p arr, pathLookup (.obj [("a", .obj [("b", .arr [.num 1, .num 2])])]) p
          = some (.arr arr) →
         5 < String.length (toJsonString none (.arr arr)) →
         objLookup (stringBuilderGet "/" p) m' = some (.arr arr) ∧
         pathLookup d' p = some (.str "jsonObject")) ∧
      (∀ kc e, objLookup kc m' = some e →
         ∃ p arr, kc = stringBuilderGet "/" p ∧ e = .arr arr ∧
           pathLookup (.obj [("a", .obj [("b", .arr [.num 1, .num 2])])]) p
             = some (.arr arr) ∧
           5 < String.length (toJsonString none (.arr arr))) :=
  json_traverse_extraction String.length 5 "jsonObject"
    [("a", .obj [("b", .arr [.num 1, .num 2])])] (by decide)

/-- **C8** (confirmed).  Idempotent re-indexing: a second `json_traverse`
pass over the already-indexed working document (on the same engine
instance, whose extraction map still holds the first pass's entries)
returns the document and the extraction map unchanged — extracted arrays
have become the placeholder string, which is not a sequence. -/
theorem json_traverse_idempotent (nt : String → Nat) (mt : Nat) (ph : String)
    (doc d1 : Json) (m1 : List (String × Json))
    (hwf : wfB (jsonOpsInit ph doc) = true)
    (h1 : jsonTraverse nt mt ph [] (jsonOpsInit ph doc) (jsonOpsInit ph doc) []
      = some (d1, m1)) :
    jsonTraverse nt mt ph [] d1 d1 m1 = some (d1, m1) := by
  have hobj : ∃ fs, jsonOpsInit ph doc = .obj fs := by
    cases doc with
    | obj fs => exact ⟨fs, rfl⟩
    | null => exact ⟨_, rfl⟩
    | bool b => exact ⟨_, rfl⟩
    | num n => exact ⟨_, rfl⟩
    | str s => exact ⟨_, rfl⟩
    | arr xs => exact ⟨_, rfl⟩
  obtain ⟨fs, hfs⟩ := hobj
  obtain ⟨root', hset, htrav⟩ := bridge_val nt mt ph (jsonOpsInit ph doc) []
    (jsonOpsInit ph doc) [] hwf (pathLookup_nil _) (fun _ => hfs ▸ ⟨fs, rfl⟩)
  rw [setAt_nil] at hset
  cases hset
  rw [h1] at htrav
  have hd1 : d1 = (idx nt mt ph [] (jsonOpsInit ph doc)).1 :=
    congrArg Prod.fst (Option.some.inj htrav)
  have hm1 : m1 = insertAll [] (idx nt mt ph [] (jsonOpsInit ph doc)).2 :=
    congrArg Prod.snd (Option.some.inj htrav)
  have hwf1 : wfB d1 = true := by
    rw [hd1]
    exact idx_wf nt mt ph _ [] hwf
  obtain ⟨r2, hset2, htrav2⟩ := bridge_val nt mt ph d1 [] d1 m1 hwf1
    (pathLookup_nil _) (fun _ => by
      rw [hd1, hfs, idx_obj]
      exact ⟨_, rfl⟩)
  rw [setAt_nil] at hset2
  cases hset2
  have hidem : idx nt mt ph [] d1 = (d1, []) := by
    rw [hd1]
    exact idx_idem nt mt ph _ []
  rw [hidem] at htrav2
  simpa [insertAll_nil] using htrav2

/-- Witness for `json_traverse_idempotent` on `{"a": [1, 2]}` with token
function `String.length` and budget `5`: the second pass returns the
placeholder-bearing document and the one-entry extraction map unchanged. -/
theorem json_traverse_idempotent_witness :
    jsonTraverse String.length 5 "jsonObject" []
        (.obj [("a", .str "jsonObject")]) (.obj [("a", .str "jsonObject")])
        [("a", .arr [.num 1, .num 2])]
      = some (.obj [("a", .str "jsonObject")], [("a", .arr [.num 1, .num 2])]) :=
  json_traverse_idempotent String.length 5 "jsonObject"
    (.obj [("a", .arr [.num 1, .num 2])]) (.obj [("a", .str "jsonObject")])
    [("a", .arr [.num 1, .num 2])] (by decide) (by decide)

/-- **C6** (confirmed).  Index stability: (a) `create_input_list` emits the
root unit first, then exactly one unit per extracted-array element —
chains in extraction-map insertion order, indices `0 .. n-1` in the
array's element order; (b) `json_recover` rebuilds each chain's array by
reading indices `0 .. n-1` in ascending order, so a successfully built
list has exactly the entry of index `i` at position `i`; (c) the recovered
value is the same for every order in which the result map's per-chain
entries were populated (any permutation of each `index → text` dict with
duplicate-free indices). -/
theorem index_stability (nt : String → Nat) (mt : Nat) (ph : String) :
    (∀ (doc : Json) (L : List InputTuple), createInputList nt mt ph doc = some L →
       ∃ d' m, jsonTraverse nt mt ph [] (jsonOpsInit ph doc) (jsonOpsInit ph doc) []
           = some (d', m) ∧
         L.map (fun t => (t.1, t.2.1)) =
           ("/", 0) :: m.flatMap (fun kv =>
             (List.range (pyEnumElems kv.2).length).map (fun i => (kv.1, i)))) ∧
    (∀ (inner : IndexMap) (l : List String), buildUpdatedList inner = some l →
       l.length = inner.length ∧ ∀ i, i < inner.length → ilookup i inner = l.get? i) ∧
    (∀ d1 d2 : ResultMap, RMapEquiv d1 d2 → jsonRecover ph d1 = jsonRecover ph d2) := by
  refine ⟨?_, ?_, ?_⟩
  · intro doc L h
    unfold createInputList at h
    dsimp only at h
    cases htrav : jsonTraverse nt mt ph [] (jsonOpsInit ph doc) (jsonOpsInit ph doc) [] with
    | none => rw [htrav] at h; exact Option.noConfusion h
    | some dm =>
        obtain ⟨d', m⟩ := dm
        rw [htrav] at h
        dsimp only at h
        cases h
        refine ⟨d', m, rfl, ?_⟩
        rw [List.map_cons]
        congr 1
        rw [List.map_flatMap]
        have hfun : (fun kv : String × Json =>
            (((pyEnumElems kv.2).enum.map
              (fun p => prepareTuple nt p.2 kv.1 p.1)).map (fun t => (t.1, t.2.1)))) =
            fun kv => (List.range (pyEnumElems kv.2).length).map (fun i => (kv.1, i)) := by
          funext kv
          rw [List.map_map]
          have h1 : ((fun t : InputTuple => (t.1, t.2.1)) ∘
              fun p : Nat × Json => prepareTuple nt p.2 kv.1 p.1) =
              (fun i => (kv.1, i)) ∘ Prod.fst := rfl
          rw [h1, ← List.map_map, List.enum_map_fst]
        rw [hfun]
  · intro inner l h
    obtain ⟨hlen, hidx⟩ := mapM_get? (fun i => ilookup i inner) (List.range inner.length) l h
    refine ⟨by simpa using hlen, fun i hi => ?_⟩
    have := hidx i
    rw [List.get?_eq_getElem?, List.getElem?_range hi] at this
    simpa using this
  · intro d1 d2 h
    unfold jsonRecover jsonRecoverRun
    rcases rmapLookup_equiv h "/" with ⟨h1, h2⟩ | ⟨i1, i2, h1, h2, hperm, hnd⟩
    · rw [h1, h2]
    · rw [h1, h2]
      dsimp only
      rw [ilookup_perm hperm hnd 0]
      cases ilookup 0 i2 with
      | none => rfl
      | some t =>
          dsimp only
          cases loads t with
          | none => rfl
          | some base =>
              dsimp only
              rw [recoverLoop_equiv (rmapErase_equiv h "/") base]
              cases recoverLoop (rmapErase "/" d2) base <;> rfl

/-- Witness for `index_stability`: the plan for `{"items": [1, 2]}` (token
function `String.length`, budget `5`), a concrete ascending rebuild, and a
result map fed in two different population orders. -/
theorem index_stability_witness :
    (∃ d' m, jsonTraverse String.length 5 "jsonObject" []
        (jsonOpsInit "jsonObject" (.obj [("items", .arr [.num 1, .num 2])]))
        (jsonOpsInit "jsonObject" (.obj [("items", .arr [.num 1, .num 2])])) []
          = some (d', m) ∧
      ([("/", 0, "\x7b\n    \"items\": \"jsonObject\"\n\x7d", 87),
        ("items", 0, "1", 3), ("items", 1, "2", 3)] : List InputTuple).map
          (fun t => (t.1, t.2.1)) =
        ("/", 0) :: m.flatMap (fun kv =>
          (List.range (pyEnumElems kv.2).length).map (fun i => (kv.1, i)))) ∧
    ((["a", "b"] : List String).length = ([(1, "b"), (0, "a")] : IndexMap).length ∧
      ∀ i, i < ([(1, "b"), (0, "a")] : IndexMap).length →
        ilookup i [(1, "b"), (0, "a")] = (["a", "b"] : List String).get? i) ∧
    jsonRecover "jsonObject" [("/", [(0, "\x7b\x7d")]), ("a", [(0, "x"), (1, "y")])] =
      jsonRecover "jsonObject" [("/", [(0, "\x7b\x7d")]), ("a", [(1, "y"), (0, "x")])] :=
  ⟨(index_stability String.length 5 "jsonObject").1
      (.obj [("items", .arr [.num 1, .num 2])]) _ (by decide),
    (index_stability String.length 5 "jsonObject").2.1 [(1, "b"), (0, "a")]
      ["a", "b"] (by decide),
    (index_stability String.length 5 "jsonObject").2.2 _ _
      (List.Forall₂.cons ⟨rfl, by decide, by decide⟩
        (List.Forall₂.cons ⟨rfl, by decide, by decide⟩ List.Forall₂.nil))⟩

end JsonUpdater
